import Mathlib

/-!
Verification of the parachain-staking pallet (collator selection and
delegated-stake reward distribution) against its natural-language
specification.

The Rust source under `pallets/parachain-staking/src/lib.rs` is shallowly
embedded below.  Machine balances are `u128` with saturating arithmetic in
the source; we model them as `Nat`, where truncated subtraction `∸` agrees
exactly with `saturating_sub`, and addition agrees with `saturating_add`
on all values below `2^128` (the claims under study never exercise the
saturation bound; where the source explicitly handles overflow, namely in
`compute_total_reward_to_pay`, the `2^128` cap is modelled explicitly).

The helper modules `types.rs`, `set.rs` and `nomination_requests.rs` of the
same pallet are not part of the provided sources (only `lib.rs`, its tests
and mock are); definitions that embed functions from those modules are
modelled from the specification text and are marked `Modelled from the
spec:` in their doc comments.
-/

namespace AvnStaking

/-! ## Perbill fixed-point arithmetic (sp_arithmetic)

`Perbill` stores `parts ∈ [0, 10^9]`.  `from_rational` builds the ratio
`p / q` rounding down, first reducing both numbers by
`factor = ⌈q / 10^9⌉` so that the reduced denominator fits the accuracy.
`Perbill * balance` computes `(b / 10^9) * parts + (b % 10^9) * parts / 10^9`,
which equals `b * parts / 10^9` exactly. -/

def perbillAccuracy : Nat := 1000000000

/-- Ceiling division used by `PerThing::from_rational`. -/
def divCeil (x f : Nat) : Nat :=
  if x % f = 0 then x / f else x / f + 1

/-- Embedding of `Perbill::from_rational(p, q)` (rounds down). -/
def fromRational (p q : Nat) : Nat :=
  let q1 := max q 1
  let p1 := min p q1
  let factor := max (divCeil q1 perbillAccuracy) 1
  (p1 / factor) * perbillAccuracy / (q1 / factor)

/-- Embedding of `Perbill * balance` (the `ops::Mul<N> for PerThing` instance). -/
def perbillMul (parts b : Nat) : Nat :=
  (b / perbillAccuracy) * parts + (b % perbillAccuracy) * parts / perbillAccuracy

/-- The split multiplication of `PerThing::mul` computes the exact floor
`b * parts / 10^9`. -/
theorem perbillMul_eq (parts b : Nat) :
    perbillMul parts b = b * parts / perbillAccuracy := by
  have h : b * parts
      = perbillAccuracy * (b / perbillAccuracy * parts) + b % perbillAccuracy * parts := by
    conv_lhs => rw [← Nat.div_add_mod b perbillAccuracy]
    ring
  rw [perbillMul, h, Nat.mul_add_div (by decide)]

/-! ## Reward pot accounting (`compute_total_reward_to_pay`, lib.rs)

Balances are `u128`; the function uses `checked_sub` / `checked_add` with
explicit fallback branches, so the `2^128` cap is modelled explicitly here. -/

def u128Max : Nat := 2 ^ 128 - 1

def checkedSub (a b : Nat) : Option Nat :=
  if b ≤ a then some (a - b) else none

def checkedAdd (a b : Nat) : Option Nat :=
  if a + b ≤ u128Max then some (a + b) else none

/-- Embedding of `Pallet::reward_pot`: free balance of the reward-pot account
minus the existential minimum, saturating at zero. -/
def rewardPot (freeBalance minBalance : Nat) : Nat :=
  freeBalance - minBalance

/-- Result of `compute_total_reward_to_pay`: the released payout, the new
`LockedEraPayout` value, and whether `NotEnoughFundsForEraPayment` was emitted. -/
structure RewardToPayResult where
  payout : Nat
  newLocked : Nat
  notEnoughFundsEvent : Bool
  deriving DecidableEq, Repr

/-- Embedding of `Pallet::compute_total_reward_to_pay` (lib.rs lines
1168–1193).  `locked` is the current `LockedEraPayout` storage value. -/
def computeTotalRewardToPay (freeBalance minBalance locked : Nat) : RewardToPayResult :=
  let totalUnpaid := rewardPot freeBalance minBalance
  let sub := checkedSub totalUnpaid locked
  let notEnough := sub.isNone
  let payout0 := sub.getD 0
  match checkedAdd locked payout0 with
  | some newLocked => ⟨payout0, newLocked, notEnough⟩
  | none =>
      -- overflow branch: payout is reduced to the remaining headroom and
      -- `LockedEraPayout` is set to the maximum value
      ⟨u128Max - locked, u128Max, notEnough⟩

/-- Claim C6: at delayed-payout preparation the amount released equals
`free_balance(reward_pot) - minimum_balance - locked_era_payout`, clamped to
zero (emitting the not-enough-funds signal exactly when `locked_era_payout`
exceeds the pot balance), and `LockedEraPayout` grows by exactly the released
amount. -/
theorem compute_total_reward_to_pay_correct
    (freeBalance minBalance locked : Nat)
    (hfree : freeBalance ≤ u128Max) (hlocked : locked ≤ u128Max) :
    (computeTotalRewardToPay freeBalance minBalance locked).payout
        = freeBalance - minBalance - locked ∧
    (computeTotalRewardToPay freeBalance minBalance locked).newLocked
        = locked + (computeTotalRewardToPay freeBalance minBalance locked).payout ∧
    ((computeTotalRewardToPay freeBalance minBalance locked).notEnoughFundsEvent
        ↔ freeBalance - minBalance < locked) := by
  unfold computeTotalRewardToPay rewardPot
  by_cases h : locked ≤ freeBalance - minBalance
  · have hsub : checkedSub (freeBalance - minBalance) locked
        = some (freeBalance - minBalance - locked) := by
      simp [checkedSub, h]
    have hadd : checkedAdd locked (freeBalance - minBalance - locked)
        = some (locked + (freeBalance - minBalance - locked)) := by
      simp only [checkedAdd, if_pos (show locked + (freeBalance - minBalance - locked) ≤ u128Max
        by omega)]
    simp only [hsub, Option.getD_some, Option.isNone_some, hadd]
    refine ⟨by trivial, by trivial, ?_⟩
    simp only [Bool.false_eq_true, false_iff]
    omega
  · have hsub : checkedSub (freeBalance - minBalance) locked = none := by
      simp [checkedSub, h]
    have hadd : checkedAdd locked 0 = some (locked + 0) := by
      simp only [checkedAdd, if_pos (show locked + 0 ≤ u128Max by omega)]
    simp only [hsub, Option.getD_none, Option.isNone_none, hadd]
    refine ⟨by omega, by trivial, ?_⟩
    simp only [show (true = true) = True from by simp, true_iff]
    omega

/-- Witness for C6 at a concrete input. -/
theorem compute_total_reward_to_pay_correct_witness :
    (100 : Nat) ≤ u128Max ∧ (30 : Nat) ≤ u128Max ∧
    (computeTotalRewardToPay 100 10 30).payout = 100 - 10 - 30 ∧
    (computeTotalRewardToPay 100 10 30).newLocked
        = 30 + (computeTotalRewardToPay 100 10 30).payout ∧
    ((computeTotalRewardToPay 100 10 30).notEnoughFundsEvent ↔ 100 - 10 < 30) := by
  have h := compute_total_reward_to_pay_correct 100 10 30 (by decide) (by decide)
  exact ⟨by decide, by decide, h.1, h.2.1, h.2.2⟩

/-! ## Candidate selection (`compute_top_candidates`, lib.rs lines 1356–1373)

Account ids are modelled as `Nat`.  The candidate pool is the `OrderedSet`
of `Bond { owner, amount }` records; `compute_top_candidates` sorts a copy of
its backing vector, so for the theorems below the pool is an arbitrary list
of bonds. -/

structure Bond where
  owner : Nat
  amount : Nat
  deriving DecidableEq, Repr

/-- Embedding of `Pallet::compute_top_candidates`: stable-sort the pool by
amount ascending (`sort_by` on `amount` is stable in Rust), reverse, take
`TotalSelected`, keep those with at least `MinCollatorStk`, project to the
owners and sort them ascending. -/
def computeTopCandidates (pool : List Bond) (totalSelected minCollatorStk : Nat) :
    List Nat :=
  let candidates := pool.mergeSort (fun a b => a.amount ≤ b.amount)
  let collators :=
    ((candidates.reverse.take totalSelected).filter
        (fun x => decide (minCollatorStk ≤ x.amount))).map (fun x => x.owner)
  collators.mergeSort (fun a b => a ≤ b)

/-- Taking then filtering commutes with filtering then taking on a list whose
`R`-sorted order makes the filtered set a prefix (whenever `R a b` and `b`
passes, `a` passes too). -/
theorem filter_take_comm {α : Type} (p : α → Bool) (R : α → α → Prop)
    (hp : ∀ a b, R a b → p b = true → p a = true) :
    ∀ (l : List α) (n : Nat), l.Pairwise R →
      (l.take n).filter p = (l.filter p).take n := by
  intro l
  induction l with
  | nil => intro n _; simp
  | cons x xs ih =>
      intro n hsorted
      rcases hsorted with _ | ⟨hx, hxs⟩
      cases n with
      | zero => simp
      | succ n =>
          simp only [List.take_succ_cons, List.filter_cons]
          by_cases hpx : p x = true
          · simp only [hpx, if_pos, List.take_succ_cons]
            rw [ih n hxs]
          · simp only [hpx]
            have hnone : ∀ y ∈ xs, p y = false := by
              intro y hy
              rcases h : p y with _ | _
              · rfl
              · exact absurd (hp x y (hx y hy) h) hpx
            have h1 : xs.filter p = [] := List.filter_eq_nil_iff.mpr (by
              intro y hy
              simp [hnone y hy])
            have h2 : (xs.take n).filter p = [] := List.filter_eq_nil_iff.mpr (by
              intro y hy
              simp [hnone y (List.mem_of_mem_take hy)])
            simp [h1, h2]

/-- Claim C2: the selected set equals (for a descending-by-stake ordering of
the pool, which the spec leaves undetermined up to ties) the top
`TotalSelected` qualified candidates sorted ascending by account id, and every
unselected candidate with stake at least `MinCollatorStk` has stake no greater
than every selected candidate's stake. -/
theorem compute_top_candidates_correct
    (pool : List Bond) (totalSelected minCollatorStk : Nat)
    (hnodup : (pool.map (fun x => x.owner)).Nodup) :
    (∃ sorted : List Bond, sorted.Perm pool ∧
        sorted.Pairwise (fun a b => b.amount ≤ a.amount) ∧
        computeTopCandidates pool totalSelected minCollatorStk
          = (((sorted.filter (fun x => decide (minCollatorStk ≤ x.amount))).take
                totalSelected).map (fun x => x.owner)).mergeSort (fun a b => a ≤ b)) ∧
    (∀ b ∈ pool, minCollatorStk ≤ b.amount →
      b.owner ∉ computeTopCandidates pool totalSelected minCollatorStk →
      ∀ a ∈ pool, a.owner ∈ computeTopCandidates pool totalSelected minCollatorStk →
        b.amount ≤ a.amount) := by
  classical
  set S := (pool.mergeSort (fun a b => a.amount ≤ b.amount)).reverse with hS
  have hperm : S.Perm pool :=
    (List.reverse_perm _).trans (List.mergeSort_perm pool _)
  have hpair : S.Pairwise (fun a b => b.amount ≤ a.amount) := by
    rw [hS, List.pairwise_reverse]
    have := @List.sorted_mergeSort Bond
      (fun a b : Bond => a.amount ≤ b.amount)
      (fun a b c hab hbc => by
        simp only [decide_eq_true_eq] at *; omega)
      (fun a b => by
        simp only [Bool.or_eq_true, decide_eq_true_eq]; omega)
      pool
    exact this.imp (by intro a b h; simpa using h)
  have hcomm : ((S.take totalSelected).filter
        (fun x => decide (minCollatorStk ≤ x.amount)))
      = ((S.filter (fun x => decide (minCollatorStk ≤ x.amount))).take totalSelected) :=
    filter_take_comm _ _ (by
      intro a b hR hb
      simp only [decide_eq_true_eq] at *
      omega) S totalSelected hpair
  constructor
  · refine ⟨S, hperm, hpair, ?_⟩
    unfold computeTopCandidates
    rw [← hcomm]
  · intro b hbpool hbq hbns a hapool hasel
    have hmem : ∀ o : Nat, o ∈ computeTopCandidates pool totalSelected minCollatorStk ↔
        o ∈ ((S.take totalSelected).filter
              (fun x => decide (minCollatorStk ≤ x.amount))).map (fun x => x.owner) := by
      intro o
      unfold computeTopCandidates
      rw [List.mem_mergeSort]
    have hSnodup : (S.map (fun x => x.owner)).Nodup :=
      ((hperm.map (fun x => x.owner)).nodup_iff).mpr hnodup
    -- identify the selected bond witnessing a.owner
    rw [hmem] at hasel hbns
    rcases List.mem_map.mp hasel with ⟨a2, ha2, ha2o⟩
    have ha2take : a2 ∈ S.take totalSelected := (List.mem_filter.mp ha2).1
    have ha2S : a2 ∈ S := List.mem_of_mem_take ha2take
    have haS : a ∈ S := hperm.mem_iff.mpr hapool
    have haa2 : a = a2 :=
      List.inj_on_of_nodup_map hSnodup haS ha2S ha2o.symm
    have hbS : b ∈ S := hperm.mem_iff.mpr hbpool
    have hbdrop : b ∈ S.drop totalSelected := by
      by_contra hbd
      have hbtake : b ∈ S.take totalSelected := by
        have := (List.take_append_drop totalSelected S) ▸ hbS
        rcases List.mem_append.mp this with h | h
        · exact h
        · exact absurd h hbd
      exact hbns (List.mem_map.mpr ⟨b, List.mem_filter.mpr ⟨hbtake, by
        simpa using hbq⟩, rfl⟩)
    have hsplit := (List.take_append_drop totalSelected S) ▸ hpair
    have := (List.pairwise_append.mp hsplit).2.2
    have hle := this a2 ha2take b hbdrop
    rw [haa2]
    exact hle

/-- Witness for C2 on a concrete pool. -/
theorem compute_top_candidates_correct_witness :
    ((([⟨1, 30⟩, ⟨2, 10⟩, ⟨3, 20⟩] : List Bond).map (fun x => x.owner)).Nodup) ∧
    (∃ sorted : List Bond, sorted.Perm [⟨1, 30⟩, ⟨2, 10⟩, ⟨3, 20⟩] ∧
        sorted.Pairwise (fun a b => b.amount ≤ a.amount) ∧
        computeTopCandidates [⟨1, 30⟩, ⟨2, 10⟩, ⟨3, 20⟩] 2 15
          = (((sorted.filter (fun x => decide ((15:Nat) ≤ x.amount))).take
                2).map (fun x => x.owner)).mergeSort (fun a b => a ≤ b)) ∧
    (∀ b ∈ ([⟨1, 30⟩, ⟨2, 10⟩, ⟨3, 20⟩] : List Bond), 15 ≤ b.amount →
      b.owner ∉ computeTopCandidates [⟨1, 30⟩, ⟨2, 10⟩, ⟨3, 20⟩] 2 15 →
      ∀ a ∈ ([⟨1, 30⟩, ⟨2, 10⟩, ⟨3, 20⟩] : List Bond),
        a.owner ∈ computeTopCandidates [⟨1, 30⟩, ⟨2, 10⟩, ⟨3, 20⟩] 2 15 →
        b.amount ≤ a.amount) := by
  refine ⟨by decide, ?_⟩
  exact compute_top_candidates_correct [⟨1, 30⟩, ⟨2, 10⟩, ⟨3, 20⟩] 2 15 (by decide)

/-! ## Storage model

Pallet storage maps are modelled as association lists keyed by `Nat`
(account ids, era indices) or `Nat × Nat` (double maps keyed by era and
account).  `getA` is `get`, `putA` is `insert`, `removeA` is `remove`;
`ValueQuery` maps read through `Option.getD` with the type's default. -/

def getA {κ ν : Type} [DecidableEq κ] : List (κ × ν) → κ → Option ν
  | [], _ => none
  | (k2, v) :: rest, k => if k2 = k then some v else getA rest k

def putA {κ ν : Type} [DecidableEq κ] : List (κ × ν) → κ → ν → List (κ × ν)
  | [], k, v => [(k, v)]
  | (k2, v2) :: rest, k, v =>
      if k2 = k then (k, v) :: rest else (k2, v2) :: putA rest k v

def removeA {κ ν : Type} [DecidableEq κ] (l : List (κ × ν)) (k : κ) : List (κ × ν) :=
  l.filter (fun e => !(decide (e.1 = k)))

/-- Embedding of `AwardedPts::iter_prefix(era).drain().next()`: pop the first
entry of the era's sub-map, returning the account, its points and the
remaining storage. -/
def drainFirst : List ((Nat × Nat) × Nat) → Nat →
    Option ((Nat × Nat) × List ((Nat × Nat) × Nat))
  | [], _ => none
  | ((e, a), v) :: rest, era =>
      if e = era then some ((a, v), rest)
      else
        match drainFirst rest era with
        | none => none
        | some (x, rest2) => some (x, ((e, a), v) :: rest2)

/-- Snapshot of a collator's counted exposure (`CollatorSnapshot`). -/
structure CollatorSnapshot where
  bond : Nat
  nominations : List Bond
  total : Nat
  deriving DecidableEq, Repr

instance : Inhabited CollatorSnapshot := ⟨⟨0, [], 0⟩⟩

/-- Per-era reward information (`DelayedPayout`). -/
structure DelayedPayoutInfo where
  eraIssuance : Nat
  totalStakingReward : Nat
  deriving DecidableEq, Repr

/-- Events deposited by the payout and selection paths (the events of other
extrinsics play no role in the claims under study and are not tracked). -/
inductive Event where
  | rewarded (account rewards : Nat)
  | errorPayingStakingReward (payee rewards : Nat)
  | collatorChosen (era collator totalExposed : Nat)
  | notEnoughFundsForEraPayment (rewardPotBalance : Nat)
  deriving DecidableEq, Repr

/-- Pallet `Config` constants together with the two collaborator oracles:
the currency's free-balance view and the success of a currency transfer
(`T::Currency::transfer` from the reward pot, which can fail e.g. for
existential-deposit reasons). -/
structure Cfg where
  rewardPaymentDelay : Nat
  minCollatorStk : Nat
  minCandidateStk : Nat
  minNominatorStk : Nat
  minNomination : Nat
  maxTopNominationsPerCandidate : Nat
  maxBottomNominationsPerCandidate : Nat
  maxNominationsPerNominator : Nat
  leaveCandidatesDelay : Nat
  candidateBondLessDelay : Nat
  revokeNominationDelay : Nat
  nominationBondLessDelay : Nat
  freeBalance : Nat → Nat
  transferOk : Nat → Nat → Bool

/-- Nomination action of a scheduled request (`NominationAction`). -/
inductive NominationAction where
  | revoke (amount : Nat)
  | decrease (amount : Nat)
  deriving DecidableEq, Repr

/-- Scheduled nominator-initiated change (`ScheduledRequest`). -/
structure ScheduledRequest where
  nominator : Nat
  whenExecutable : Nat
  action : NominationAction
  deriving DecidableEq, Repr

/-- Candidate lifecycle status (`CollatorStatus`). -/
inductive CollatorStatus where
  | active
  | idle
  | leaving (whenExecutable : Nat)
  deriving DecidableEq, Repr

/-- Pending self-bond decrease (`CandidateBondLessRequest`). -/
structure CandidateBondLessRequest where
  amount : Nat
  whenExecutable : Nat
  deriving DecidableEq, Repr

/-- Modelled from the spec: `CandidateMetadata` (types.rs, not under src/).
The cached extrema (`lowest_top_nomination_amount`, …) and capacity flags are
recomputed from the Top/Bottom lists here instead of being cached. -/
structure CandidateMetadata where
  bond : Nat
  totalCounted : Nat
  nominationCount : Nat
  status : CollatorStatus
  request : Option CandidateBondLessRequest
  deriving DecidableEq, Repr

/-- Modelled from the spec: the per-candidate Top or Bottom nomination list
with its cached total (`Nominations` in types.rs, not under src/). -/
structure NominationsRec where
  nominations : List Bond
  total : Nat
  deriving DecidableEq, Repr

instance : Inhabited NominationsRec := ⟨⟨[], 0⟩⟩

/-- Modelled from the spec: per-nominator aggregate state (`Nominator` in
types.rs, not under src/): one bond per nominated candidate, the locked
total, and the pending-request total. -/
structure NominatorInfo where
  nominations : List Bond
  total : Nat
  lessTotal : Nat
  deriving DecidableEq, Repr

/-- Global pallet storage.  Fields mirror the storage items of lib.rs. -/
structure ChainState where
  candidateInfo : List (Nat × CandidateMetadata)
  topNominations : List (Nat × NominationsRec)
  bottomNominations : List (Nat × NominationsRec)
  nominatorState : List (Nat × NominatorInfo)
  scheduledRequests : List (Nat × List ScheduledRequest)
  candidatePool : List Bond
  selectedCandidates : List Nat
  total : Nat
  atStake : List ((Nat × Nat) × CollatorSnapshot)
  delayedPayouts : List (Nat × DelayedPayoutInfo)
  staked : List (Nat × Nat)
  points : List (Nat × Nat)
  awardedPts : List ((Nat × Nat) × Nat)
  lockedEraPayout : Nat
  totalSelected : Nat
  events : List Event
  deriving Repr

/-- Embedding of the `pay_reward` closure in `pay_one_collator_reward`:
transfer from the reward pot; on success emit `Rewarded` and decrement
`LockedEraPayout` by the paid amount (saturating), on failure emit
`ErrorPayingStakingReward` and leave `LockedEraPayout` untouched. -/
def payReward (cfg : Cfg) (amount dest : Nat) (s : ChainState) : ChainState :=
  if cfg.transferOk dest amount then
    { s with
      events := s.events ++ [Event.rewarded dest amount],
      lockedEraPayout := s.lockedEraPayout - amount }
  else
    { s with events := s.events ++ [Event.errorPayingStakingReward dest amount] }

/-- Nominator leg of `pay_one_collator_reward`: pay each snapshotted
nominator its `Perbill(amount / snapshot_total)` share of the collator's
reward, skipping zero shares. -/
def payNominators (cfg : Cfg) (snapTotal totalRewardForCollator : Nat)
    (noms : List Bond) (s : ChainState) : ChainState :=
  noms.foldl (fun acc b =>
    let percent := fromRational b.amount snapTotal
    let nominatorReward := perbillMul percent totalRewardForCollator
    if nominatorReward ≠ 0 then payReward cfg nominatorReward b.owner acc else acc) s

/-- Embedding of `Pallet::pay_one_collator_reward` (lib.rs lines 1273–1354). -/
def payOneCollatorReward (cfg : Cfg) (s : ChainState) (paidForEra : Nat)
    (payoutInfo : DelayedPayoutInfo) : Option (Nat × Nat) × ChainState :=
  let totalPoints := (getA s.points paidForEra).getD 0
  if totalPoints = 0 then (none, s)
  else
    match drainFirst s.awardedPts paidForEra with
    | none => (none, s)
    | some ((collator, pts), restAwarded) =>
        let s1 := { s with awardedPts := restAwarded }
        let pctDue := fromRational pts totalPoints
        let totalRewardForCollator := perbillMul pctDue payoutInfo.totalStakingReward
        -- take the snapshot of block author and nominations
        let state := (getA s1.atStake (paidForEra, collator)).getD default
        let s2 := { s1 with atStake := removeA s1.atStake (paidForEra, collator) }
        -- pay collator's due portion first
        let collatorPct := fromRational state.bond state.total
        let collatorReward := perbillMul collatorPct totalRewardForCollator
        let s3 := payReward cfg collatorReward collator s2
        -- pay nominators due portion, if there are any
        let s4 := payNominators cfg state.total totalRewardForCollator state.nominations s3
        (some (collator, totalRewardForCollator), s4)

/-- Embedding of `Pallet::handle_delayed_payouts` (lib.rs lines 1245–1267). -/
def handleDelayedPayouts (cfg : Cfg) (s : ChainState) (now : Nat) : ChainState :=
  if now < cfg.rewardPaymentDelay then s
  else
    let paidForEra := now - cfg.rewardPaymentDelay
    match getA s.delayedPayouts paidForEra with
    | some payoutInfo =>
        let result := payOneCollatorReward cfg s paidForEra payoutInfo
        if result.1.isNone then
          { result.2 with
            delayedPayouts := removeA result.2.delayedPayouts paidForEra,
            points := removeA result.2.points paidForEra }
        else result.2
    | none => s

/-! ## Rounding-arithmetic bounds

These lemmas establish that distributing a reward by `Perbill` shares whose
numerators sum to at most the denominator never disburses more than the
reward. -/

theorem div_add_div_le (a b n : Nat) : a / n + b / n ≤ (a + b) / n := by
  rcases Nat.eq_zero_or_pos n with h | h
  · subst h; simp
  · rw [Nat.le_div_iff_mul_le h, Nat.add_mul]
    exact Nat.add_le_add (Nat.div_mul_le_self a n) (Nat.div_mul_le_self b n)

theorem sum_div_le (l : List Nat) (n : Nat) :
    (l.map (fun a => a / n)).sum ≤ l.sum / n := by
  induction l with
  | nil => simp
  | cons x xs ih =>
      simp only [List.map_cons, List.sum_cons]
      calc x / n + (xs.map (fun a => a / n)).sum
          ≤ x / n + xs.sum / n := Nat.add_le_add_left ih _
        _ ≤ (x + xs.sum) / n := div_add_div_le _ _ _

/-- Shares built by `from_rational` against a common denominator sum to at
most one (in `Perbill` parts), provided the numerators sum to at most the
denominator. -/
theorem sum_fromRational_le (l : List Nat) (q : Nat) (h : l.sum ≤ q) :
    (l.map (fun a => fromRational a q)).sum ≤ perbillAccuracy := by
  have hACC : (2 : Nat) ≤ perbillAccuracy := by decide
  set q1 := max q 1 with hq1def
  have hq1 : 1 ≤ q1 := Nat.le_max_right q 1
  set f := max (divCeil q1 perbillAccuracy) 1 with hfdef
  have hf : 0 < f := Nat.lt_of_lt_of_le Nat.zero_lt_one (Nat.le_max_right _ 1)
  have hdivCeil_le : divCeil q1 perbillAccuracy ≤ q1 := by
    unfold divCeil
    split
    · exact Nat.div_le_self _ _
    · have : q1 / perbillAccuracy < q1 :=
        Nat.div_lt_self (Nat.lt_of_lt_of_le Nat.zero_lt_one hq1) hACC
      omega
  have hfq1 : f ≤ q1 := by
    rw [hfdef]
    exact max_le hdivCeil_le hq1
  set Q := q1 / f with hQdef
  have hQ : 0 < Q := Nat.le_div_iff_mul_le hf |>.mpr (by omega)
  have hpointwise : ∀ a, fromRational a q ≤ a / f * perbillAccuracy / Q := by
    intro a
    show (min a q1) / f * perbillAccuracy / Q ≤ a / f * perbillAccuracy / Q
    exact Nat.div_le_div_right (Nat.mul_le_mul_right _
      (Nat.div_le_div_right (Nat.min_le_left a q1)))
  calc (l.map (fun a => fromRational a q)).sum
      ≤ (l.map (fun a => a / f * perbillAccuracy / Q)).sum := by
        apply List.sum_le_sum
        intro a _
        exact hpointwise a
    _ = ((l.map (fun a => a / f * perbillAccuracy)).map (fun x => x / Q)).sum := by
        rw [List.map_map]; rfl
    _ ≤ (l.map (fun a => a / f * perbillAccuracy)).sum / Q := sum_div_le _ _
    _ = ((l.map (fun a => a / f)).map (fun x => x * perbillAccuracy)).sum / Q := by
        rw [List.map_map]; rfl
    _ = (l.map (fun a => a / f)).sum * perbillAccuracy / Q := by
        rw [List.sum_map_mul_right, List.map_id']
    _ ≤ Q * perbillAccuracy / Q := by
        apply Nat.div_le_div_right
        apply Nat.mul_le_mul_right
        calc (l.map (fun a => a / f)).sum
            ≤ l.sum / f := sum_div_le _ _
          _ ≤ q1 / f := Nat.div_le_div_right (by omega)
    _ = perbillAccuracy := Nat.mul_div_cancel_left _ hQ

/-- Multiplying a reward by `Perbill` parts summing to at most one never
disburses more than the reward. -/
theorem sum_perbillMul_le (parts : List Nat) (r : Nat)
    (h : parts.sum ≤ perbillAccuracy) :
    (parts.map (fun p => perbillMul p r)).sum ≤ r := by
  have hACC : 0 < perbillAccuracy := by decide
  calc (parts.map (fun p => perbillMul p r)).sum
      = (parts.map (fun p => r * p / perbillAccuracy)).sum := by
        congr 1
        apply List.map_congr_left
        intro p _
        rw [perbillMul_eq, Nat.mul_comm]
    _ = ((parts.map (fun p => r * p)).map (fun x => x / perbillAccuracy)).sum := by
        rw [List.map_map]; rfl
    _ ≤ (parts.map (fun p => r * p)).sum / perbillAccuracy := sum_div_le _ _
    _ = r * parts.sum / perbillAccuracy := by rw [List.sum_map_mul_left, List.map_id']
    _ ≤ r * perbillAccuracy / perbillAccuracy := by
        apply Nat.div_le_div_right
        exact Nat.mul_le_mul_left _ h
    _ = r := Nat.mul_div_cancel _ hACC

/-- Paying each numerator's `Perbill` share of `c` disburses at most `c` when
the numerators sum to at most the denominator. -/
theorem payments_sum_le (amounts : List Nat) (total c : Nat)
    (h : amounts.sum ≤ total) :
    (amounts.map (fun a => perbillMul (fromRational a total) c)).sum ≤ c := by
  have h1 : ((amounts.map (fun a => fromRational a total)).map
      (fun p => perbillMul p c)).sum ≤ c :=
    sum_perbillMul_le _ _ (sum_fromRational_le amounts total h)
  rw [List.map_map] at h1
  exact h1

/-! ## Payment batch bookkeeping -/

/-- Event produced by one `pay_reward` invocation. -/
def paymentEvent (cfg : Cfg) (dest amount : Nat) : Event :=
  if cfg.transferOk dest amount then Event.rewarded dest amount
  else Event.errorPayingStakingReward dest amount

/-- Nominator payments attempted for one collator batch (zero shares are
skipped, mirroring the `if !nominator_reward.is_zero()` guard). -/
def nominatorPayments (snapTotal c : Nat) (noms : List Bond) : List (Nat × Nat) :=
  noms.filterMap (fun b =>
    let r := perbillMul (fromRational b.amount snapTotal) c
    if r ≠ 0 then some (b.owner, r) else none)

/-- Transfers attempted when paying one collator and its snapshot: the
collator's own share first, then every nonzero nominator share. -/
def batchPayments (collator : Nat) (snap : CollatorSnapshot) (c : Nat) :
    List (Nat × Nat) :=
  (collator, perbillMul (fromRational snap.bond snap.total) c)
    :: nominatorPayments snap.total c snap.nominations

/-- Sum of the amounts whose transfer succeeds. -/
def successfulSum (cfg : Cfg) (ps : List (Nat × Nat)) : Nat :=
  ((ps.filter (fun p => cfg.transferOk p.1 p.2)).map (fun p => p.2)).sum

theorem successfulSum_cons (cfg : Cfg) (p : Nat × Nat) (ps : List (Nat × Nat)) :
    successfulSum cfg (p :: ps)
      = (if cfg.transferOk p.1 p.2 then p.2 else 0) + successfulSum cfg ps := by
  unfold successfulSum
  rw [List.filter_cons]
  split
  · simp
  · simp

/-- Effect of one `pay_reward` call on the state. -/
theorem payReward_spec (cfg : Cfg) (amount dest : Nat) (s : ChainState) :
    (payReward cfg amount dest s).events
        = s.events ++ [paymentEvent cfg dest amount] ∧
    (payReward cfg amount dest s).lockedEraPayout
        = s.lockedEraPayout - (if cfg.transferOk dest amount then amount else 0) ∧
    (payReward cfg amount dest s).atStake = s.atStake ∧
    (payReward cfg amount dest s).points = s.points ∧
    (payReward cfg amount dest s).delayedPayouts = s.delayedPayouts ∧
    (payReward cfg amount dest s).awardedPts = s.awardedPts := by
  unfold payReward paymentEvent
  split
  · exact ⟨by simp_all, by simp_all, rfl, rfl, rfl, rfl⟩
  · exact ⟨by simp_all, by simp_all, rfl, rfl, rfl, rfl⟩

/-- Effect of the nominator-payment loop: every nonzero nominator share is
attempted in order, each producing its payment event, and `LockedEraPayout`
drops by exactly the successfully transferred amounts. -/
theorem payNominators_spec (cfg : Cfg) (snapTotal c : Nat) (noms : List Bond) :
    ∀ s : ChainState,
    (payNominators cfg snapTotal c noms s).events
        = s.events ++ (nominatorPayments snapTotal c noms).map
            (fun p => paymentEvent cfg p.1 p.2) ∧
    (payNominators cfg snapTotal c noms s).lockedEraPayout
        = s.lockedEraPayout - successfulSum cfg (nominatorPayments snapTotal c noms) ∧
    (payNominators cfg snapTotal c noms s).atStake = s.atStake ∧
    (payNominators cfg snapTotal c noms s).points = s.points ∧
    (payNominators cfg snapTotal c noms s).delayedPayouts = s.delayedPayouts ∧
    (payNominators cfg snapTotal c noms s).awardedPts = s.awardedPts := by
  induction noms with
  | nil =>
      intro s
      simp [payNominators, nominatorPayments, successfulSum]
  | cons b noms ih =>
      intro s
      have hstep : payNominators cfg snapTotal c (b :: noms) s
          = payNominators cfg snapTotal c noms
              (if perbillMul (fromRational b.amount snapTotal) c ≠ 0 then
                payReward cfg (perbillMul (fromRational b.amount snapTotal) c) b.owner s
              else s) := by
        simp only [payNominators, List.foldl_cons]
      have hnp : nominatorPayments snapTotal c (b :: noms)
          = (if perbillMul (fromRational b.amount snapTotal) c ≠ 0 then
              [(b.owner, perbillMul (fromRational b.amount snapTotal) c)] else [])
            ++ nominatorPayments snapTotal c noms := by
        unfold nominatorPayments
        rw [List.filterMap_cons]
        split <;> simp_all
      by_cases hr : perbillMul (fromRational b.amount snapTotal) c ≠ 0
      · rw [hstep, if_pos hr]
        obtain ⟨he, hl, ha, hp, hd, haw⟩ :=
          ih (payReward cfg (perbillMul (fromRational b.amount snapTotal) c) b.owner s)
        obtain ⟨he0, hl0, ha0, hp0, hd0, haw0⟩ :=
          payReward_spec cfg (perbillMul (fromRational b.amount snapTotal) c) b.owner s
        rw [hnp, if_pos hr]
        refine ⟨?_, ?_, by rw [ha, ha0], by rw [hp, hp0], by rw [hd, hd0],
          by rw [haw, haw0]⟩
        · rw [he, he0]
          simp
        · rw [hl, hl0, List.singleton_append, successfulSum_cons]
          rcases hok : cfg.transferOk b.owner
              (perbillMul (fromRational b.amount snapTotal) c) with _ | _
          · simp [hok]
          · simp [hok, Nat.sub_sub]
      · rw [hstep, if_neg hr]
        obtain ⟨he, hl, ha, hp, hd, haw⟩ := ih s
        rw [hnp, if_neg hr]
        simpa using ⟨he, hl, ha, hp, hd, haw⟩

theorem getA_removeA {κ ν : Type} [DecidableEq κ] (l : List (κ × ν)) (k : κ) :
    getA (removeA l k) k = none := by
  induction l with
  | nil => rfl
  | cons e rest ih =>
      unfold removeA at ih ⊢
      rw [List.filter_cons]
      by_cases h : e.1 = k
      · simpa [h] using ih
      · simpa [getA, h] using ih

theorem getA_removeA_ne {κ ν : Type} [DecidableEq κ] (l : List (κ × ν)) (k k2 : κ)
    (h : k2 ≠ k) : getA (removeA l k) k2 = getA l k2 := by
  induction l with
  | nil => rfl
  | cons e rest ih =>
      obtain ⟨k1, v⟩ := e
      unfold removeA at ih ⊢
      rw [List.filter_cons]
      by_cases he : k1 = k
      · rw [if_neg (by simp [he])]
        rw [ih]
        conv_rhs => unfold getA
        rw [if_neg (fun hc : k1 = k2 => h (hc ▸ he))]
      · rw [if_pos (by simp [he])]
        conv_lhs => unfold getA
        conv_rhs => unfold getA
        by_cases h2 : k1 = k2
        · rw [if_pos h2, if_pos h2]
        · rw [if_neg h2, if_neg h2]
          exact ih

/-- Unfolding of the successful-pop path of `pay_one_collator_reward`. -/
theorem payOneCollatorReward_eq_pop (cfg : Cfg) (s : ChainState) (era : Nat)
    (info : DelayedPayoutInfo) (collator pts : Nat)
    (rest : List ((Nat × Nat) × Nat))
    (hT : (getA s.points era).getD 0 ≠ 0)
    (hpop : drainFirst s.awardedPts era = some ((collator, pts), rest)) :
    payOneCollatorReward cfg s era info
      = (some (collator,
          perbillMul (fromRational pts ((getA s.points era).getD 0))
            info.totalStakingReward),
        payNominators cfg ((getA s.atStake (era, collator)).getD default).total
          (perbillMul (fromRational pts ((getA s.points era).getD 0))
            info.totalStakingReward)
          ((getA s.atStake (era, collator)).getD default).nominations
          (payReward cfg
            (perbillMul
              (fromRational ((getA s.atStake (era, collator)).getD default).bond
                ((getA s.atStake (era, collator)).getD default).total)
              (perbillMul (fromRational pts ((getA s.points era).getD 0))
                info.totalStakingReward))
            collator
            { s with awardedPts := rest,
                     atStake := removeA s.atStake (era, collator) })) := by
  simp only [payOneCollatorReward]
  rw [if_neg hT, hpop]

/-- Unfolding of the no-pop paths of `pay_one_collator_reward`. -/
theorem payOneCollatorReward_eq_none (cfg : Cfg) (s : ChainState) (era : Nat)
    (info : DelayedPayoutInfo)
    (h : (getA s.points era).getD 0 = 0 ∨ drainFirst s.awardedPts era = none) :
    payOneCollatorReward cfg s era info = (none, s) := by
  simp only [payOneCollatorReward]
  by_cases hT : (getA s.points era).getD 0 = 0
  · rw [if_pos hT]
  · rw [if_neg hT]
    rcases h with h | h
    · exact absurd h hT
    · rw [h]

/-- Batch effect of the successful-pop path of `pay_one_collator_reward`:
every recipient is attempted in order, each producing its payment event, and
`LockedEraPayout` drops by exactly the successfully transferred amounts. -/
theorem payOneCollatorReward_batch_spec
    (cfg : Cfg) (s : ChainState) (era : Nat) (info : DelayedPayoutInfo)
    (collator pts : Nat) (rest : List ((Nat × Nat) × Nat))
    (hT : (getA s.points era).getD 0 ≠ 0)
    (hpop : drainFirst s.awardedPts era = some ((collator, pts), rest)) :
    (payOneCollatorReward cfg s era info).2.events
      = s.events ++ (batchPayments collator
          ((getA s.atStake (era, collator)).getD default)
          (perbillMul (fromRational pts ((getA s.points era).getD 0))
            info.totalStakingReward)).map (fun p => paymentEvent cfg p.1 p.2) ∧
    (payOneCollatorReward cfg s era info).2.lockedEraPayout
      = s.lockedEraPayout - successfulSum cfg (batchPayments collator
          ((getA s.atStake (era, collator)).getD default)
          (perbillMul (fromRational pts ((getA s.points era).getD 0))
            info.totalStakingReward)) := by
  rw [payOneCollatorReward_eq_pop cfg s era info collator pts rest hT hpop]
  set snap := (getA s.atStake (era, collator)).getD default with hsnap
  set c := perbillMul (fromRational pts ((getA s.points era).getD 0))
    info.totalStakingReward with hc
  set s2 : ChainState :=
    { s with awardedPts := rest, atStake := removeA s.atStake (era, collator) } with hs2
  obtain ⟨hre, hrl, _, _, _, _⟩ :=
    payReward_spec cfg (perbillMul (fromRational snap.bond snap.total) c) collator s2
  obtain ⟨hne, hnl, _, _, _, _⟩ := payNominators_spec cfg snap.total c snap.nominations
    (payReward cfg (perbillMul (fromRational snap.bond snap.total) c) collator s2)
  constructor
  · rw [hne, hre]
    show s2.events ++ _ ++ _ = s.events ++ _
    have hs2e : s2.events = s.events := rfl
    rw [hs2e, batchPayments, List.map_cons, List.append_assoc, List.singleton_append]
  · rw [hnl, hrl]
    have hs2l : s2.lockedEraPayout = s.lockedEraPayout := rfl
    rw [hs2l, batchPayments, successfulSum_cons]
    rcases hok : cfg.transferOk collator (perbillMul (fromRational snap.bond snap.total) c)
      with _ | _
    · simp [hok]
    · simp [hok, Nat.sub_sub]

/-- Claim C8: if a single transfer in a collator's payout batch fails, the
remaining recipients are still processed in order — the failed recipient only
gets a payment-failure event — and `LockedEraPayout` is decremented by
exactly the amounts actually transferred, not by the nominal shares of any
failed transfer. -/
theorem pay_one_collator_reward_failure_isolation
    (cfg : Cfg) (s : ChainState) (era : Nat) (info : DelayedPayoutInfo)
    (collator pts : Nat) (rest : List ((Nat × Nat) × Nat))
    (hT : (getA s.points era).getD 0 ≠ 0)
    (hpop : drainFirst s.awardedPts era = some ((collator, pts), rest)) :
    (payOneCollatorReward cfg s era info).2.events
      = s.events ++ (batchPayments collator
          ((getA s.atStake (era, collator)).getD default)
          (perbillMul (fromRational pts ((getA s.points era).getD 0))
            info.totalStakingReward)).map (fun p => paymentEvent cfg p.1 p.2) ∧
    (payOneCollatorReward cfg s era info).2.lockedEraPayout
      = s.lockedEraPayout - successfulSum cfg (batchPayments collator
          ((getA s.atStake (era, collator)).getD default)
          (perbillMul (fromRational pts ((getA s.points era).getD 0))
            info.totalStakingReward)) :=
  payOneCollatorReward_batch_spec cfg s era info collator pts rest hT hpop

/-- Configuration where transfers to account 11 fail (used by the C8
witness). -/
def c8Cfg : Cfg where
  rewardPaymentDelay := 1
  minCollatorStk := 10
  minCandidateStk := 10
  minNominatorStk := 5
  minNomination := 3
  maxTopNominationsPerCandidate := 4
  maxBottomNominationsPerCandidate := 4
  maxNominationsPerNominator := 4
  leaveCandidatesDelay := 2
  candidateBondLessDelay := 2
  revokeNominationDelay := 1
  nominationBondLessDelay := 1
  freeBalance := fun _ => 1000
  transferOk := fun dest _ => !(dest == 11)

/-- Empty genesis storage. -/
def emptyChainState : ChainState where
  candidateInfo := []
  topNominations := []
  bottomNominations := []
  nominatorState := []
  scheduledRequests := []
  candidatePool := []
  selectedCandidates := []
  total := 0
  atStake := []
  delayedPayouts := []
  staked := []
  points := []
  awardedPts := []
  lockedEraPayout := 0
  totalSelected := 0
  events := []

/-- State with one collator whose snapshot carries two nominators, one of
which (account 11) cannot receive transfers under `c8Cfg`. -/
def c8State : ChainState :=
  { emptyChainState with
    points := [(1, 20)],
    delayedPayouts := [(1, ⟨40, 40⟩)],
    awardedPts := [((1, 1), 20)],
    atStake := [((1, 1), ⟨20, [⟨11, 10⟩, ⟨12, 10⟩], 40⟩)],
    lockedEraPayout := 40 }

theorem pay_one_collator_reward_failure_isolation_witness :
    (getA c8State.points 1).getD 0 ≠ 0 ∧
    drainFirst c8State.awardedPts 1 = some ((1, 20), []) ∧
    (payOneCollatorReward c8Cfg c8State 1 ⟨40, 40⟩).2.events
      = c8State.events ++ (batchPayments 1
          ((getA c8State.atStake (1, 1)).getD default)
          (perbillMul (fromRational 20 ((getA c8State.points 1).getD 0))
            (40 : Nat))).map (fun p => paymentEvent c8Cfg p.1 p.2) ∧
    (payOneCollatorReward c8Cfg c8State 1 ⟨40, 40⟩).2.lockedEraPayout
      = c8State.lockedEraPayout - successfulSum c8Cfg (batchPayments 1
          ((getA c8State.atStake (1, 1)).getD default)
          (perbillMul (fromRational 20 ((getA c8State.points 1).getD 0))
            (40 : Nat))) := by
  refine ⟨by decide, by decide, ?_⟩
  exact pay_one_collator_reward_failure_isolation c8Cfg c8State 1 ⟨40, 40⟩ 1 20 []
    (by decide) (by decide)

/-! ## Era-storage cleanup timing (claim C3) -/

/-- Configuration used by the concrete payout scenarios (all transfers
succeed). -/
def exampleCfg : Cfg where
  rewardPaymentDelay := 1
  minCollatorStk := 10
  minCandidateStk := 10
  minNominatorStk := 5
  minNomination := 3
  maxTopNominationsPerCandidate := 4
  maxBottomNominationsPerCandidate := 4
  maxNominationsPerNominator := 4
  leaveCandidatesDelay := 2
  candidateBondLessDelay := 2
  revokeNominationDelay := 1
  nominationBondLessDelay := 1
  freeBalance := fun _ => 1000
  transferOk := fun _ _ => true

/-- State for era 1 with a single collator holding all 20 award points, a
prepared delayed payout of 50, and its snapshot. -/
def c3State : ChainState :=
  { emptyChainState with
    points := [(1, 20)],
    delayedPayouts := [(1, ⟨50, 50⟩)],
    awardedPts := [((1, 1), 20)],
    atStake := [((1, 1), ⟨20, [], 20⟩)],
    lockedEraPayout := 50 }

/-- Counterexample to claim C3: in the block that pays the last collator of
era 1 (leaving the era's `AwardedPts` empty after the pop), the era's
`DelayedPayouts` and `Points` entries are NOT removed in that same block —
they survive until the next block's payout step finds nothing to pop. -/
theorem payout_cleanup_not_same_block_counterexample :
    (handleDelayedPayouts exampleCfg c3State 2).awardedPts = [] ∧
    getA (handleDelayedPayouts exampleCfg c3State 2).delayedPayouts 1 = some ⟨50, 50⟩ ∧
    getA (handleDelayedPayouts exampleCfg c3State 2).points 1 = some 20 := by
  decide

/-- Claim C3 (amended): the `AtStake` entry of a collator is removed in the
same block that collator is paid; the era's `DelayedPayouts` and `Points`
entries are removed in the first block whose payout step finds the era's
`AwardedPts` already empty, i.e. one block after the last collator with
nonzero points is paid. -/
theorem payout_storage_cleanup_amended (cfg : Cfg) (s : ChainState) (now : Nat)
    (info : DelayedPayoutInfo) (hnow : cfg.rewardPaymentDelay ≤ now)
    (hdp : getA s.delayedPayouts (now - cfg.rewardPaymentDelay) = some info) :
    (∀ collator pts rest,
      drainFirst s.awardedPts (now - cfg.rewardPaymentDelay)
          = some ((collator, pts), rest) →
      (getA s.points (now - cfg.rewardPaymentDelay)).getD 0 ≠ 0 →
      getA (handleDelayedPayouts cfg s now).atStake
          (now - cfg.rewardPaymentDelay, collator) = none) ∧
    (drainFirst s.awardedPts (now - cfg.rewardPaymentDelay) = none →
      getA (handleDelayedPayouts cfg s now).delayedPayouts
          (now - cfg.rewardPaymentDelay) = none ∧
      getA (handleDelayedPayouts cfg s now).points
          (now - cfg.rewardPaymentDelay) = none) := by
  have hnotlt : ¬ now < cfg.rewardPaymentDelay := Nat.not_lt.mpr hnow
  set era := now - cfg.rewardPaymentDelay with herad
  constructor
  · intro collator pts rest hpop hT
    have hpay := payOneCollatorReward_eq_pop cfg s era info collator pts rest hT hpop
    have hhandle : handleDelayedPayouts cfg s now
        = (payOneCollatorReward cfg s era info).2 := by
      simp only [handleDelayedPayouts, hnotlt, if_false, ← herad, hdp]
      rw [hpay]
      rfl
    rw [hhandle, hpay]
    set snap := (getA s.atStake (era, collator)).getD default
    set c := perbillMul (fromRational pts ((getA s.points era).getD 0))
      info.totalStakingReward
    set s2 : ChainState :=
      { s with awardedPts := rest, atStake := removeA s.atStake (era, collator) } with hs2
    obtain ⟨_, _, hra, _, _, _⟩ :=
      payReward_spec cfg (perbillMul (fromRational snap.bond snap.total) c) collator s2
    obtain ⟨_, _, hna, _, _, _⟩ := payNominators_spec cfg snap.total c snap.nominations
      (payReward cfg (perbillMul (fromRational snap.bond snap.total) c) collator s2)
    rw [hna, hra]
    exact getA_removeA s.atStake (era, collator)
  · intro hpop
    have hpay : payOneCollatorReward cfg s era info = (none, s) := by
      apply payOneCollatorReward_eq_none
      exact Or.inr hpop
    have hhandle : handleDelayedPayouts cfg s now
        = { s with delayedPayouts := removeA s.delayedPayouts era,
                   points := removeA s.points era } := by
      simp only [handleDelayedPayouts, hnotlt, if_false, ← herad, hdp]
      rw [hpay]
      rfl
    rw [hhandle]
    exact ⟨getA_removeA s.delayedPayouts era, getA_removeA s.points era⟩

/-- State one block after `c3State` was paid: era 1 has been fully paid and
its `AwardedPts` is empty, but `DelayedPayouts` and `Points` remain. -/
def c3DrainedState : ChainState :=
  { emptyChainState with
    points := [(1, 20)],
    delayedPayouts := [(1, ⟨50, 50⟩)],
    awardedPts := [],
    lockedEraPayout := 0,
    events := [Event.rewarded 1 50] }

theorem payout_storage_cleanup_amended_witness :
    exampleCfg.rewardPaymentDelay ≤ 2 ∧
    getA c3DrainedState.delayedPayouts (2 - exampleCfg.rewardPaymentDelay)
      = some ⟨50, 50⟩ ∧
    drainFirst c3DrainedState.awardedPts (2 - exampleCfg.rewardPaymentDelay) = none ∧
    (getA (handleDelayedPayouts exampleCfg c3DrainedState 2).delayedPayouts
        (2 - exampleCfg.rewardPaymentDelay) = none ∧
      getA (handleDelayedPayouts exampleCfg c3DrainedState 2).points
        (2 - exampleCfg.rewardPaymentDelay) = none) :=
  ⟨by decide, by decide, by decide,
    (payout_storage_cleanup_amended exampleCfg c3DrainedState 2 ⟨50, 50⟩
      (by decide) (by decide)).2 (by decide)⟩

/-! ## Reward-share formulas (claim C4) -/

/-- Scenario D state: era 1 with 100 total points split 20/80 between two
collators; the second collator's snapshot carries one nominator with a
quarter of the snapshot total. -/
def scenarioDState : ChainState :=
  { emptyChainState with
    points := [(1, 100)],
    delayedPayouts := [(1, ⟨50, 50⟩)],
    awardedPts := [((1, 1), 20), ((1, 2), 80)],
    atStake := [((1, 1), ⟨10, [], 10⟩), ((1, 2), ⟨30, [⟨11, 10⟩], 40⟩)],
    lockedEraPayout := 50 }

/-- Claim C4: a paid collator's era share equals
`Perbill(points / total_points) * total_staking_reward`; within it, the
collator receives `Perbill(bond / snapshot_total) * share` and each
snapshotted nominator `Perbill(amount / snapshot_total) * share`; on the
20/80 points split with reward 50 the two shares are 10 and 40. -/
theorem pay_one_collator_reward_shares
    (cfg : Cfg) (s : ChainState) (era : Nat) (info : DelayedPayoutInfo)
    (collator pts : Nat) (rest : List ((Nat × Nat) × Nat))
    (hT : (getA s.points era).getD 0 ≠ 0)
    (hpop : drainFirst s.awardedPts era = some ((collator, pts), rest))
    (hok : ∀ d a, cfg.transferOk d a = true) :
    (payOneCollatorReward cfg s era info).1
      = some (collator,
          perbillMul (fromRational pts ((getA s.points era).getD 0))
            info.totalStakingReward) ∧
    (payOneCollatorReward cfg s era info).2.events
      = s.events
        ++ Event.rewarded collator
            (perbillMul
              (fromRational ((getA s.atStake (era, collator)).getD default).bond
                ((getA s.atStake (era, collator)).getD default).total)
              (perbillMul (fromRational pts ((getA s.points era).getD 0))
                info.totalStakingReward))
          :: (nominatorPayments ((getA s.atStake (era, collator)).getD default).total
                (perbillMul (fromRational pts ((getA s.points era).getD 0))
                  info.totalStakingReward)
                ((getA s.atStake (era, collator)).getD default).nominations).map
              (fun p => Event.rewarded p.1 p.2) ∧
    (payOneCollatorReward exampleCfg scenarioDState 1 ⟨50, 50⟩).1 = some (1, 10) ∧
    (payOneCollatorReward exampleCfg
        (payOneCollatorReward exampleCfg scenarioDState 1 ⟨50, 50⟩).2 1 ⟨50, 50⟩).1
      = some (2, 40) ∧
    (payOneCollatorReward exampleCfg
        (payOneCollatorReward exampleCfg scenarioDState 1 ⟨50, 50⟩).2 1 ⟨50, 50⟩).2.events
      = [Event.rewarded 1 10, Event.rewarded 2 30, Event.rewarded 11 10] := by
  refine ⟨?_, ?_, by decide, by decide, by decide⟩
  · rw [payOneCollatorReward_eq_pop cfg s era info collator pts rest hT hpop]
  · obtain ⟨hev, _⟩ := payOneCollatorReward_batch_spec cfg s era info
      collator pts rest hT hpop
    rw [hev, batchPayments, List.map_cons]
    have hpe : ∀ dest amount : Nat, paymentEvent cfg dest amount
        = Event.rewarded dest amount := by
      intro dest amount
      unfold paymentEvent
      rw [if_pos (hok dest amount)]
    rw [hpe]
    congr 1
    congr 1
    apply List.map_congr_left
    intro p _
    exact hpe p.1 p.2

theorem pay_one_collator_reward_shares_witness :
    (getA scenarioDState.points 1).getD 0 ≠ 0 ∧
    drainFirst scenarioDState.awardedPts 1 = some ((1, 20), [((1, 2), 80)]) ∧
    (payOneCollatorReward exampleCfg scenarioDState 1 ⟨50, 50⟩).1
      = some (1, perbillMul (fromRational 20 ((getA scenarioDState.points 1).getD 0))
          (50 : Nat)) ∧
    (payOneCollatorReward exampleCfg scenarioDState 1 ⟨50, 50⟩).1 = some (1, 10) := by
  have h := pay_one_collator_reward_shares exampleCfg scenarioDState 1 ⟨50, 50⟩
    1 20 [((1, 2), 80)] (by decide) (by decide) (fun _ _ => rfl)
  exact ⟨by decide, by decide, h.1, h.2.2.1⟩

/-! ## Era drain bound (claim C5)

The payout of one era is spread one collator per block; `runPayoutBlocks`
iterates the per-block `handle_delayed_payouts` step with the era clock
unchanged (within one era `era.current` is constant). -/

def runPayoutBlocks (cfg : Cfg) (now : Nat) : Nat → ChainState → ChainState
  | 0, s => s
  | n + 1, s => runPayoutBlocks cfg now n (handleDelayedPayouts cfg s now)

/-- Total amount carried by `Rewarded` events. -/
def rewardedSum (evs : List Event) : Nat :=
  (evs.filterMap (fun e =>
    match e with
    | Event.rewarded _ r => some r
    | _ => none)).sum

theorem rewardedSum_append (a b : List Event) :
    rewardedSum (a ++ b) = rewardedSum a + rewardedSum b := by
  unfold rewardedSum
  rw [List.filterMap_append, List.sum_append]

/-- Award points of one era, in storage iteration order. -/
def eraAwarded (l : List ((Nat × Nat) × Nat)) (era : Nat) : List Nat :=
  (l.filter (fun e => decide (e.1.1 = era))).map (fun e => e.2)

/-- Nominal era shares of a list of award points. -/
def eraShares (tp r : Nat) (l : List Nat) : Nat :=
  (l.map (fun p => perbillMul (fromRational p tp) r)).sum

/-- Remaining nominal disbursement budget of the era being paid. -/
def eraBudget (cfg : Cfg) (now tp r : Nat) (s : ChainState) : Nat :=
  match getA s.delayedPayouts (now - cfg.rewardPaymentDelay) with
  | some _ => eraShares tp r (eraAwarded s.awardedPts (now - cfg.rewardPaymentDelay))
  | none => 0

theorem getA_mem {κ ν : Type} [DecidableEq κ] (l : List (κ × ν)) (k : κ) (v : ν)
    (h : getA l k = some v) : (k, v) ∈ l := by
  induction l with
  | nil => exact absurd h (by unfold getA; simp)
  | cons e rest ih =>
      obtain ⟨k1, v1⟩ := e
      unfold getA at h
      by_cases hk : k1 = k
      · rw [if_pos hk] at h
        subst hk
        cases h
        exact List.mem_cons_self _ _
      · rw [if_neg hk] at h
        exact List.mem_cons_of_mem _ (ih h)

theorem eraAwarded_drainFirst (l : List ((Nat × Nat) × Nat)) (era a v : Nat)
    (rest : List ((Nat × Nat) × Nat))
    (h : drainFirst l era = some ((a, v), rest)) :
    eraAwarded l era = v :: eraAwarded rest era := by
  induction l generalizing rest with
  | nil => exact absurd h (by unfold drainFirst; simp)
  | cons e tail ih =>
      obtain ⟨⟨e1, a1⟩, v1⟩ := e
      unfold drainFirst at h
      by_cases he : e1 = era
      · rw [if_pos he] at h
        cases h
        unfold eraAwarded
        rw [List.filter_cons, if_pos (by simpa using he)]
        rfl
      · rw [if_neg he] at h
        cases htail : drainFirst tail era with
        | none => rw [htail] at h; cases h
        | some x =>
            obtain ⟨⟨a2, v2⟩, rest2⟩ := x
            rw [htail] at h
            cases h
            unfold eraAwarded
            rw [List.filter_cons, if_neg (by simpa using he),
              List.filter_cons, if_neg (by simpa using he)]
            exact ih rest2 htail

theorem rewardedSum_paymentEvents (cfg : Cfg) (ps : List (Nat × Nat)) :
    rewardedSum (ps.map (fun p => paymentEvent cfg p.1 p.2))
      ≤ (ps.map (fun p => p.2)).sum := by
  induction ps with
  | nil => simp [rewardedSum]
  | cons p rest ih =>
      rw [List.map_cons, show (paymentEvent cfg p.1 p.2
          :: rest.map (fun p => paymentEvent cfg p.1 p.2))
          = [paymentEvent cfg p.1 p.2] ++ rest.map (fun p => paymentEvent cfg p.1 p.2)
        from rfl, rewardedSum_append, List.map_cons, List.sum_cons]
      apply Nat.add_le_add _ ih
      unfold paymentEvent
      split <;> simp [rewardedSum]

theorem nominatorPayments_amounts_le (snapTotal c : Nat) (noms : List Bond) :
    ((nominatorPayments snapTotal c noms).map (fun p => p.2)).sum
      ≤ (noms.map (fun b =>
          perbillMul (fromRational b.amount snapTotal) c)).sum := by
  induction noms with
  | nil => simp [nominatorPayments]
  | cons b rest ih =>
      unfold nominatorPayments
      rw [List.filterMap_cons, List.map_cons, List.sum_cons]
      split
      · exact le_trans ih (Nat.le_add_left _ _)
      · rename_i val heq
        have hval : val = (b.owner, perbillMul (fromRational b.amount snapTotal) c) := by
          by_cases hr : perbillMul (fromRational b.amount snapTotal) c ≠ 0
          · rw [if_pos hr] at heq
            exact (Option.some.inj heq).symm
          · rw [if_neg hr] at heq
            cases heq
        subst hval
        rw [List.map_cons, List.sum_cons]
        exact Nat.add_le_add (Nat.le_refl _) ih

/-- One collator batch disburses at most the collator's era share, provided
the snapshot is well formed (`bond + Σ nominations = total`). -/
theorem batch_rewarded_le (cfg : Cfg) (collator : Nat) (snap : CollatorSnapshot)
    (c : Nat)
    (hwf : snap.bond + (snap.nominations.map (fun b => b.amount)).sum = snap.total) :
    rewardedSum ((batchPayments collator snap c).map
        (fun p => paymentEvent cfg p.1 p.2)) ≤ c := by
  refine (rewardedSum_paymentEvents cfg _).trans ?_
  unfold batchPayments
  rw [List.map_cons, List.sum_cons]
  have h1 : ((nominatorPayments snap.total c snap.nominations).map (fun p => p.2)).sum
      ≤ (snap.nominations.map (fun b =>
          perbillMul (fromRational b.amount snap.total) c)).sum :=
    nominatorPayments_amounts_le snap.total c snap.nominations
  have h2 : ((snap.bond :: snap.nominations.map (fun b => b.amount)).map
      (fun a => perbillMul (fromRational a snap.total) c)).sum ≤ c := by
    apply payments_sum_le
    rw [List.sum_cons, hwf]
  rw [List.map_cons, List.sum_cons, List.map_map] at h2
  calc perbillMul (fromRational snap.bond snap.total) c
        + ((nominatorPayments snap.total c snap.nominations).map (fun p => p.2)).sum
      ≤ perbillMul (fromRational snap.bond snap.total) c
        + (snap.nominations.map (fun b =>
            perbillMul (fromRational b.amount snap.total) c)).sum :=
        Nat.add_le_add_left h1 _
    _ ≤ c := h2

/-- Invariant-carrying bound: iterating the per-block payout step extends the
event log by rewards totalling at most the remaining era budget. -/
theorem runPayoutBlocks_bounded (cfg : Cfg) (now tp r : Nat) :
    ∀ (n : Nat) (s : ChainState),
    (∀ e ∈ s.atStake,
      e.2.bond + (e.2.nominations.map (fun b => b.amount)).sum = e.2.total) →
    (∀ info, getA s.delayedPayouts (now - cfg.rewardPaymentDelay) = some info →
        info.totalStakingReward = r ∧
        (getA s.points (now - cfg.rewardPaymentDelay)).getD 0 = tp) →
    ∃ d, (runPayoutBlocks cfg now n s).events = s.events ++ d ∧
      rewardedSum d ≤ eraBudget cfg now tp r s := by
  intro n
  induction n with
  | zero =>
      intro s _ _
      exact ⟨[], by simp [runPayoutBlocks], by simp [rewardedSum]⟩
  | succ n ih =>
      intro s hwf hinv
      have hrun : runPayoutBlocks cfg now (n + 1) s
          = runPayoutBlocks cfg now n (handleDelayedPayouts cfg s now) := rfl
      rw [hrun]
      by_cases hlt : now < cfg.rewardPaymentDelay
      · have hh : handleDelayedPayouts cfg s now = s := by
          unfold handleDelayedPayouts
          rw [if_pos hlt]
        rw [hh]
        exact ih s hwf hinv
      · cases hdp : getA s.delayedPayouts (now - cfg.rewardPaymentDelay) with
        | none =>
            have hh : handleDelayedPayouts cfg s now = s := by
              simp only [handleDelayedPayouts]
              rw [if_neg hlt, hdp]
            rw [hh]
            exact ih s hwf hinv
        | some info =>
            obtain ⟨hr, htp⟩ := hinv info hdp
            have hbudget : eraBudget cfg now tp r s
                = eraShares tp r (eraAwarded s.awardedPts
                    (now - cfg.rewardPaymentDelay)) := by
              unfold eraBudget
              rw [hdp]
            rcases hnopay : (payOneCollatorReward cfg s
                (now - cfg.rewardPaymentDelay) info).1 with _ | res
            · -- no payout was made: the era's storage is cleaned up
              have hpays : payOneCollatorReward cfg s
                  (now - cfg.rewardPaymentDelay) info = (none, s) := by
                by_cases hT : (getA s.points (now - cfg.rewardPaymentDelay)).getD 0 = 0
                · exact payOneCollatorReward_eq_none cfg s _ info (Or.inl hT)
                · cases hpop : drainFirst s.awardedPts (now - cfg.rewardPaymentDelay) with
                  | none => exact payOneCollatorReward_eq_none cfg s _ info (Or.inr hpop)
                  | some x =>
                      obtain ⟨⟨collator, pts⟩, rest⟩ := x
                      rw [payOneCollatorReward_eq_pop cfg s _ info collator pts rest
                        hT hpop] at hnopay
                      cases hnopay
              set s3 : ChainState := { s with
                delayedPayouts := removeA s.delayedPayouts
                  (now - cfg.rewardPaymentDelay),
                points := removeA s.points (now - cfg.rewardPaymentDelay) } with hs3
              have hh : handleDelayedPayouts cfg s now = s3 := by
                simp only [handleDelayedPayouts, hlt, if_false, hdp]
                rw [hpays]
                rfl
              rw [hh]
              have hinv3 : ∀ info2,
                  getA s3.delayedPayouts (now - cfg.rewardPaymentDelay) = some info2 →
                  info2.totalStakingReward = r ∧
                  (getA s3.points (now - cfg.rewardPaymentDelay)).getD 0 = tp := by
                intro info2 h2
                have h3 : getA (removeA s.delayedPayouts (now - cfg.rewardPaymentDelay))
                    (now - cfg.rewardPaymentDelay) = some info2 := h2
                rw [getA_removeA] at h3
                cases h3
              have hwf3 : ∀ e ∈ s3.atStake,
                  e.2.bond + (e.2.nominations.map (fun b => b.amount)).sum
                    = e.2.total := fun e he => hwf e he
              obtain ⟨d, hd, hb⟩ := ih s3 hwf3 hinv3
              refine ⟨d, hd, le_trans hb ?_⟩
              have hz : eraBudget cfg now tp r s3 = 0 := by
                unfold eraBudget
                have h4 : getA s3.delayedPayouts (now - cfg.rewardPaymentDelay)
                    = none := getA_removeA _ _
                rw [h4]
              rw [hz]
              exact Nat.zero_le _
            · -- a collator was paid
              have hT : ¬ (getA s.points (now - cfg.rewardPaymentDelay)).getD 0 = 0 := by
                intro hT0
                rw [payOneCollatorReward_eq_none cfg s _ info (Or.inl hT0)] at hnopay
                cases hnopay
              cases hpop : drainFirst s.awardedPts (now - cfg.rewardPaymentDelay) with
              | none =>
                  rw [payOneCollatorReward_eq_none cfg s _ info (Or.inr hpop)] at hnopay
                  cases hnopay
              | some x =>
                  obtain ⟨⟨collator, pts⟩, rest⟩ := x
                  have hpay := payOneCollatorReward_eq_pop cfg s
                    (now - cfg.rewardPaymentDelay) info collator pts rest hT hpop
                  have hh : handleDelayedPayouts cfg s now
                      = (payOneCollatorReward cfg s
                          (now - cfg.rewardPaymentDelay) info).2 := by
                    simp only [handleDelayedPayouts, hlt, if_false, hdp]
                    rw [hpay]
                    rfl
                  set snap := (getA s.atStake
                    (now - cfg.rewardPaymentDelay, collator)).getD default with hsnapd
                  set c := perbillMul
                    (fromRational pts
                      ((getA s.points (now - cfg.rewardPaymentDelay)).getD 0))
                    info.totalStakingReward with hcd
                  set s2 : ChainState := { s with
                    awardedPts := rest,
                    atStake := removeA s.atStake
                      (now - cfg.rewardPaymentDelay, collator) } with hs2d
                  obtain ⟨hre, hrl, hra, hrp, hrd, hraw⟩ := payReward_spec cfg
                    (perbillMul (fromRational snap.bond snap.total) c) collator s2
                  obtain ⟨hne, hnl, hna, hnp2, hnd, hnaw⟩ := payNominators_spec cfg
                    snap.total c snap.nominations
                    (payReward cfg (perbillMul (fromRational snap.bond snap.total) c)
                      collator s2)
                  have hpay2 : (payOneCollatorReward cfg s
                      (now - cfg.rewardPaymentDelay) info).2
                      = payNominators cfg snap.total c snap.nominations
                          (payReward cfg
                            (perbillMul (fromRational snap.bond snap.total) c)
                            collator s2) := by
                    rw [hpay]
                  rw [hh, hpay2]
                  have hwf4 : ∀ e ∈ (payNominators cfg snap.total c snap.nominations
                      (payReward cfg (perbillMul (fromRational snap.bond snap.total) c)
                        collator s2)).atStake,
                      e.2.bond + (e.2.nominations.map (fun b => b.amount)).sum
                        = e.2.total := by
                    intro e he
                    rw [hna, hra] at he
                    have : e ∈ s.atStake := by
                      have h2 : e ∈ s2.atStake := he
                      rw [hs2d] at h2
                      exact List.mem_of_mem_filter h2
                    exact hwf e this
                  have hinv4 : ∀ info2,
                      getA (payNominators cfg snap.total c snap.nominations
                        (payReward cfg
                          (perbillMul (fromRational snap.bond snap.total) c)
                          collator s2)).delayedPayouts
                        (now - cfg.rewardPaymentDelay) = some info2 →
                      info2.totalStakingReward = r ∧
                      (getA (payNominators cfg snap.total c snap.nominations
                        (payReward cfg
                          (perbillMul (fromRational snap.bond snap.total) c)
                          collator s2)).points
                        (now - cfg.rewardPaymentDelay)).getD 0 = tp := by
                    intro info2 h2
                    rw [hnd, hrd] at h2
                    rw [hnp2, hrp]
                    exact hinv info2 h2
                  obtain ⟨d, hd, hb⟩ := ih _ hwf4 hinv4
                  have hevents : (payNominators cfg snap.total c snap.nominations
                      (payReward cfg (perbillMul (fromRational snap.bond snap.total) c)
                        collator s2)).events
                      = s.events ++ (batchPayments collator snap c).map
                          (fun p => paymentEvent cfg p.1 p.2) := by
                    rw [hne, hre]
                    have hs2e : s2.events = s.events := rfl
                    rw [hs2e, batchPayments, List.map_cons, List.append_assoc,
                      List.singleton_append]
                  refine ⟨(batchPayments collator snap c).map
                      (fun p => paymentEvent cfg p.1 p.2) ++ d, ?_, ?_⟩
                  · rw [hd, hevents, List.append_assoc]
                  · rw [rewardedSum_append]
                    have hsnapwf : snap.bond
                        + (snap.nominations.map (fun b => b.amount)).sum = snap.total := by
                      rw [hsnapd]
                      cases hget : getA s.atStake
                          (now - cfg.rewardPaymentDelay, collator) with
                      | none => rfl
                      | some v =>
                          have := hwf _ (getA_mem _ _ _ hget)
                          simpa using this
                    have hbatch : rewardedSum ((batchPayments collator snap c).map
                        (fun p => paymentEvent cfg p.1 p.2)) ≤ c :=
                      batch_rewarded_le cfg collator snap c hsnapwf
                    have hbudget4 : eraBudget cfg now tp r
                        (payNominators cfg snap.total c snap.nominations
                          (payReward cfg
                            (perbillMul (fromRational snap.bond snap.total) c)
                            collator s2))
                        = eraShares tp r (eraAwarded rest
                            (now - cfg.rewardPaymentDelay)) := by
                      unfold eraBudget
                      rw [hnd, hrd]
                      have hs2dp : s2.delayedPayouts = s.delayedPayouts := rfl
                      rw [hs2dp, hdp]
                      have hawarded : (payNominators cfg snap.total c snap.nominations
                          (payReward cfg
                            (perbillMul (fromRational snap.bond snap.total) c)
                            collator s2)).awardedPts = rest := by
                        rw [hnaw, hraw]
                      rw [hawarded]
                    have hsplit : eraBudget cfg now tp r s
                        = perbillMul (fromRational pts tp) r
                          + eraShares tp r (eraAwarded rest
                              (now - cfg.rewardPaymentDelay)) := by
                      rw [hbudget, eraAwarded_drainFirst s.awardedPts _ collator pts rest
                        hpop]
                      unfold eraShares
                      rw [List.map_cons, List.sum_cons]
                    rw [hsplit]
                    apply Nat.add_le_add
                    · have : c = perbillMul (fromRational pts tp) r := by
                        rw [hcd, htp, hr]
                      rw [← this]
                      exact hbatch
                    · rw [← hbudget4]
                      exact hb

/-- Claim C5: for an era with known award points and a prepared
`DelayedPayout`, the amounts disbursed to collators and nominators over the
per-block payout loop total at most `total_staking_reward` (possibly strictly
less, as `Perbill` rounding remainders are not redistributed). -/
theorem era_total_disbursement_le (cfg : Cfg) (s : ChainState) (now n : Nat)
    (info : DelayedPayoutInfo)
    (hwf : ∀ e ∈ s.atStake,
      e.2.bond + (e.2.nominations.map (fun b => b.amount)).sum = e.2.total)
    (hdp : getA s.delayedPayouts (now - cfg.rewardPaymentDelay) = some info)
    (hpts : (eraAwarded s.awardedPts (now - cfg.rewardPaymentDelay)).sum
      ≤ (getA s.points (now - cfg.rewardPaymentDelay)).getD 0) :
    ∃ d, (runPayoutBlocks cfg now n s).events = s.events ++ d ∧
      rewardedSum d ≤ info.totalStakingReward := by
  obtain ⟨d, hd, hb⟩ := runPayoutBlocks_bounded cfg now
    ((getA s.points (now - cfg.rewardPaymentDelay)).getD 0)
    info.totalStakingReward n s hwf (by
      intro info2 h2
      rw [hdp] at h2
      cases h2
      exact ⟨rfl, rfl⟩)
  refine ⟨d, hd, le_trans hb ?_⟩
  unfold eraBudget
  rw [hdp]
  exact payments_sum_le _ _ _ hpts

theorem era_total_disbursement_le_witness :
    (∀ e ∈ scenarioDState.atStake,
      e.2.bond + (e.2.nominations.map (fun b => b.amount)).sum = e.2.total) ∧
    getA scenarioDState.delayedPayouts (2 - exampleCfg.rewardPaymentDelay)
      = some ⟨50, 50⟩ ∧
    (eraAwarded scenarioDState.awardedPts (2 - exampleCfg.rewardPaymentDelay)).sum
      ≤ (getA scenarioDState.points (2 - exampleCfg.rewardPaymentDelay)).getD 0 ∧
    ∃ d, (runPayoutBlocks exampleCfg 2 3 scenarioDState).events
        = scenarioDState.events ++ d ∧
      rewardedSum d ≤ (50 : Nat) :=
  ⟨by decide, by decide, by decide,
    era_total_disbursement_le exampleCfg scenarioDState 2 3 ⟨50, 50⟩
      (by decide) (by decide) (by decide)⟩

/-! ## Era-boundary selection (`select_top_candidates`, claim C7) -/

instance : Inhabited CandidateMetadata :=
  ⟨⟨0, 0, 0, CollatorStatus.active, none⟩⟩

/-- Result of `get_rewardable_nominators` (`CountedNominations`). -/
structure CountedNominations where
  uncountedStake : Nat
  rewardableNominations : List Bond
  deriving DecidableEq, Repr

/-- Embedding of `Pallet::get_rewardable_nominators` (lib.rs 1447–1484): the
collator's Top nominations with a pending Revoke zeroed out and a pending
Decrease subtracted, accumulating the uncounted stake.  The source collects
the request list into a `BTreeMap`; requests hold at most one entry per
nominator, so a first-match lookup is equivalent. -/
def getRewardableNominators (s : ChainState) (collator : Nat) : CountedNominations :=
  let requests := (getA s.scheduledRequests collator).getD []
  let top := (getA s.topNominations collator).getD default
  top.nominations.foldl (fun acc bond =>
    match (requests.find? (fun x => decide (x.nominator = bond.owner))).map
        (fun x => x.action) with
    | none =>
        { acc with rewardableNominations := acc.rewardableNominations ++ [bond] }
    | some (NominationAction.revoke _) =>
        { uncountedStake := acc.uncountedStake + bond.amount,
          rewardableNominations := acc.rewardableNominations ++ [⟨bond.owner, 0⟩] }
    | some (NominationAction.decrease amount) =>
        { uncountedStake := acc.uncountedStake + amount,
          rewardableNominations :=
            acc.rewardableNominations ++ [⟨bond.owner, bond.amount - amount⟩] })
    ⟨0, []⟩

/-- Embedding of `Pallet::select_top_candidates` (lib.rs 1376–1436).  Returns
the new state together with `(collator_count, nomination_count, total staked)`.
In the degenerate branch the previous era's snapshots are copied to the new
era and `SelectedCandidates` is left untouched; the source's
`total_per_candidate.get(..).expect(..)` is modelled as a first-match lookup
defaulting to zero. -/
def selectTopCandidates (cfg : Cfg) (s : ChainState) (now : Nat) :
    ChainState × Nat × Nat × Nat :=
  let collators := computeTopCandidates s.candidatePool s.totalSelected
    cfg.minCollatorStk
  if collators.isEmpty then
    let lastEra := now - 1
    let entries := s.atStake.filter (fun e => decide (e.1.1 = lastEra))
    let collatorCount := entries.length
    let nominationCount := (entries.map (fun e => e.2.nominations.length)).sum
    let total := (entries.map (fun e => e.2.total)).sum
    let s2 := { s with
      atStake := entries.foldl (fun m e => putA m (now, e.1.2) e.2) s.atStake,
      events := s.events ++ s.selectedCandidates.map (fun candidate =>
        Event.collatorChosen now candidate
          (((entries.find? (fun e => decide (e.1.2 = candidate))).map
              (fun e => e.2.total)).getD 0)) }
    (s2, collatorCount, nominationCount, total)
  else
    let folded := collators.foldl (fun acc account =>
      let st := acc.1
      let state := (getA s.candidateInfo account).getD default
      let counted := getRewardableNominators s account
      let totalCounted := state.totalCounted - counted.uncountedStake
      let snapshot : CollatorSnapshot :=
        ⟨state.bond, counted.rewardableNominations, totalCounted⟩
      ({ st with
          atStake := putA st.atStake (now, account) snapshot,
          events := st.events
            ++ [Event.collatorChosen now account state.totalCounted] },
        acc.2.1 + 1, acc.2.2.1 + state.nominationCount,
        acc.2.2.2 + state.totalCounted)) (s, 0, 0, 0)
    ({ folded.1 with selectedCandidates := collators },
      folded.2.1, folded.2.2.1, folded.2.2.2)

theorem getA_putA_self {κ ν : Type} [DecidableEq κ] (l : List (κ × ν)) (k : κ)
    (v : ν) : getA (putA l k v) k = some v := by
  induction l with
  | nil => simp [putA, getA]
  | cons e rest ih =>
      obtain ⟨k1, v1⟩ := e
      unfold putA
      by_cases hk : k1 = k
      · rw [if_pos hk]
        unfold getA
        rw [if_pos rfl]
      · rw [if_neg hk]
        unfold getA
        rw [if_neg hk]
        exact ih

theorem getA_putA_ne {κ ν : Type} [DecidableEq κ] (l : List (κ × ν)) (k k2 : κ)
    (v : ν) (h : k2 ≠ k) : getA (putA l k v) k2 = getA l k2 := by
  have hkk2 : ¬ k = k2 := fun hc => h hc.symm
  induction l with
  | nil => simp [putA, getA, hkk2]
  | cons e rest ih =>
      obtain ⟨k1, v1⟩ := e
      unfold putA
      by_cases hk : k1 = k
      · rw [if_pos hk]
        show getA ((k, v) :: rest) k2 = getA ((k1, v1) :: rest) k2
        unfold getA
        rw [if_neg hkk2, if_neg (fun hc : k1 = k2 => hkk2 (hk ▸ hc))]
      · rw [if_neg hk]
        show getA ((k1, v1) :: putA rest k v) k2 = getA ((k1, v1) :: rest) k2
        unfold getA
        by_cases h2 : k1 = k2
        · rw [if_pos h2, if_pos h2]
        · rw [if_neg h2, if_neg h2]
          exact ih

theorem getA_none_not_mem {κ ν : Type} [DecidableEq κ] (l : List (κ × ν)) (k : κ)
    (h : getA l k = none) : ∀ v, (k, v) ∉ l := by
  induction l with
  | nil => intro v hv; cases hv
  | cons e rest ih =>
      obtain ⟨k1, v1⟩ := e
      unfold getA at h
      by_cases hk : k1 = k
      · rw [if_pos hk] at h
        cases h
      · rw [if_neg hk] at h
        intro v hv
        rcases List.mem_cons.mp hv with heq | hmem
        · exact hk (congrArg Prod.fst heq).symm
        · exact ih h v hmem

theorem getA_foldl_putA_not_mem (now2 : Nat)
    (es : List ((Nat × Nat) × CollatorSnapshot)) :
    ∀ (m : List ((Nat × Nat) × CollatorSnapshot)) (k : Nat × Nat),
    (∀ e ∈ es, (now2, e.1.2) ≠ k) →
    getA (es.foldl (fun m2 e => putA m2 (now2, e.1.2) e.2) m) k = getA m k := by
  induction es with
  | nil => intro m k _; rfl
  | cons e tl ih =>
      intro m k hk
      rw [List.foldl_cons]
      rw [ih (putA m (now2, e.1.2) e.2) k
        (fun e2 he2 => hk e2 (List.mem_cons_of_mem _ he2))]
      exact getA_putA_ne m _ k e.2 (fun hc => hk e (List.mem_cons_self _ _) hc.symm)

theorem getA_foldl_putA_mem (now2 : Nat) :
    ∀ (es : List ((Nat × Nat) × CollatorSnapshot))
      (m : List ((Nat × Nat) × CollatorSnapshot))
      (e0 : (Nat × Nat) × CollatorSnapshot),
    e0 ∈ es → (es.map (fun e => e.1.2)).Nodup →
    getA (es.foldl (fun m2 e => putA m2 (now2, e.1.2) e.2) m) (now2, e0.1.2)
      = some e0.2 := by
  intro es
  induction es with
  | nil => intro m e0 he _; cases he
  | cons e tl ih =>
      intro m e0 he hnodup
      rw [List.map_cons, List.nodup_cons] at hnodup
      rw [List.foldl_cons]
      rcases List.mem_cons.mp he with heq | hmem
      · subst heq
        rw [getA_foldl_putA_not_mem now2 tl _ _ (by
          intro e2 he2 hc
          have hsnd := congrArg Prod.snd hc
          exact hnodup.1 (List.mem_map.mpr ⟨e2, he2, hsnd⟩))]
        exact getA_putA_self m _ e0.2
      · exact ih (putA m (now2, e.1.2) e.2) e0 hmem hnodup.2

/-- Claim C7: when stake-based selection yields an empty candidate set at an
era boundary, `SelectedCandidates` is left unchanged and the new era's
`AtStake` snapshots equal the previous era's, so a chain that ever had a
non-empty selected set retains one. -/
theorem select_top_candidates_empty_fallback (cfg : Cfg) (s : ChainState)
    (now : Nat)
    (hempty : computeTopCandidates s.candidatePool s.totalSelected
      cfg.minCollatorStk = [])
    (hnodup : (s.atStake.map (fun e => e.1)).Nodup)
    (hfresh : ∀ a, getA s.atStake (now, a) = none) :
    (selectTopCandidates cfg s now).1.selectedCandidates = s.selectedCandidates ∧
    (∀ a, getA (selectTopCandidates cfg s now).1.atStake (now, a)
        = getA s.atStake (now - 1, a)) ∧
    (s.selectedCandidates ≠ [] →
      (selectTopCandidates cfg s now).1.selectedCandidates ≠ []) := by
  have hstep : (selectTopCandidates cfg s now).1
      = { s with
          atStake := (s.atStake.filter
              (fun e => decide (e.1.1 = now - 1))).foldl
            (fun m e => putA m (now, e.1.2) e.2) s.atStake,
          events := s.events ++ s.selectedCandidates.map (fun candidate =>
            Event.collatorChosen now candidate
              ((((s.atStake.filter (fun e => decide (e.1.1 = now - 1))).find?
                  (fun e => decide (e.1.2 = candidate))).map
                  (fun e => e.2.total)).getD 0)) } := by
    simp only [selectTopCandidates, hempty, List.isEmpty_nil, if_true]
  rw [hstep]
  refine ⟨rfl, ?_, fun h => h⟩
  intro a
  show getA ((s.atStake.filter (fun e => decide (e.1.1 = now - 1))).foldl
      (fun m e => putA m (now, e.1.2) e.2) s.atStake) (now, a)
    = getA s.atStake (now - 1, a)
  have hsub : (s.atStake.filter
      (fun e => decide (e.1.1 = now - 1))).Sublist s.atStake :=
    List.filter_sublist _
  have hkeysE : ((s.atStake.filter
      (fun e => decide (e.1.1 = now - 1))).map (fun e => e.1)).Nodup :=
    List.Nodup.sublist (hsub.map (fun e => e.1)) hnodup
  have hera : ∀ e ∈ s.atStake.filter (fun e => decide (e.1.1 = now - 1)),
      e.1.1 = now - 1 := by
    intro e he
    have := (List.mem_filter.mp he).2
    simpa using this
  cases hget : getA s.atStake (now - 1, a) with
  | some snap =>
      have hmem : ((now - 1, a), snap) ∈ s.atStake := getA_mem _ _ _ hget
      have hmem2 : ((now - 1, a), snap)
          ∈ s.atStake.filter (fun e => decide (e.1.1 = now - 1)) :=
        List.mem_filter.mpr ⟨hmem, by simp⟩
      have hnodupE : ((s.atStake.filter
          (fun e => decide (e.1.1 = now - 1))).map (fun e => e.1.2)).Nodup := by
        have h1 : (s.atStake.filter
              (fun e => decide (e.1.1 = now - 1))).map (fun e => e.1.2)
            = ((s.atStake.filter
                (fun e => decide (e.1.1 = now - 1))).map (fun e => e.1)).map
              (fun k => k.2) := by
          rw [List.map_map]
          rfl
        rw [h1]
        apply List.Nodup.map_on ?inj hkeysE
        intro x hx y hy hxy
        have hx1 : x.1 = now - 1 := by
          rcases List.mem_map.mp hx with ⟨e, he, hex⟩
          rw [← hex]
          exact hera e he
        have hy1 : y.1 = now - 1 := by
          rcases List.mem_map.mp hy with ⟨e, he, hey⟩
          rw [← hey]
          exact hera e he
        apply Prod.ext
        · rw [hx1, hy1]
        · exact hxy
      exact getA_foldl_putA_mem now _ s.atStake ((now - 1, a), snap) hmem2 hnodupE
  | none =>
      rw [getA_foldl_putA_not_mem now _ s.atStake (now, a) (by
        intro e he hc
        have hc2 : e.1.2 = a := congrArg Prod.snd hc
        have hkey : e.1 = (now - 1, a) := Prod.ext (hera e he) hc2
        have hmeme : ((now - 1, a), e.2) ∈ s.atStake := by
          have hmem1 : e ∈ s.atStake := List.mem_of_mem_filter he
          have : e = ((now - 1, a), e.2) := Prod.ext hkey rfl
          rw [← this]
          exact hmem1
        exact getA_none_not_mem s.atStake (now - 1, a) hget e.2 hmeme)]
      rw [hfresh a]

/-- Fallback-scenario state: one era-1 snapshot, one selected candidate,
empty candidate pool. -/
def c7State : ChainState :=
  { emptyChainState with
    atStake := [((1, 5), ⟨20, [], 20⟩)],
    selectedCandidates := [5] }

theorem select_top_candidates_empty_fallback_witness :
    computeTopCandidates c7State.candidatePool c7State.totalSelected
      exampleCfg.minCollatorStk = [] ∧
    (c7State.atStake.map (fun e => e.1)).Nodup ∧
    (∀ a, getA c7State.atStake (2, a) = none) ∧
    (selectTopCandidates exampleCfg c7State 2).1.selectedCandidates
      = c7State.selectedCandidates ∧
    getA (selectTopCandidates exampleCfg c7State 2).1.atStake (2, 5)
      = getA c7State.atStake (1, 5) := by
  have hfresh : ∀ a, getA c7State.atStake (2, a) = none := by
    intro a
    simp [c7State, emptyChainState, getA]
  have hempty : computeTopCandidates c7State.candidatePool c7State.totalSelected
      exampleCfg.minCollatorStk = [] := by
    simp [computeTopCandidates, c7State, emptyChainState]
  obtain ⟨h1, h2, _⟩ := select_top_candidates_empty_fallback exampleCfg c7State 2
    hempty (by decide) hfresh
  exact ⟨hempty, by decide, hfresh, h1, h2 5⟩

/-! ## Nomination ledger primitives (types.rs, modelled from the spec)

`types.rs` and `set.rs` are not under src/; the bounded Top/Bottom algorithm
below follows §4.1 of the specification.  Stored `NominationsRec` records
always carry `total = listTotal nominations`; "evict the lowest" scans for a
minimal-amount entry. -/

def listTotal (l : List Bond) : Nat := (l.map (fun b => b.amount)).sum

/-- Modelled from the spec: insert a bond into an amount-descending list. -/
def insertDesc : List Bond → Bond → List Bond
  | [], b => [b]
  | x :: xs, b => if x.amount < b.amount then b :: x :: xs else x :: insertDesc xs b

/-- Modelled from the spec: the lowest nomination amount of a list (the
`lowest_top_nomination_amount` / `lowest_bottom_nomination_amount` caches),
zero when the list is empty. -/
def lowestAmount : List Bond → Nat
  | [] => 0
  | [x] => x.amount
  | x :: xs => min x.amount (lowestAmount xs)

/-- Modelled from the spec: remove a lowest-amount entry ("evict the
lowest"). -/
def removeMinBond : List Bond → Option (Bond × List Bond)
  | [] => none
  | [x] => some (x, [])
  | x :: xs =>
      match removeMinBond xs with
      | none => some (x, [])
      | some (m, rest) =>
          if x.amount ≤ m.amount then some (x, xs) else some (m, x :: rest)

/-- Modelled from the spec: remove a highest-amount entry ("promote the
highest bottom"). -/
def removeMaxBond : List Bond → Option (Bond × List Bond)
  | [] => none
  | [x] => some (x, [])
  | x :: xs =>
      match removeMaxBond xs with
      | none => some (x, [])
      | some (m, rest) =>
          if m.amount ≤ x.amount then some (x, xs) else some (m, x :: rest)

/-- Modelled from the spec: remove the nomination of a given owner. -/
def removeBondByOwner : List Bond → Nat → Option (Bond × List Bond)
  | [], _ => none
  | x :: xs, o =>
      if x.owner = o then some (x, xs)
      else
        match removeBondByOwner xs o with
        | none => none
        | some (m, rest) => some (m, x :: rest)

theorem listTotal_insertDesc (l : List Bond) (b : Bond) :
    listTotal (insertDesc l b) = b.amount + listTotal l := by
  induction l with
  | nil => simp [insertDesc, listTotal]
  | cons x xs ih =>
      unfold insertDesc
      split
      · simp [listTotal]
      · simp only [listTotal, List.map_cons, List.sum_cons] at ih ⊢
        omega

theorem mem_insertDesc (l : List Bond) (b y : Bond) :
    y ∈ insertDesc l b ↔ y ∈ l ∨ y = b := by
  induction l with
  | nil => simp [insertDesc]
  | cons x xs ih =>
      unfold insertDesc
      split
      · simp only [List.mem_cons]
        tauto
      · simp only [List.mem_cons, ih]
        tauto

theorem removeMinBond_cons_ne_none (x : Bond) (xs : List Bond) :
    removeMinBond (x :: xs) ≠ none := by
  cases xs with
  | nil => simp [removeMinBond]
  | cons z zs =>
      show (match removeMinBond (z :: zs) with
        | none => some (x, [])
        | some (m, rest) =>
            if x.amount ≤ m.amount then some (x, z :: zs)
            else some (m, x :: rest)) ≠ none
      cases removeMinBond (z :: zs) with
      | none => simp
      | some p =>
          obtain ⟨m, rest⟩ := p
          show (if x.amount ≤ m.amount then some (x, z :: zs)
              else some (m, x :: rest)) ≠ none
          split <;> simp

theorem removeMaxBond_cons_ne_none (x : Bond) (xs : List Bond) :
    removeMaxBond (x :: xs) ≠ none := by
  cases xs with
  | nil => simp [removeMaxBond]
  | cons z zs =>
      show (match removeMaxBond (z :: zs) with
        | none => some (x, [])
        | some (m, rest) =>
            if m.amount ≤ x.amount then some (x, z :: zs)
            else some (m, x :: rest)) ≠ none
      cases removeMaxBond (z :: zs) with
      | none => simp
      | some p =>
          obtain ⟨m, rest⟩ := p
          show (if m.amount ≤ x.amount then some (x, z :: zs)
              else some (m, x :: rest)) ≠ none
          split <;> simp

theorem removeMinBond_spec (l : List Bond) (m : Bond) (rest : List Bond)
    (h : removeMinBond l = some (m, rest)) :
    listTotal l = m.amount + listTotal rest ∧ m ∈ l ∧
    (∀ y ∈ l, m.amount ≤ y.amount) ∧ (∀ y ∈ rest, y ∈ l) := by
  induction l generalizing m rest with
  | nil => exact absurd h (by simp [removeMinBond])
  | cons x xs ih =>
      cases xs with
      | nil =>
          simp only [removeMinBond, Option.some.injEq, Prod.mk.injEq] at h
          obtain ⟨hm, hr⟩ := h
          subst hm; subst hr
          refine ⟨by simp [listTotal], List.mem_singleton.mpr rfl, ?_, by simp⟩
          intro y hy
          rw [List.mem_singleton.mp hy]
      | cons z zs =>
          rw [show removeMinBond (x :: z :: zs)
              = match removeMinBond (z :: zs) with
                | none => some (x, [])
                | some (m2, rest2) =>
                    if x.amount ≤ m2.amount then some (x, z :: zs)
                    else some (m2, x :: rest2) from rfl] at h
          cases hrec : removeMinBond (z :: zs) with
          | none => exact absurd hrec (removeMinBond_cons_ne_none z zs)
          | some p =>
              obtain ⟨m2, rest2⟩ := p
              rw [hrec] at h
              replace h : (if x.amount ≤ m2.amount then some (x, z :: zs)
                  else some (m2, x :: rest2)) = some (m, rest) := h
              obtain ⟨h1, h2, h3, h4⟩ := ih m2 rest2 hrec
              by_cases hle : x.amount ≤ m2.amount
              · rw [if_pos hle] at h
                simp only [Option.some.injEq, Prod.mk.injEq] at h
                obtain ⟨hm, hr⟩ := h
                subst hm; subst hr
                refine ⟨rfl, List.mem_cons_self _ _, ?_, ?_⟩
                · intro y hy
                  rcases List.mem_cons.mp hy with hy | hy
                  · rw [hy]
                  · exact le_trans hle (h3 y hy)
                · intro y hy
                  exact List.mem_cons_of_mem _ hy
              · rw [if_neg hle] at h
                simp only [Option.some.injEq, Prod.mk.injEq] at h
                obtain ⟨hm, hr⟩ := h
                subst hm; subst hr
                refine ⟨?_, List.mem_cons_of_mem _ h2, ?_, ?_⟩
                · simp only [listTotal, List.map_cons, List.sum_cons] at h1 ⊢
                  omega
                · intro y hy
                  rcases List.mem_cons.mp hy with hy | hy
                  · rw [hy]; omega
                  · exact h3 y hy
                · intro y hy
                  rcases List.mem_cons.mp hy with hy | hy
                  · rw [hy]; exact List.mem_cons_self _ _
                  · exact List.mem_cons_of_mem _ (h4 y hy)

theorem removeMaxBond_spec (l : List Bond) (m : Bond) (rest : List Bond)
    (h : removeMaxBond l = some (m, rest)) :
    listTotal l = m.amount + listTotal rest ∧ m ∈ l ∧ (∀ y ∈ rest, y ∈ l) := by
  induction l generalizing m rest with
  | nil => exact absurd h (by simp [removeMaxBond])
  | cons x xs ih =>
      cases xs with
      | nil =>
          simp only [removeMaxBond, Option.some.injEq, Prod.mk.injEq] at h
          obtain ⟨hm, hr⟩ := h
          subst hm; subst hr
          exact ⟨by simp [listTotal], List.mem_singleton.mpr rfl, by simp⟩
      | cons z zs =>
          rw [show removeMaxBond (x :: z :: zs)
              = match removeMaxBond (z :: zs) with
                | none => some (x, [])
                | some (m2, rest2) =>
                    if m2.amount ≤ x.amount then some (x, z :: zs)
                    else some (m2, x :: rest2) from rfl] at h
          cases hrec : removeMaxBond (z :: zs) with
          | none => exact absurd hrec (removeMaxBond_cons_ne_none z zs)
          | some p =>
              obtain ⟨m2, rest2⟩ := p
              rw [hrec] at h
              replace h : (if m2.amount ≤ x.amount then some (x, z :: zs)
                  else some (m2, x :: rest2)) = some (m, rest) := h
              obtain ⟨h1, h2, h4⟩ := ih m2 rest2 hrec
              by_cases hle : m2.amount ≤ x.amount
              · rw [if_pos hle] at h
                simp only [Option.some.injEq, Prod.mk.injEq] at h
                obtain ⟨hm, hr⟩ := h
                subst hm; subst hr
                refine ⟨rfl, List.mem_cons_self _ _, ?_⟩
                intro y hy
                exact List.mem_cons_of_mem _ hy
              · rw [if_neg hle] at h
                simp only [Option.some.injEq, Prod.mk.injEq] at h
                obtain ⟨hm, hr⟩ := h
                subst hm; subst hr
                refine ⟨?_, List.mem_cons_of_mem _ h2, ?_⟩
                · simp only [listTotal, List.map_cons, List.sum_cons] at h1 ⊢
                  omega
                · intro y hy
                  rcases List.mem_cons.mp hy with hy | hy
                  · rw [hy]; exact List.mem_cons_self _ _
                  · exact List.mem_cons_of_mem _ (h4 y hy)

theorem removeBondByOwner_spec (l : List Bond) (o : Nat) (m : Bond)
    (rest : List Bond) (h : removeBondByOwner l o = some (m, rest)) :
    listTotal l = m.amount + listTotal rest ∧ m ∈ l ∧ m.owner = o ∧
    (∀ y ∈ rest, y ∈ l) := by
  induction l generalizing m rest with
  | nil => exact absurd h (by simp [removeBondByOwner])
  | cons x xs ih =>
      unfold removeBondByOwner at h
      by_cases ho : x.owner = o
      · rw [if_pos ho] at h
        simp only [Option.some.injEq, Prod.mk.injEq] at h
        obtain ⟨hm, hr⟩ := h
        subst hm; subst hr
        exact ⟨rfl, List.mem_cons_self _ _, ho, fun y hy => List.mem_cons_of_mem _ hy⟩
      · rw [if_neg ho] at h
        cases hrec : removeBondByOwner xs o with
        | none => rw [hrec] at h; cases h
        | some p =>
            obtain ⟨m2, rest2⟩ := p
            rw [hrec] at h
            simp only [Option.some.injEq, Prod.mk.injEq] at h
            obtain ⟨hm, hr⟩ := h
            subst hm; subst hr
            obtain ⟨h1, h2, h3, h4⟩ := ih m2 rest2 hrec
            refine ⟨?_, List.mem_cons_of_mem _ h2, h3, ?_⟩
            · simp only [listTotal, List.map_cons, List.sum_cons] at h1 ⊢
              omega
            · intro y hy
              rcases List.mem_cons.mp hy with hy | hy
              · rw [hy]; exact List.mem_cons_self _ _
              · exact List.mem_cons_of_mem _ (h4 y hy)

/-! ## Association-list sum lemmas

Used to track the global `Total` against the per-candidate contributions. -/

theorem putA_of_getA_none {κ ν : Type} [DecidableEq κ] (l : List (κ × ν)) (k : κ)
    (v : ν) (h : getA l k = none) : putA l k v = l ++ [(k, v)] := by
  induction l with
  | nil => rfl
  | cons e rest ih =>
      obtain ⟨k1, v1⟩ := e
      unfold getA at h
      unfold putA
      by_cases hk : k1 = k
      · rw [if_pos hk] at h
        cases h
      · rw [if_neg hk] at h
        rw [if_neg hk, ih h]
        rfl

theorem not_mem_keys_getA_none {κ ν : Type} [DecidableEq κ] (l : List (κ × ν))
    (k : κ) (h : k ∉ l.map (fun e => e.1)) : getA l k = none := by
  induction l with
  | nil => rfl
  | cons e rest ih =>
      obtain ⟨k1, v1⟩ := e
      rw [List.map_cons, List.mem_cons] at h
      unfold getA
      rw [if_neg (fun hc : k1 = k => h (Or.inl hc.symm))]
      exact ih (fun hc => h (Or.inr hc))

theorem getA_none_removeA_id {κ ν : Type} [DecidableEq κ] (l : List (κ × ν))
    (k : κ) (h : getA l k = none) : removeA l k = l := by
  induction l with
  | nil => rfl
  | cons e rest ih =>
      obtain ⟨k1, v1⟩ := e
      unfold getA at h
      unfold removeA at ih ⊢
      rw [List.filter_cons]
      by_cases hk : k1 = k
      · rw [if_pos hk] at h
        cases h
      · rw [if_neg hk] at h
        rw [if_pos (by simp [hk]), ih h]

theorem getA_of_mem_nodup {κ ν : Type} [DecidableEq κ] (l : List (κ × ν))
    (c : κ) (m : ν) (hmem : (c, m) ∈ l)
    (hnodup : (l.map (fun e => e.1)).Nodup) : getA l c = some m := by
  induction l with
  | nil => cases hmem
  | cons e rest ih =>
      obtain ⟨k1, v1⟩ := e
      rw [List.map_cons, List.nodup_cons] at hnodup
      rcases List.mem_cons.mp hmem with heq | hmem2
      · cases heq
        unfold getA
        rw [if_pos rfl]
      · unfold getA
        by_cases hk : k1 = c
        · exact absurd (hk ▸ List.mem_map.mpr ⟨(c, m), hmem2, rfl⟩) hnodup.1
        · rw [if_neg hk]
          exact ih hmem2 hnodup.2

theorem mem_keys_putA {κ ν : Type} [DecidableEq κ] (l : List (κ × ν)) (k : κ)
    (v : ν) (a : κ) (h : a ∈ (putA l k v).map (fun e => e.1)) :
    a ∈ l.map (fun e => e.1) ∨ a = k := by
  induction l with
  | nil =>
      simp only [putA, List.map_cons, List.map_nil, List.mem_singleton] at h
      exact Or.inr h
  | cons e rest ih =>
      obtain ⟨k1, v1⟩ := e
      unfold putA at h
      by_cases hk : k1 = k
      · rw [if_pos hk] at h
        rw [List.map_cons, List.mem_cons] at h
        rcases h with h | h
        · exact Or.inr h
        · exact Or.inl (by rw [List.map_cons, List.mem_cons]; exact Or.inr h)
      · rw [if_neg hk] at h
        rw [List.map_cons, List.mem_cons] at h
        rcases h with h | h
        · exact Or.inl (by rw [List.map_cons, List.mem_cons]; exact Or.inl h)
        · rcases ih h with h2 | h2
          · exact Or.inl (by rw [List.map_cons, List.mem_cons]; exact Or.inr h2)
          · exact Or.inr h2

theorem nodup_keys_putA {κ ν : Type} [DecidableEq κ] (l : List (κ × ν)) (k : κ)
    (v : ν) (hnodup : (l.map (fun e => e.1)).Nodup) :
    ((putA l k v).map (fun e => e.1)).Nodup := by
  induction l with
  | nil => simp [putA]
  | cons e rest ih =>
      obtain ⟨k1, v1⟩ := e
      rw [List.map_cons, List.nodup_cons] at hnodup
      unfold putA
      by_cases hk : k1 = k
      · rw [if_pos hk]
        rw [List.map_cons, List.nodup_cons]
        exact ⟨hk ▸ hnodup.1, hnodup.2⟩
      · rw [if_neg hk]
        rw [List.map_cons, List.nodup_cons]
        refine ⟨?_, ih hnodup.2⟩
        intro hc
        rcases mem_keys_putA rest k v k1 hc with h2 | h2
        · exact hnodup.1 h2
        · exact hk h2

theorem nodup_keys_removeA {κ ν : Type} [DecidableEq κ] (l : List (κ × ν)) (k : κ)
    (hnodup : (l.map (fun e => e.1)).Nodup) :
    ((removeA l k).map (fun e => e.1)).Nodup :=
  List.Nodup.sublist ((List.filter_sublist _).map _) hnodup

theorem sum_putA_update {κ ν : Type} [DecidableEq κ] (l : List (κ × ν)) (c : κ)
    (m m2 : ν) (f : κ × ν → Nat) (hget : getA l c = some m) :
    ((putA l c m2).map f).sum + f (c, m) = (l.map f).sum + f (c, m2) := by
  induction l with
  | nil => cases hget
  | cons e rest ih =>
      obtain ⟨k1, v1⟩ := e
      unfold getA at hget
      unfold putA
      by_cases hk : k1 = c
      · rw [if_pos hk] at hget
        rw [if_pos hk]
        cases hget
        subst hk
        simp only [List.map_cons, List.sum_cons]
        omega
      · rw [if_neg hk] at hget
        rw [if_neg hk]
        simp only [List.map_cons, List.sum_cons]
        have := ih hget
        omega

theorem sum_removeA {κ ν : Type} [DecidableEq κ] (l : List (κ × ν)) (c : κ)
    (m : ν) (f : κ × ν → Nat) (hget : getA l c = some m)
    (hnodup : (l.map (fun e => e.1)).Nodup) :
    ((removeA l c).map f).sum + f (c, m) = (l.map f).sum := by
  induction l with
  | nil => cases hget
  | cons e rest ih =>
      obtain ⟨k1, v1⟩ := e
      rw [List.map_cons, List.nodup_cons] at hnodup
      unfold getA at hget
      unfold removeA at ih ⊢
      rw [List.filter_cons]
      by_cases hk : k1 = c
      · rw [if_pos hk] at hget
        cases hget
        rw [if_neg (by simp [hk])]
        have hnone : getA rest c = none := by
          apply not_mem_keys_getA_none
          intro hc
          exact hnodup.1 (hk ▸ hc)
        rw [show List.filter (fun e => !decide (e.1 = c)) rest = removeA rest c
          from rfl, getA_none_removeA_id rest c hnone]
        subst hk
        simp only [List.map_cons, List.sum_cons]
        omega
      · rw [if_neg hk] at hget
        rw [if_pos (by simp [hk])]
        simp only [List.map_cons, List.sum_cons]
        have := ih hget hnodup.2
        omega

theorem sum_congr_except {κ ν : Type} [DecidableEq κ] (l : List (κ × ν)) (c : κ)
    (m : ν) (f g : κ × ν → Nat) (hmem : (c, m) ∈ l)
    (hnodup : (l.map (fun e => e.1)).Nodup)
    (hfg : ∀ e ∈ l, e.1 ≠ c → f e = g e) :
    (l.map f).sum + g (c, m) = (l.map g).sum + f (c, m) := by
  induction l with
  | nil => cases hmem
  | cons e rest ih =>
      obtain ⟨k1, v1⟩ := e
      rw [List.map_cons, List.nodup_cons] at hnodup
      rcases List.mem_cons.mp hmem with heq | hmem2
      · cases heq
        simp only [List.map_cons, List.sum_cons]
        have hrest : (rest.map f).sum = (rest.map g).sum := by
          congr 1
          apply List.map_congr_left
          intro e he
          apply hfg e (List.mem_cons_of_mem _ he)
          intro hc
          exact hnodup.1 (hc ▸ List.mem_map.mpr ⟨e, he, rfl⟩)
        omega
      · have hk : k1 ≠ c := by
          intro hc
          exact hnodup.1 (hc ▸ List.mem_map.mpr ⟨(c, m), hmem2, rfl⟩)
        simp only [List.map_cons, List.sum_cons]
        have h1 : f (k1, v1) = g (k1, v1) :=
          hfg (k1, v1) (List.mem_cons_self _ _) hk
        have := ih hmem2 hnodup.2 (fun e he => hfg e (List.mem_cons_of_mem _ he))
        omega

/-! ## Extrinsic layer: errors and helpers -/

/-- Dispatch errors of the pallet (`Error<T>`). -/
inductive StakingError where
  | nominatorDNE
  | candidateDNE
  | nominationDNE
  | nominatorExists
  | candidateExists
  | candidateBondBelowMin
  | insufficientBalance
  | nominatorBondBelowMin
  | nominationBelowMin
  | alreadyOffline
  | alreadyActive
  | candidateAlreadyLeaving
  | candidateNotLeaving
  | candidateCannotLeaveYet
  | cannotGoOnlineIfLeaving
  | exceedMaxNominationsPerNominator
  | alreadyNominatedCandidate
  | tooLowCandidateCountWeightHintJoinCandidates
  | tooLowCandidateCountWeightHintCancelLeaveCandidates
  | tooLowCandidateCountToLeaveCandidates
  | tooLowNominationCountToNominate
  | tooLowCandidateNominationCountToNominate
  | tooLowCandidateNominationCountToLeaveCandidates
  | tooLowNominationCountToLeaveNominators
  | pendingCandidateRequestsDNE
  | pendingCandidateRequestAlreadyExists
  | pendingCandidateRequestNotDueYet
  | pendingNominationRequestDNE
  | pendingNominationRequestAlreadyExists
  | pendingNominationRequestNotDueYet
  | cannotNominateLessThanOrEqualToLowestBottomWhenFull
  | pendingNominationRevoke
  deriving DecidableEq, Repr

def isCandidate (s : ChainState) (acc : Nat) : Bool :=
  (getA s.candidateInfo acc).isSome

def isNominator (s : ChainState) (acc : Nat) : Bool :=
  (getA s.nominatorState acc).isSome

/-- Embedding of `get_nominator_stakable_free_balance` (lib.rs 1144–1150). -/
def getNominatorStakableFreeBalance (cfg : Cfg) (s : ChainState) (acc : Nat) : Nat :=
  match getA s.nominatorState acc with
  | some st => cfg.freeBalance acc - st.total
  | none => cfg.freeBalance acc

/-- Embedding of `get_collator_stakable_free_balance` (lib.rs 1152–1158). -/
def getCollatorStakableFreeBalance (cfg : Cfg) (s : ChainState) (acc : Nat) : Nat :=
  match getA s.candidateInfo acc with
  | some info => cfg.freeBalance acc - info.bond
  | none => cfg.freeBalance acc

/-- Modelled from the spec: `OrderedSet::insert` on the candidate pool
(set.rs is not under src/); the pool is kept sorted by owner and insertion
fails when the owner is already present. -/
def poolInsert : List Bond → Bond → Option (List Bond)
  | [], b => some [b]
  | x :: xs, b =>
      if x.owner = b.owner then none
      else if b.owner < x.owner then some (b :: x :: xs)
      else
        match poolInsert xs b with
        | none => none
        | some l2 => some (x :: l2)

/-- Modelled from the spec: `OrderedSet::remove` by owner. -/
def poolRemove (pool : List Bond) (owner : Nat) : List Bond :=
  pool.filter (fun x => !(decide (x.owner = owner)))

/-- Embedding of `update_active` (lib.rs 1160–1165). -/
def updateActive (pool : List Bond) (candidate total : Nat) : List Bond :=
  match poolInsert (poolRemove pool candidate) ⟨candidate, total⟩ with
  | some l2 => l2
  | none => poolRemove pool candidate

def actionAmount : NominationAction → Nat
  | NominationAction.revoke a => a
  | NominationAction.decrease a => a

def CollatorStatus.isLeaving : CollatorStatus → Bool
  | CollatorStatus.leaving _ => true
  | _ => false

def CollatorStatus.isActive : CollatorStatus → Bool
  | CollatorStatus.active => true
  | _ => false

/-- Embedding of `nomination_request_revoke_exists`
(nomination_requests.rs, not under src/).  Modelled from the spec: whether
the pair has a pending `Revoke` request. -/
def nominationRequestRevokeExists (s : ChainState) (candidate nominator : Nat) :
    Bool :=
  ((getA s.scheduledRequests candidate).getD []).any (fun r =>
    decide (r.nominator = nominator) &&
      match r.action with
      | NominationAction.revoke _ => true
      | NominationAction.decrease _ => false)

/-- Modelled from the spec: the stake-return leg of
`execute_leave_candidates`' `return_stake` closure together with
`nomination_remove_request_with_state`: drop the pair's pending request
(reversing `less_total`), remove the candidate from the nominator's bond
list, and remove the nominator record entirely when it was the last
nomination. -/
def returnStake (candidate : Nat) (s : ChainState) (b : Bond) : ChainState :=
  match getA s.nominatorState b.owner with
  | none => s
  | some nom =>
      let reqs := (getA s.scheduledRequests candidate).getD []
      let nom1 :=
        match reqs.find? (fun r => decide (r.nominator = b.owner)) with
        | some r => { nom with lessTotal := nom.lessTotal - actionAmount r.action }
        | none => nom
      let s1 := { s with
        scheduledRequests := putA s.scheduledRequests candidate
          (reqs.filter (fun r => !(decide (r.nominator = b.owner)))) }
      match removeBondByOwner nom1.nominations candidate with
      | some (entry, rest) =>
          if rest.isEmpty then
            { s1 with nominatorState := removeA s1.nominatorState b.owner }
          else
            let nom2 := { nom1 with
                          nominations := rest,
                          total := nom1.total - entry.amount }
            { s1 with nominatorState := putA s1.nominatorState b.owner nom2 }
      | none => s1

/-- Modelled from the spec: `CandidateMetadata::add_nomination` (§4.1).
Stored records recompute `total` from the list; eviction removes a
lowest-amount entry and returns it as the kick. -/
def addNominationLedger (cfg : Cfg) (t b : NominationsRec) (nb : Bond) :
    Except StakingError (NominationsRec × NominationsRec × Option Bond) :=
  if t.nominations.length < cfg.maxTopNominationsPerCandidate then
    Except.ok (⟨insertDesc t.nominations nb,
      listTotal (insertDesc t.nominations nb)⟩, b, none)
  else if lowestAmount t.nominations < nb.amount then
    match removeMinBond t.nominations with
    | none =>
        Except.ok (⟨insertDesc t.nominations nb,
          listTotal (insertDesc t.nominations nb)⟩, b, none)
    | some (lowestTop, restTop) =>
        let t2 : NominationsRec :=
          ⟨insertDesc restTop nb, listTotal (insertDesc restTop nb)⟩
        let bl := insertDesc b.nominations lowestTop
        if bl.length ≤ cfg.maxBottomNominationsPerCandidate then
          Except.ok (t2, ⟨bl, listTotal bl⟩, none)
        else
          match removeMinBond bl with
          | none => Except.ok (t2, ⟨bl, listTotal bl⟩, none)
          | some (kicked, restBot) =>
              Except.ok (t2, ⟨restBot, listTotal restBot⟩, some kicked)
  else if b.nominations.length < cfg.maxBottomNominationsPerCandidate then
    Except.ok (t, ⟨insertDesc b.nominations nb,
      listTotal (insertDesc b.nominations nb)⟩, none)
  else if lowestAmount b.nominations < nb.amount then
    match removeMinBond (insertDesc b.nominations nb) with
    | none =>
        Except.ok (t, ⟨insertDesc b.nominations nb,
          listTotal (insertDesc b.nominations nb)⟩, none)
    | some (kicked, restBot) =>
        Except.ok (t, ⟨restBot, listTotal restBot⟩, some kicked)
  else Except.error StakingError.cannotNominateLessThanOrEqualToLowestBottomWhenFull

/-- Modelled from the spec: `rm_nomination` on the candidate's Top/Bottom
lists, promoting a highest Bottom entry when a Top slot frees up.  Returns
the updated records and the removed amount. -/
def rmNominationLedger (t b : NominationsRec) (nominator : Nat) :
    Option (NominationsRec × NominationsRec × Nat) :=
  match removeBondByOwner t.nominations nominator with
  | some (entry, restTop) =>
      match removeMaxBond b.nominations with
      | some (hi, restBot) =>
          some (⟨insertDesc restTop hi, listTotal (insertDesc restTop hi)⟩,
            ⟨restBot, listTotal restBot⟩, entry.amount)
      | none => some (⟨restTop, listTotal restTop⟩, b, entry.amount)
  | none =>
      match removeBondByOwner b.nominations nominator with
      | some (entry, restBot) =>
          some (t, ⟨restBot, listTotal restBot⟩, entry.amount)
      | none => none

theorem insertDesc_ne_nil (l : List Bond) (b : Bond) : insertDesc l b ≠ [] := by
  cases l with
  | nil => simp [insertDesc]
  | cons x xs =>
      unfold insertDesc
      split <;> simp

theorem removeMinBond_none_iff (l : List Bond) :
    removeMinBond l = none ↔ l = [] := by
  cases l with
  | nil => simp [removeMinBond]
  | cons x xs =>
      constructor
      · intro h
        exact absurd h (removeMinBond_cons_ne_none x xs)
      · intro h
        cases h

theorem removeMaxBond_none_iff (l : List Bond) :
    removeMaxBond l = none ↔ l = [] := by
  cases l with
  | nil => simp [removeMaxBond]
  | cons x xs =>
      constructor
      · intro h
        exact absurd h (removeMaxBond_cons_ne_none x xs)
      · intro h
        cases h

theorem lowestAmount_mem (l : List Bond) (h : l ≠ []) :
    ∃ y ∈ l, y.amount = lowestAmount l := by
  induction l with
  | nil => exact absurd rfl h
  | cons x xs ih =>
      cases xs with
      | nil => exact ⟨x, List.mem_singleton.mpr rfl, rfl⟩
      | cons z zs =>
          obtain ⟨y, hy, hyl⟩ := ih (by simp)
          show ∃ y2 ∈ x :: z :: zs, y2.amount = min x.amount (lowestAmount (z :: zs))
          by_cases hle : x.amount ≤ lowestAmount (z :: zs)
          · exact ⟨x, List.mem_cons_self _ _, (min_eq_left hle).symm⟩
          · refine ⟨y, List.mem_cons_of_mem _ hy, ?_⟩
            rw [min_eq_right (le_of_not_le hle), hyl]

theorem mem_putA {κ ν : Type} [DecidableEq κ] (l : List (κ × ν)) (k : κ) (v : ν)
    (e : κ × ν) (h : e ∈ putA l k v) : e ∈ l ∨ e = (k, v) := by
  induction l with
  | nil =>
      simp only [putA, List.mem_singleton] at h
      exact Or.inr h
  | cons e2 rest ih =>
      obtain ⟨k1, v1⟩ := e2
      unfold putA at h
      by_cases hk : k1 = k
      · rw [if_pos hk] at h
        rcases List.mem_cons.mp h with h2 | h2
        · exact Or.inr h2
        · exact Or.inl (List.mem_cons_of_mem _ h2)
      · rw [if_neg hk] at h
        rcases List.mem_cons.mp h with h2 | h2
        · exact Or.inl (h2 ▸ List.mem_cons_self _ _)
        · rcases ih h2 with h3 | h3
          · exact Or.inl (List.mem_cons_of_mem _ h3)
          · exact Or.inr h3

/-- Amount carried by an optional kicked bond. -/
def kickedAmount : Option Bond → Nat
  | some k => k.amount
  | none => 0

/-- Accounting identity of `add_nomination`: the Top and Bottom totals plus
any kicked amount grow by exactly the inserted amount, the kicked amount
never exceeds the inserted amount, and the cached totals remain consistent. -/
theorem addNominationLedger_total (cfg : Cfg) (t b : NominationsRec) (nb : Bond)
    (t2 b2 : NominationsRec) (kicked : Option Bond)
    (h : addNominationLedger cfg t b nb = Except.ok (t2, b2, kicked))
    (hct : t.total = listTotal t.nominations)
    (hcb : b.total = listTotal b.nominations) :
    t2.total + b2.total + kickedAmount kicked = t.total + b.total + nb.amount ∧
    kickedAmount kicked ≤ nb.amount ∧
    t2.total = listTotal t2.nominations ∧
    b2.total = listTotal b2.nominations := by
  simp only [addNominationLedger] at h
  by_cases h1 : t.nominations.length < cfg.maxTopNominationsPerCandidate
  · rw [if_pos h1] at h
    simp only [Except.ok.injEq, Prod.mk.injEq] at h
    obtain ⟨ht, hb, hk⟩ := h
    subst ht; subst hb; subst hk
    refine ⟨?_, Nat.zero_le _, rfl, hcb⟩
    show listTotal (insertDesc t.nominations nb) + b.total + 0
      = t.total + b.total + nb.amount
    rw [listTotal_insertDesc]
    omega
  · rw [if_neg h1] at h
    by_cases h2 : lowestAmount t.nominations < nb.amount
    · rw [if_pos h2] at h
      cases hrec : removeMinBond t.nominations with
      | none =>
          simp only [hrec] at h
          simp only [Except.ok.injEq, Prod.mk.injEq] at h
          obtain ⟨ht, hb, hk⟩ := h
          subst ht; subst hb; subst hk
          refine ⟨?_, Nat.zero_le _, rfl, hcb⟩
          show listTotal (insertDesc t.nominations nb) + b.total + 0
            = t.total + b.total + nb.amount
          rw [listTotal_insertDesc]
          omega
      | some p =>
          obtain ⟨lowestTop, restTop⟩ := p
          simp only [hrec] at h
          obtain ⟨hsum, hmem, hmin, _⟩ := removeMinBond_spec _ _ _ hrec
          have hltop : lowestTop.amount < nb.amount := by
            obtain ⟨y, hy, hyl⟩ := lowestAmount_mem t.nominations
              (by intro hc; rw [hc] at hmem; cases hmem)
            have := hmin y hy
            omega
          by_cases h3 : (insertDesc b.nominations lowestTop).length
              ≤ cfg.maxBottomNominationsPerCandidate
          · rw [if_pos h3] at h
            simp only [Except.ok.injEq, Prod.mk.injEq] at h
            obtain ⟨ht, hb, hk⟩ := h
            subst ht; subst hb; subst hk
            refine ⟨?_, Nat.zero_le _, rfl, rfl⟩
            show listTotal (insertDesc restTop nb)
                + listTotal (insertDesc b.nominations lowestTop) + 0
              = t.total + b.total + nb.amount
            rw [listTotal_insertDesc, listTotal_insertDesc]
            omega
          · rw [if_neg h3] at h
            cases hrec2 : removeMinBond (insertDesc b.nominations lowestTop) with
            | none =>
                exact absurd ((removeMinBond_none_iff _).mp hrec2)
                  (insertDesc_ne_nil _ _)
            | some p2 =>
                obtain ⟨kicked0, restBot⟩ := p2
                simp only [hrec2] at h
                simp only [Except.ok.injEq, Prod.mk.injEq] at h
                obtain ⟨ht, hb, hk⟩ := h
                subst ht; subst hb; subst hk
                obtain ⟨hsum2, _, hmin2, _⟩ := removeMinBond_spec _ _ _ hrec2
                have hkick : kicked0.amount ≤ lowestTop.amount :=
                  hmin2 lowestTop ((mem_insertDesc _ _ _).mpr (Or.inr rfl))
                rw [listTotal_insertDesc] at hsum2
                refine ⟨?_, ?_, rfl, rfl⟩
                · show listTotal (insertDesc restTop nb) + listTotal restBot
                      + kicked0.amount = t.total + b.total + nb.amount
                  rw [listTotal_insertDesc]
                  omega
                · show kicked0.amount ≤ nb.amount
                  omega
    · rw [if_neg h2] at h
      by_cases h3 : b.nominations.length < cfg.maxBottomNominationsPerCandidate
      · rw [if_pos h3] at h
        simp only [Except.ok.injEq, Prod.mk.injEq] at h
        obtain ⟨ht, hb, hk⟩ := h
        subst ht; subst hb; subst hk
        refine ⟨?_, Nat.zero_le _, hct, rfl⟩
        show t.total + listTotal (insertDesc b.nominations nb) + 0
          = t.total + b.total + nb.amount
        rw [listTotal_insertDesc]
        omega
      · rw [if_neg h3] at h
        by_cases h4 : lowestAmount b.nominations < nb.amount
        · rw [if_pos h4] at h
          cases hrec : removeMinBond (insertDesc b.nominations nb) with
          | none =>
              exact absurd ((removeMinBond_none_iff _).mp hrec)
                (insertDesc_ne_nil _ _)
          | some p =>
              obtain ⟨kicked0, restBot⟩ := p
              simp only [hrec] at h
              simp only [Except.ok.injEq, Prod.mk.injEq] at h
              obtain ⟨ht, hb, hk⟩ := h
              subst ht; subst hb; subst hk
              obtain ⟨hsum2, _, hmin2, _⟩ := removeMinBond_spec _ _ _ hrec
              have hkick : kicked0.amount ≤ nb.amount :=
                hmin2 nb ((mem_insertDesc _ _ _).mpr (Or.inr rfl))
              rw [listTotal_insertDesc] at hsum2
              refine ⟨?_, hkick, hct, rfl⟩
              show t.total + listTotal restBot + kicked0.amount
                = t.total + b.total + nb.amount
              omega
        · rw [if_neg h4] at h
          cases h

/-- Accounting identity of `rm_nomination`: the Top and Bottom totals drop by
exactly the removed amount, and cached totals remain consistent. -/
theorem rmNominationLedger_total (t b : NominationsRec) (nominator : Nat)
    (t2 b2 : NominationsRec) (amount : Nat)
    (h : rmNominationLedger t b nominator = some (t2, b2, amount))
    (hct : t.total = listTotal t.nominations)
    (hcb : b.total = listTotal b.nominations) :
    t2.total + b2.total + amount = t.total + b.total ∧
    t2.total = listTotal t2.nominations ∧
    b2.total = listTotal b2.nominations := by
  unfold rmNominationLedger at h
  cases hrt : removeBondByOwner t.nominations nominator with
  | some p =>
      obtain ⟨entry, restTop⟩ := p
      simp only [hrt] at h
      obtain ⟨hsum, _, _, _⟩ := removeBondByOwner_spec _ _ _ _ hrt
      cases hrb : removeMaxBond b.nominations with
      | some p2 =>
          obtain ⟨hi, restBot⟩ := p2
          simp only [hrb] at h
          obtain ⟨hsum2, _, _⟩ := removeMaxBond_spec _ _ _ hrb
          simp only [Option.some.injEq, Prod.mk.injEq] at h
          obtain ⟨ht, hb, ha⟩ := h
          subst ht; subst hb; subst ha
          refine ⟨?_, rfl, rfl⟩
          show listTotal (insertDesc restTop hi) + listTotal restBot
              + entry.amount = t.total + b.total
          rw [listTotal_insertDesc]
          omega
      | none =>
          simp only [hrb] at h
          simp only [Option.some.injEq, Prod.mk.injEq] at h
          obtain ⟨ht, hb, ha⟩ := h
          subst ht; subst hb; subst ha
          refine ⟨?_, rfl, hcb⟩
          show listTotal restTop + b.total + entry.amount = t.total + b.total
          omega
  | none =>
      simp only [hrt] at h
      cases hrb : removeBondByOwner b.nominations nominator with
      | some p =>
          obtain ⟨entry, restBot⟩ := p
          simp only [hrb] at h
          obtain ⟨hsum, _, _, _⟩ := removeBondByOwner_spec _ _ _ _ hrb
          simp only [Option.some.injEq, Prod.mk.injEq] at h
          obtain ⟨ht, hb, ha⟩ := h
          subst ht; subst hb; subst ha
          refine ⟨?_, hct, rfl⟩
          show t.total + listTotal restBot + entry.amount = t.total + b.total
          omega
      | none =>
          simp only [hrb] at h
          cases h

/-! ## Extrinsic operations

Each call returns `Except StakingError ChainState`; FRAME dispatch is
transactional, so an error leaves storage untouched (the caller keeps the
old state). -/

/-- Embedding of `join_candidates` (lib.rs 682–722). -/
def joinCandidates (cfg : Cfg) (s : ChainState) (acc bond candidateCount : Nat) :
    Except StakingError ChainState :=
  if isCandidate s acc then Except.error StakingError.candidateExists
  else if isNominator s acc then Except.error StakingError.nominatorExists
  else if bond < cfg.minCandidateStk then
    Except.error StakingError.candidateBondBelowMin
  else if candidateCount < s.candidatePool.length then
    Except.error StakingError.tooLowCandidateCountWeightHintJoinCandidates
  else
    match poolInsert s.candidatePool ⟨acc, bond⟩ with
    | none => Except.error StakingError.candidateExists
    | some pool2 =>
        if getCollatorStakableFreeBalance cfg s acc < bond then
          Except.error StakingError.insufficientBalance
        else
          Except.ok { s with
            candidateInfo := putA s.candidateInfo acc
              ⟨bond, bond, 0, CollatorStatus.active, none⟩,
            topNominations := putA s.topNominations acc default,
            bottomNominations := putA s.bottomNominations acc default,
            candidatePool := pool2,
            total := s.total + bond }

/-- Embedding of `schedule_leave_candidates` (lib.rs 726–748); the
`schedule_leave` state transition of types.rs is modelled from the spec. -/
def scheduleLeaveCandidates (cfg : Cfg) (s : ChainState)
    (collator candidateCount now : Nat) : Except StakingError ChainState :=
  match getA s.candidateInfo collator with
  | none => Except.error StakingError.candidateDNE
  | some st =>
      if (st.status).isLeaving then Except.error StakingError.candidateAlreadyLeaving
      else if candidateCount < s.candidatePool.length then
        Except.error StakingError.tooLowCandidateCountToLeaveCandidates
      else
        let st2 := { st with
                     status := CollatorStatus.leaving (now + cfg.leaveCandidatesDelay) }
        Except.ok { s with
          candidatePool := poolRemove s.candidatePool collator,
          candidateInfo := putA s.candidateInfo collator st2 }

/-- Embedding of `execute_leave_candidates` (lib.rs 754–827). -/
def executeLeaveCandidates (cfg : Cfg) (s : ChainState)
    (candidate nominationCountHint now : Nat) : Except StakingError ChainState :=
  match getA s.candidateInfo candidate with
  | none => Except.error StakingError.candidateDNE
  | some st =>
      if nominationCountHint < st.nominationCount then
        Except.error StakingError.tooLowCandidateNominationCountToLeaveCandidates
      else
        match st.status with
        | CollatorStatus.leaving when =>
            if now < when then Except.error StakingError.candidateCannotLeaveYet
            else
              let top := (getA s.topNominations candidate).getD default
              let bot := (getA s.bottomNominations candidate).getD default
              let s2 := (top.nominations ++ bot.nominations).foldl
                (returnStake candidate) s
              let totalBacking := st.bond + top.total + bot.total
              Except.ok { s2 with
                candidateInfo := removeA s2.candidateInfo candidate,
                scheduledRequests := removeA s2.scheduledRequests candidate,
                topNominations := removeA s2.topNominations candidate,
                bottomNominations := removeA s2.bottomNominations candidate,
                total := s2.total - totalBacking }
        | _ => Except.error StakingError.candidateNotLeaving

/-- Embedding of `cancel_leave_candidates` (lib.rs 832–853). -/
def cancelLeaveCandidates (cfg : Cfg) (s : ChainState)
    (collator candidateCount : Nat) : Except StakingError ChainState :=
  match getA s.candidateInfo collator with
  | none => Except.error StakingError.candidateDNE
  | some st =>
      if !(st.status).isLeaving then Except.error StakingError.candidateNotLeaving
      else if candidateCount < s.candidatePool.length then
        Except.error StakingError.tooLowCandidateCountWeightHintCancelLeaveCandidates
      else
        match poolInsert s.candidatePool ⟨collator, st.totalCounted⟩ with
        | none => Except.error StakingError.alreadyActive
        | some pool2 =>
            Except.ok { s with
              candidatePool := pool2,
              candidateInfo := putA s.candidateInfo collator
                ({ st with status := CollatorStatus.active }) }

/-- Embedding of `go_offline` (lib.rs 856–868). -/
def goOffline (cfg : Cfg) (s : ChainState) (collator : Nat) :
    Except StakingError ChainState :=
  match getA s.candidateInfo collator with
  | none => Except.error StakingError.candidateDNE
  | some st =>
      if !(st.status).isActive then Except.error StakingError.alreadyOffline
      else
        Except.ok { s with
          candidatePool := poolRemove s.candidatePool collator,
          candidateInfo := putA s.candidateInfo collator
            ({ st with status := CollatorStatus.idle }) }

/-- Embedding of `go_online` (lib.rs 871–886). -/
def goOnline (cfg : Cfg) (s : ChainState) (collator : Nat) :
    Except StakingError ChainState :=
  match getA s.candidateInfo collator with
  | none => Except.error StakingError.candidateDNE
  | some st =>
      if (st.status).isActive then Except.error StakingError.alreadyActive
      else if (st.status).isLeaving then
        Except.error StakingError.cannotGoOnlineIfLeaving
      else
        match poolInsert s.candidatePool ⟨collator, st.totalCounted⟩ with
        | none => Except.error StakingError.alreadyActive
        | some pool2 =>
            Except.ok { s with
              candidatePool := pool2,
              candidateInfo := putA s.candidateInfo collator
                ({ st with status := CollatorStatus.active }) }

/-- Embedding of `candidate_bond_more` (lib.rs 889–902); the `bond_more`
transition of types.rs is modelled from the spec (immediate effect,
pool re-insertion at the new stake when active). -/
def candidateBondMore (cfg : Cfg) (s : ChainState) (collator more : Nat) :
    Except StakingError ChainState :=
  match getA s.candidateInfo collator with
  | none => Except.error StakingError.candidateDNE
  | some st =>
      if getCollatorStakableFreeBalance cfg s collator < more then
        Except.error StakingError.insufficientBalance
      else
        let st2 := { st with bond := st.bond + more,
                             totalCounted := st.totalCounted + more }
        Except.ok { s with
          candidateInfo := putA s.candidateInfo collator st2,
          total := s.total + more,
          candidatePool :=
            if (st.status).isActive then
              updateActive s.candidatePool collator st2.totalCounted
            else s.candidatePool }

/-- Embedding of `schedule_candidate_bond_less` (lib.rs 905–919);
`schedule_bond_less` of types.rs modelled from the spec: one pending request
per candidate, decrease bounded by the `MinCandidateStk` floor. -/
def scheduleCandidateBondLess (cfg : Cfg) (s : ChainState)
    (collator less now : Nat) : Except StakingError ChainState :=
  match getA s.candidateInfo collator with
  | none => Except.error StakingError.candidateDNE
  | some st =>
      if st.request.isSome then
        Except.error StakingError.pendingCandidateRequestAlreadyExists
      else if !(less < st.bond) then Except.error StakingError.candidateBondBelowMin
      else if st.bond - less < cfg.minCandidateStk then
        Except.error StakingError.candidateBondBelowMin
      else
        Except.ok { s with
          candidateInfo := putA s.candidateInfo collator
            ({ st with request := some ⟨less, now + cfg.candidateBondLessDelay⟩ }) }

/-- Embedding of `execute_candidate_bond_less` (lib.rs 922–931);
`execute_bond_less` of types.rs modelled from the spec, re-validating the
`MinCandidateStk` floor at execution. -/
def executeCandidateBondLess (cfg : Cfg) (s : ChainState) (candidate now : Nat) :
    Except StakingError ChainState :=
  match getA s.candidateInfo candidate with
  | none => Except.error StakingError.candidateDNE
  | some st =>
      match st.request with
      | none => Except.error StakingError.pendingCandidateRequestsDNE
      | some req =>
          if now < req.whenExecutable then
            Except.error StakingError.pendingCandidateRequestNotDueYet
          else if !(req.amount ≤ st.bond ∧
              cfg.minCandidateStk ≤ st.bond - req.amount) then
            Except.error StakingError.candidateBondBelowMin
          else
            let st2 := { st with bond := st.bond - req.amount,
                                 totalCounted := st.totalCounted - req.amount,
                                 request := none }
            Except.ok { s with
              candidateInfo := putA s.candidateInfo candidate st2,
              total := s.total - req.amount,
              candidatePool :=
                if (st.status).isActive then
                  updateActive s.candidatePool candidate st2.totalCounted
                else s.candidatePool }

/-- Embedding of `cancel_candidate_bond_less` (lib.rs 934–940). -/
def cancelCandidateBondLess (cfg : Cfg) (s : ChainState) (collator : Nat) :
    Except StakingError ChainState :=
  match getA s.candidateInfo collator with
  | none => Except.error StakingError.candidateDNE
  | some st =>
      match st.request with
      | none => Except.error StakingError.pendingCandidateRequestsDNE
      | some _ =>
          Except.ok { s with
            candidateInfo := putA s.candidateInfo collator
              ({ st with request := none }) }

/-- Cleanup applied to an evicted lowest-bottom nominator, if any. -/
def optKickCleanup (candidate : Nat) (s : ChainState) : Option Bond → ChainState
  | some k => returnStake candidate s k
  | none => s

/-- One if a nomination was kicked, zero otherwise. -/
def kickedCount : Option Bond → Nat
  | some _ => 1
  | none => 0

/-- Embedding of the nominator-state block of `nominate` (lib.rs 960–993):
the first-nomination / subsequent-nomination ensures and the nominator-side
bond-list update (`Nominator::add_nomination` of types.rs, modelled from
the spec). -/
def nominateNomState (cfg : Cfg) (s : ChainState)
    (nominator candidate amount nominationCount : Nat) :
    Except StakingError NominatorInfo :=
  match getA s.nominatorState nominator with
  | some st =>
      if amount < cfg.minNomination then
        Except.error StakingError.nominationBelowMin
      else if nominationCount < st.nominations.length then
        Except.error StakingError.tooLowNominationCountToNominate
      else if !(st.nominations.length < cfg.maxNominationsPerNominator) then
        Except.error StakingError.exceedMaxNominationsPerNominator
      else if st.nominations.any (fun x => decide (x.owner = candidate)) then
        Except.error StakingError.alreadyNominatedCandidate
      else
        Except.ok { st with
          nominations := st.nominations ++ [⟨candidate, amount⟩],
          total := st.total + amount }
  | none =>
      if amount < cfg.minNominatorStk then
        Except.error StakingError.nominatorBondBelowMin
      else if isCandidate s nominator then
        Except.error StakingError.candidateExists
      else Except.ok ⟨[⟨candidate, amount⟩], amount, 0⟩

/-- Embedding of `nominate` (lib.rs 949–1011); the candidate-state
`add_nomination` transition (types.rs) is modelled from the spec.  A kicked
lowest-bottom nominator is cleaned up like a departing nominator
(`returnStake`). -/
def nominate (cfg : Cfg) (s : ChainState)
    (nominator candidate amount candidateNominationCount nominationCount : Nat) :
    Except StakingError ChainState :=
  if getNominatorStakableFreeBalance cfg s nominator < amount then
    Except.error StakingError.insufficientBalance
  else
    match nominateNomState cfg s nominator candidate amount nominationCount with
    | Except.error e => Except.error e
    | Except.ok nomState2 =>
        match getA s.candidateInfo candidate with
        | none => Except.error StakingError.candidateDNE
        | some cst =>
            if candidateNominationCount < cst.nominationCount then
              Except.error StakingError.tooLowCandidateNominationCountToNominate
            else
              let top := (getA s.topNominations candidate).getD default
              let bot := (getA s.bottomNominations candidate).getD default
              match addNominationLedger cfg top bot ⟨nominator, amount⟩ with
              | Except.error e => Except.error e
              | Except.ok (t2, b2, kicked) =>
                  let s1 := optKickCleanup candidate s kicked
                  let netIncrease := amount - kickedAmount kicked
                  let cst2 := { cst with
                    nominationCount := cst.nominationCount + 1 - kickedCount kicked,
                    totalCounted := cst.bond + t2.total }
                  Except.ok { s1 with
                    topNominations := putA s1.topNominations candidate t2,
                    bottomNominations := putA s1.bottomNominations candidate b2,
                    candidateInfo := putA s1.candidateInfo candidate cst2,
                    nominatorState := putA s1.nominatorState nominator nomState2,
                    total := s1.total + netIncrease,
                    candidatePool :=
                      if (cst.status).isActive then
                        updateActive s1.candidatePool candidate cst2.totalCounted
                      else s1.candidatePool }

/-- Embedding of `nomination_schedule_revoke`
(nomination_requests.rs, modelled from the spec §4.2). -/
def nominationScheduleRevoke (cfg : Cfg) (s : ChainState)
    (collator nominator now : Nat) : Except StakingError ChainState :=
  match getA s.nominatorState nominator with
  | none => Except.error StakingError.nominatorDNE
  | some st =>
      match st.nominations.find? (fun x => decide (x.owner = collator)) with
      | none => Except.error StakingError.nominationDNE
      | some bond =>
          let reqs := (getA s.scheduledRequests collator).getD []
          if (reqs.find? (fun r => decide (r.nominator = nominator))).isSome then
            Except.error StakingError.pendingNominationRequestAlreadyExists
          else
            let req : ScheduledRequest :=
              ⟨nominator, now + cfg.revokeNominationDelay,
                NominationAction.revoke bond.amount⟩
            Except.ok { s with
              scheduledRequests := putA s.scheduledRequests collator (reqs ++ [req]),
              nominatorState := putA s.nominatorState nominator
                ({ st with lessTotal := st.lessTotal + bond.amount }) }

/-- Embedding of `nomination_schedule_bond_decrease`
(nomination_requests.rs, modelled from the spec §4.2). -/
def nominationScheduleBondDecrease (cfg : Cfg) (s : ChainState)
    (collator nominator less now : Nat) : Except StakingError ChainState :=
  match getA s.nominatorState nominator with
  | none => Except.error StakingError.nominatorDNE
  | some st =>
      match st.nominations.find? (fun x => decide (x.owner = collator)) with
      | none => Except.error StakingError.nominationDNE
      | some bond =>
          let reqs := (getA s.scheduledRequests collator).getD []
          if (reqs.find? (fun r => decide (r.nominator = nominator))).isSome then
            Except.error StakingError.pendingNominationRequestAlreadyExists
          else if !(less < bond.amount) then
            Except.error StakingError.nominationBelowMin
          else if bond.amount - less < cfg.minNomination then
            Except.error StakingError.nominationBelowMin
          else if st.total - st.lessTotal - less < cfg.minNominatorStk then
            Except.error StakingError.nominatorBondBelowMin
          else
            let req : ScheduledRequest :=
              ⟨nominator, now + cfg.nominationBondLessDelay,
                NominationAction.decrease less⟩
            Except.ok { s with
              scheduledRequests := putA s.scheduledRequests collator (reqs ++ [req]),
              nominatorState := putA s.nominatorState nominator
                ({ st with lessTotal := st.lessTotal + less }) }

/-- Modelled from the spec: in-place decrease of the pair's Top or Bottom
entry, re-validating `MinNomination` (and that the decrease fits) at
execution time. -/
def decreaseInLedger (cfg : Cfg) (t b : NominationsRec) (nominator less : Nat) :
    Except StakingError (NominationsRec × NominationsRec) :=
  match removeBondByOwner t.nominations nominator with
  | some (entry, rest) =>
      if less ≤ entry.amount ∧ cfg.minNomination ≤ entry.amount - less then
        let l2 := insertDesc rest ⟨nominator, entry.amount - less⟩
        Except.ok (⟨l2, listTotal l2⟩, b)
      else Except.error StakingError.nominationBelowMin
  | none =>
      match removeBondByOwner b.nominations nominator with
      | some (entry, rest) =>
          if less ≤ entry.amount ∧ cfg.minNomination ≤ entry.amount - less then
            let l2 := insertDesc rest ⟨nominator, entry.amount - less⟩
            Except.ok (t, ⟨l2, listTotal l2⟩)
          else Except.error StakingError.nominationBelowMin
      | none => Except.error StakingError.nominationDNE

/-- Embedding of `nomination_execute_scheduled_request`
(nomination_requests.rs, modelled from the spec §4.2). -/
def nominationExecuteScheduledRequest (cfg : Cfg) (s : ChainState)
    (collator nominator now : Nat) : Except StakingError ChainState :=
  let reqs := (getA s.scheduledRequests collator).getD []
  match reqs.find? (fun r => decide (r.nominator = nominator)) with
  | none => Except.error StakingError.pendingNominationRequestDNE
  | some req =>
      if now < req.whenExecutable then
        Except.error StakingError.pendingNominationRequestNotDueYet
      else
        match getA s.nominatorState nominator with
        | none => Except.error StakingError.nominatorDNE
        | some nst =>
            match getA s.candidateInfo collator with
            | none => Except.error StakingError.candidateDNE
            | some cst =>
                let top := (getA s.topNominations collator).getD default
                let bot := (getA s.bottomNominations collator).getD default
                let reqs2 := reqs.filter
                  (fun r => !(decide (r.nominator = nominator)))
                match req.action with
                | NominationAction.revoke _ =>
                    match rmNominationLedger top bot nominator with
                    | none => Except.error StakingError.nominationDNE
                    | some (t2, b2, removedAmount) =>
                        match removeBondByOwner nst.nominations collator with
                        | none => Except.error StakingError.nominationDNE
                        | some (nbond, nrest) =>
                            if !nrest.isEmpty ∧
                                nst.total - nbond.amount < cfg.minNominatorStk then
                              Except.error StakingError.nominatorBondBelowMin
                            else
                              let cst2 := { cst with
                                totalCounted := cst.bond + t2.total,
                                nominationCount := cst.nominationCount - 1 }
                              let nomUpdate :=
                                if nrest.isEmpty then
                                  removeA s.nominatorState nominator
                                else
                                  putA s.nominatorState nominator
                                    ({ nst with
                                        nominations := nrest,
                                        total := nst.total - nbond.amount,
                                        lessTotal := nst.lessTotal
                                          - actionAmount req.action })
                              Except.ok { s with
                                scheduledRequests := putA s.scheduledRequests
                                  collator reqs2,
                                topNominations := putA s.topNominations collator t2,
                                bottomNominations := putA s.bottomNominations
                                  collator b2,
                                candidateInfo := putA s.candidateInfo collator cst2,
                                nominatorState := nomUpdate,
                                total := s.total - removedAmount,
                                candidatePool :=
                                  if (cst.status).isActive then
                                    updateActive s.candidatePool collator
                                      cst2.totalCounted
                                  else s.candidatePool }
                | NominationAction.decrease less =>
                    match decreaseInLedger cfg top bot nominator less with
                    | Except.error e => Except.error e
                    | Except.ok (t2, b2) =>
                        match removeBondByOwner nst.nominations collator with
                        | none => Except.error StakingError.nominationDNE
                        | some (nbond, nrest) =>
                            let cst2 := { cst with
                              totalCounted := cst.bond + t2.total }
                            let nom2 := { nst with
                              nominations := insertDesc nrest
                                ⟨collator, nbond.amount - less⟩,
                              total := nst.total - less,
                              lessTotal := nst.lessTotal - less }
                            Except.ok { s with
                              scheduledRequests := putA s.scheduledRequests
                                collator reqs2,
                              topNominations := putA s.topNominations collator t2,
                              bottomNominations := putA s.bottomNominations
                                collator b2,
                              candidateInfo := putA s.candidateInfo collator cst2,
                              nominatorState := putA s.nominatorState nominator nom2,
                              total := s.total - less,
                              candidatePool :=
                                if (cst.status).isActive then
                                  updateActive s.candidatePool collator
                                    cst2.totalCounted
                                else s.candidatePool }

/-- Embedding of `nomination_cancel_request`
(nomination_requests.rs, modelled from the spec §4.2). -/
def nominationCancelRequest (cfg : Cfg) (s : ChainState)
    (collator nominator : Nat) : Except StakingError ChainState :=
  let reqs := (getA s.scheduledRequests collator).getD []
  match reqs.find? (fun r => decide (r.nominator = nominator)) with
  | none => Except.error StakingError.pendingNominationRequestDNE
  | some req =>
      let reqs2 := reqs.filter (fun r => !(decide (r.nominator = nominator)))
      let nomUpdate :=
        match getA s.nominatorState nominator with
        | some nst =>
            putA s.nominatorState nominator
              ({ nst with lessTotal := nst.lessTotal - actionAmount req.action })
        | none => s.nominatorState
      Except.ok { s with
        scheduledRequests := putA s.scheduledRequests collator reqs2,
        nominatorState := nomUpdate }

/-- Modelled from the spec: in-place increase of the pair's Top or Bottom
entry (`increase_nomination` of types.rs). -/
def increaseInLedger (t b : NominationsRec) (nominator more : Nat) :
    Option (NominationsRec × NominationsRec) :=
  match removeBondByOwner t.nominations nominator with
  | some (entry, rest) =>
      let l2 := insertDesc rest ⟨nominator, entry.amount + more⟩
      some (⟨l2, listTotal l2⟩, b)
  | none =>
      match removeBondByOwner b.nominations nominator with
      | some (entry, rest) =>
          let l2 := insertDesc rest ⟨nominator, entry.amount + more⟩
          some (t, ⟨l2, listTotal l2⟩)
      | none => none

/-- Embedding of `nominator_bond_more` (lib.rs 1057–1070): rejected with
`PendingNominationRevoke` whenever a pending Revoke exists for the pair;
`increase_nomination` of types.rs is modelled from the spec. -/
def nominatorBondMore (cfg : Cfg) (s : ChainState)
    (candidate nominator more : Nat) : Except StakingError ChainState :=
  if nominationRequestRevokeExists s candidate nominator then
    Except.error StakingError.pendingNominationRevoke
  else
    match getA s.nominatorState nominator with
    | none => Except.error StakingError.nominatorDNE
    | some nst =>
        match removeBondByOwner nst.nominations candidate with
        | none => Except.error StakingError.nominationDNE
        | some (nbond, nrest) =>
            if cfg.freeBalance nominator < nst.total + more then
              Except.error StakingError.insufficientBalance
            else
              let top := (getA s.topNominations candidate).getD default
              let bot := (getA s.bottomNominations candidate).getD default
              match increaseInLedger top bot nominator more with
              | none => Except.error StakingError.nominationDNE
              | some (t2, b2) =>
                  match getA s.candidateInfo candidate with
                  | none => Except.error StakingError.candidateDNE
                  | some cst =>
                      let cst2 := { cst with
                        totalCounted := cst.bond + t2.total }
                      let nom2 := { nst with
                        nominations := insertDesc nrest
                          ⟨candidate, nbond.amount + more⟩,
                        total := nst.total + more }
                      Except.ok { s with
                        nominatorState := putA s.nominatorState nominator nom2,
                        topNominations := putA s.topNominations candidate t2,
                        bottomNominations := putA s.bottomNominations candidate b2,
                        candidateInfo := putA s.candidateInfo candidate cst2,
                        total := s.total + more,
                        candidatePool :=
                          if (cst.status).isActive then
                            updateActive s.candidatePool candidate
                              cst2.totalCounted
                          else s.candidatePool }

/-- Embedding of `hotfix_remove_nomination_requests_exited_candidates`
checks (lib.rs 1114–1123). -/
def hotfixCheck (s : ChainState) : List Nat → Except StakingError Unit
  | [] => Except.ok ()
  | c :: rest =>
      if (getA s.candidateInfo c).isSome then
        Except.error StakingError.candidateNotLeaving
      else if !((getA s.scheduledRequests c).getD []).isEmpty then
        Except.error StakingError.candidateNotLeaving
      else hotfixCheck s rest

/-- Embedding of `hotfix_remove_nomination_requests_exited_candidates`
(lib.rs 1108–1130). -/
def hotfixRemoveNominationRequests (s : ChainState) (candidates : List Nat) :
    Except StakingError ChainState :=
  if candidates.length < 100 then
    match hotfixCheck s candidates with
    | Except.error e => Except.error e
    | Except.ok _ =>
        Except.ok { s with
          scheduledRequests := candidates.foldl
            (fun m c => removeA m c) s.scheduledRequests }
  else Except.error StakingError.insufficientBalance

/-- Embedding of `note_author` (lib.rs 1508–1518): 20 points to the block
author for the current era. -/
def noteAuthor (s : ChainState) (author now : Nat) : ChainState :=
  { s with
    awardedPts := putA s.awardedPts (now, author)
      (((getA s.awardedPts (now, author)).getD 0) + 20),
    points := putA s.points now (((getA s.points now).getD 0) + 20) }

/-- Error-propagating left fold, used for the deprecated all-nominations
extrinsics which apply a per-nomination operation to every nominated
collator in turn. -/
def foldExcept (f : ChainState → Nat → Except StakingError ChainState) :
    ChainState → List Nat → Except StakingError ChainState
  | s, [] => Except.ok s
  | s, c :: rest =>
      match f s c with
      | Except.error e => Except.error e
      | Except.ok s2 => foldExcept f s2 rest

/-- Embedding of `schedule_leave_nominators` (lib.rs 1018–1022);
`nominator_schedule_revoke_all` lives in nomination_requests.rs, modelled
from the spec: a revoke request is scheduled towards every existing
nomination. -/
def scheduleLeaveNominators (cfg : Cfg) (s : ChainState) (nominator now : Nat) :
    Except StakingError ChainState :=
  match getA s.nominatorState nominator with
  | none => Except.error StakingError.nominatorDNE
  | some st =>
      foldExcept (fun s2 c => nominationScheduleRevoke cfg s2 c nominator now) s
        (st.nominations.map (fun b => b.owner))

/-- Embedding of `execute_leave_nominators` (lib.rs 1026–1034);
`nominator_execute_scheduled_revoke_all` lives in nomination_requests.rs,
modelled from the spec: every pending request of the nominator is executed
in turn. -/
def executeLeaveNominators (cfg : Cfg) (s : ChainState) (nominator now : Nat) :
    Except StakingError ChainState :=
  match getA s.nominatorState nominator with
  | none => Except.error StakingError.nominatorDNE
  | some st =>
      foldExcept
        (fun s2 c => nominationExecuteScheduledRequest cfg s2 c nominator now) s
        (st.nominations.map (fun b => b.owner))

/-- Embedding of `cancel_leave_nominators` (lib.rs 1039–1042);
`nominator_cancel_scheduled_revoke_all` lives in nomination_requests.rs,
modelled from the spec: every pending request of the nominator is
cancelled in turn. -/
def cancelLeaveNominators (cfg : Cfg) (s : ChainState) (nominator : Nat) :
    Except StakingError ChainState :=
  match getA s.nominatorState nominator with
  | none => Except.error StakingError.nominatorDNE
  | some st =>
      foldExcept (fun s2 c => nominationCancelRequest cfg s2 c nominator) s
        (st.nominations.map (fun b => b.owner))

/-! ## The conservation invariant

`Total` must equal the sum, over every `CandidateInfo` entry, of the
candidate's self-bond plus its Top- and Bottom-nomination totals. -/

/-- Contribution of one `CandidateInfo` entry to the pallet-wide `Total`:
self-bond plus the candidate's Top and Bottom nomination totals. -/
def contribOf (top bot : List (Nat × NominationsRec))
    (p : Nat × CandidateMetadata) : Nat :=
  p.2.bond + ((getA top p.1).getD default).total
    + ((getA bot p.1).getD default).total

/-- Sum of all candidates' contributions. -/
def candSum (info : List (Nat × CandidateMetadata))
    (top bot : List (Nat × NominationsRec)) : Nat :=
  (info.map (contribOf top bot)).sum

/-- The staking-ledger side of the conservation equation. -/
def candidateTotalSum (s : ChainState) : Nat :=
  candSum s.candidateInfo s.topNominations s.bottomNominations

/-- Every stored (or defaulted) nomination record has its cached `total`
equal to the sum of its list. -/
def recConsistent (m : List (Nat × NominationsRec)) : Prop :=
  ∀ c : Nat, ((getA m c).getD default).total
    = listTotal ((getA m c).getD default).nominations

/-- Well-formedness carried through every operation: the conservation
equation itself, uniqueness of `CandidateInfo` keys, and consistency of the
cached Top/Bottom totals. -/
def StateWF (s : ChainState) : Prop :=
  s.total = candidateTotalSum s ∧
  (s.candidateInfo.map (fun e => e.1)).Nodup ∧
  recConsistent s.topNominations ∧
  recConsistent s.bottomNominations

theorem getA_some_mem {κ ν : Type} [DecidableEq κ] (l : List (κ × ν)) (k : κ)
    (v : ν) (h : getA l k = some v) : (k, v) ∈ l := by
  induction l with
  | nil => cases h
  | cons e rest ih =>
      obtain ⟨k1, v1⟩ := e
      unfold getA at h
      by_cases hk : k1 = k
      · rw [if_pos hk] at h
        cases h
        exact hk ▸ List.mem_cons_self _ _
      · rw [if_neg hk] at h
        exact List.mem_cons_of_mem _ (ih h)

theorem mem_removeA {κ ν : Type} [DecidableEq κ] (l : List (κ × ν)) (k : κ)
    (e : κ × ν) (h : e ∈ removeA l k) : e ∈ l ∧ e.1 ≠ k := by
  unfold removeA at h
  have h2 := List.of_mem_filter h
  refine ⟨List.mem_of_mem_filter h, ?_⟩
  simpa using h2

/-- Contributions only depend on the Top/Bottom lookups at the entry's own
key. -/
theorem candSum_ext (info : List (Nat × CandidateMetadata))
    (top bot top2 bot2 : List (Nat × NominationsRec))
    (h : ∀ p ∈ info, getA top2 p.1 = getA top p.1 ∧ getA bot2 p.1 = getA bot p.1) :
    candSum info top2 bot2 = candSum info top bot := by
  unfold candSum
  congr 1
  apply List.map_congr_left
  intro p hp
  unfold contribOf
  rw [(h p hp).1, (h p hp).2]

/-- Simultaneous update of a candidate's info entry and its Top/Bottom
records changes the sum by the change in that candidate's contribution. -/
theorem candSum_full_update (info : List (Nat × CandidateMetadata))
    (top bot : List (Nat × NominationsRec)) (c : Nat)
    (st st2 : CandidateMetadata) (t2 b2 : NominationsRec)
    (hget : getA info c = some st)
    (hnodup : (info.map (fun e => e.1)).Nodup) :
    candSum (putA info c st2) (putA top c t2) (putA bot c b2)
        + (st.bond + ((getA top c).getD default).total
          + ((getA bot c).getD default).total)
      = candSum info top bot + (st2.bond + t2.total + b2.total) := by
  have hmem : (c, st) ∈ info := getA_some_mem _ _ _ hget
  set g := contribOf (putA top c t2) (putA bot c b2) with hg
  set f := contribOf top bot with hf
  have h1 : ((putA info c st2).map g).sum + g (c, st)
      = (info.map g).sum + g (c, st2) := sum_putA_update info c st st2 g hget
  have h2 : (info.map g).sum + f (c, st) = (info.map f).sum + g (c, st) := by
    apply sum_congr_except info c st g f hmem hnodup
    intro e _ hne
    show contribOf (putA top c t2) (putA bot c b2) e = contribOf top bot e
    unfold contribOf
    rw [getA_putA_ne top c e.1 t2 hne, getA_putA_ne bot c e.1 b2 hne]
  have h3 : g (c, st2) = st2.bond + t2.total + b2.total := by
    show contribOf (putA top c t2) (putA bot c b2) (c, st2) = _
    unfold contribOf
    rw [getA_putA_self top c t2, getA_putA_self bot c b2]
    rfl
  have h4 : f (c, st) = st.bond + ((getA top c).getD default).total
      + ((getA bot c).getD default).total := rfl
  show ((putA info c st2).map g).sum + _ = (info.map f).sum + _
  omega

/-- Inserting a brand-new candidate with fresh Top/Bottom records adds
exactly its contribution to the sum. -/
theorem candSum_insert_new (info : List (Nat × CandidateMetadata))
    (top bot : List (Nat × NominationsRec)) (c : Nat)
    (st : CandidateMetadata) (t2 b2 : NominationsRec)
    (hget : getA info c = none) :
    candSum (putA info c st) (putA top c t2) (putA bot c b2)
      = candSum info top bot + (st.bond + t2.total + b2.total) := by
  rw [putA_of_getA_none info c st hget]
  unfold candSum
  rw [List.map_append, List.sum_append]
  have hkeys : ∀ p ∈ info, p.1 ≠ c := by
    intro p hp hc
    exact getA_none_not_mem info c hget p.2 (by rw [show (c, p.2) = p from Prod.ext hc.symm rfl]; exact hp)
  have h1 : (info.map (contribOf (putA top c t2) (putA bot c b2))).sum
      = (info.map (contribOf top bot)).sum := by
    congr 1
    apply List.map_congr_left
    intro p hp
    unfold contribOf
    rw [getA_putA_ne top c p.1 t2 (hkeys p hp), getA_putA_ne bot c p.1 b2 (hkeys p hp)]
  have h2 : contribOf (putA top c t2) (putA bot c b2) (c, st)
      = st.bond + t2.total + b2.total := by
    unfold contribOf
    rw [getA_putA_self top c t2, getA_putA_self bot c b2]
    rfl
  rw [h1]
  simp only [List.map_cons, List.map_nil, List.sum_cons, List.sum_nil, h2]
  omega

/-- Removing a candidate's info entry together with its Top/Bottom records
removes exactly its contribution from the sum. -/
theorem candSum_remove (info : List (Nat × CandidateMetadata))
    (top bot : List (Nat × NominationsRec)) (c : Nat) (st : CandidateMetadata)
    (hget : getA info c = some st)
    (hnodup : (info.map (fun e => e.1)).Nodup) :
    candSum (removeA info c) (removeA top c) (removeA bot c)
        + (st.bond + ((getA top c).getD default).total
          + ((getA bot c).getD default).total)
      = candSum info top bot := by
  have h1 : candSum (removeA info c) (removeA top c) (removeA bot c)
      = candSum (removeA info c) top bot := by
    apply candSum_ext
    intro p hp
    have hne := (mem_removeA info c p hp).2
    exact ⟨getA_removeA_ne top c p.1 hne, getA_removeA_ne bot c p.1 hne⟩
  rw [h1]
  exact sum_removeA info c st (contribOf top bot) hget hnodup

/-- `putA` with a consistent record preserves record consistency. -/
theorem recConsistent_putA (m : List (Nat × NominationsRec)) (c : Nat)
    (rec : NominationsRec) (hm : recConsistent m)
    (hrec : rec.total = listTotal rec.nominations) :
    recConsistent (putA m c rec) := by
  intro k
  by_cases hk : k = c
  · subst hk
    rw [getA_putA_self]
    exact hrec
  · rw [getA_putA_ne m c k rec hk]
    exact hm k

/-- `removeA` preserves record consistency. -/
theorem recConsistent_removeA (m : List (Nat × NominationsRec)) (c : Nat)
    (hm : recConsistent m) : recConsistent (removeA m c) := by
  intro k
  by_cases hk : k = c
  · subst hk
    rw [getA_removeA]
    rfl
  · rw [getA_removeA_ne m c k hk]
    exact hm k

/-- Equality of the four fields the conservation invariant reads:
`CandidateInfo`, `TopNominations`, `BottomNominations` and `Total`. -/
def ledgerEq (s2 s : ChainState) : Prop :=
  s2.candidateInfo = s.candidateInfo ∧ s2.topNominations = s.topNominations ∧
  s2.bottomNominations = s.bottomNominations ∧ s2.total = s.total

theorem ledgerEq_refl (s : ChainState) : ledgerEq s s := ⟨rfl, rfl, rfl, rfl⟩

theorem ledgerEq_trans {a b c : ChainState} (h1 : ledgerEq a b)
    (h2 : ledgerEq b c) : ledgerEq a c :=
  ⟨h1.1.trans h2.1, h1.2.1.trans h2.2.1, h1.2.2.1.trans h2.2.2.1,
    h1.2.2.2.trans h2.2.2.2⟩

theorem StateWF_of_ledgerEq {s2 s : ChainState} (h : ledgerEq s2 s)
    (hs : StateWF s) : StateWF s2 := by
  obtain ⟨h1, h2, h3, h4⟩ := h
  obtain ⟨w1, w2, w3, w4⟩ := hs
  refine ⟨?_, ?_, ?_, ?_⟩
  · show s2.total = candSum s2.candidateInfo s2.topNominations s2.bottomNominations
    rw [h1, h2, h3, h4]
    exact w1
  · rw [h1]
    exact w2
  · rw [h2]
    exact w3
  · rw [h3]
    exact w4

theorem returnStake_ledgerEq (c : Nat) (s : ChainState) (b : Bond) :
    ledgerEq (returnStake c s b) s := by
  unfold returnStake
  split
  · exact ledgerEq_refl s
  · dsimp only
    repeat' split
    all_goals exact ⟨rfl, rfl, rfl, rfl⟩

theorem foldl_returnStake_ledgerEq (c : Nat) (l : List Bond) (s : ChainState) :
    ledgerEq (l.foldl (returnStake c) s) s := by
  induction l generalizing s with
  | nil => exact ledgerEq_refl s
  | cons x xs ih =>
      simp only [List.foldl_cons]
      exact ledgerEq_trans (ih (returnStake c s x)) (returnStake_ledgerEq c s x)

theorem payReward_ledgerEq (cfg : Cfg) (amount dest : Nat) (s : ChainState) :
    ledgerEq (payReward cfg amount dest s) s := by
  unfold payReward
  split
  · exact ⟨rfl, rfl, rfl, rfl⟩
  · exact ⟨rfl, rfl, rfl, rfl⟩

theorem payNominators_ledgerEq (cfg : Cfg) (snapTotal r : Nat)
    (noms : List Bond) (s : ChainState) :
    ledgerEq (payNominators cfg snapTotal r noms s) s := by
  induction noms generalizing s with
  | nil => exact ledgerEq_refl s
  | cons x xs ih =>
      unfold payNominators at ih ⊢
      simp only [List.foldl_cons]
      refine ledgerEq_trans (ih _) ?_
      show ledgerEq (if perbillMul (fromRational x.amount snapTotal) r ≠ 0 then
        payReward cfg (perbillMul (fromRational x.amount snapTotal) r) x.owner s
        else s) s
      split
      · exact payReward_ledgerEq cfg _ x.owner s
      · exact ledgerEq_refl s

theorem payOneCollatorReward_ledgerEq (cfg : Cfg) (s : ChainState) (era : Nat)
    (info : DelayedPayoutInfo) :
    ledgerEq (payOneCollatorReward cfg s era info).2 s := by
  unfold payOneCollatorReward
  dsimp only
  split
  · exact ledgerEq_refl s
  · split
    · exact ledgerEq_refl s
    · dsimp only
      refine ledgerEq_trans (payNominators_ledgerEq cfg _ _ _ _) ?_
      refine ledgerEq_trans (payReward_ledgerEq cfg _ _ _) ?_
      exact ⟨rfl, rfl, rfl, rfl⟩

theorem handleDelayedPayouts_ledgerEq (cfg : Cfg) (s : ChainState) (now : Nat) :
    ledgerEq (handleDelayedPayouts cfg s now) s := by
  unfold handleDelayedPayouts
  split
  · exact ledgerEq_refl s
  · dsimp only
    split
    · rename_i payoutInfo heq
      split
      · exact ledgerEq_trans
          (⟨rfl, rfl, rfl, rfl⟩ : ledgerEq _
            (payOneCollatorReward cfg s (now - cfg.rewardPaymentDelay)
              payoutInfo).2)
          (payOneCollatorReward_ledgerEq cfg s _ _)
      · exact payOneCollatorReward_ledgerEq cfg s _ _
    · exact ledgerEq_refl s

theorem foldl_fst_ledgerEq {α β : Type}
    (f : (ChainState × β) → α → (ChainState × β))
    (h : ∀ acc x, ledgerEq (f acc x).1 acc.1) :
    ∀ (l : List α) (acc : ChainState × β), ledgerEq (l.foldl f acc).1 acc.1
  | [], _ => ledgerEq_refl _
  | x :: xs, acc =>
      ledgerEq_trans (foldl_fst_ledgerEq f h xs (f acc x)) (h acc x)

theorem ledgerEq_update_sel (a : ChainState) (sel : List Nat) (s : ChainState)
    (h : ledgerEq a s) : ledgerEq { a with selectedCandidates := sel } s := h

theorem selectTopCandidates_ledgerEq (cfg : Cfg) (s : ChainState) (now : Nat) :
    ledgerEq (selectTopCandidates cfg s now).1 s := by
  unfold selectTopCandidates
  dsimp only
  split
  · exact ⟨rfl, rfl, rfl, rfl⟩
  · dsimp only
    apply ledgerEq_update_sel
    apply foldl_fst_ledgerEq
    intro acc x
    exact ⟨rfl, rfl, rfl, rfl⟩

theorem noteAuthor_ledgerEq (s : ChainState) (author now : Nat) :
    ledgerEq (noteAuthor s author now) s := ⟨rfl, rfl, rfl, rfl⟩

theorem nominationScheduleRevoke_ledgerEq (cfg : Cfg) (s : ChainState)
    (collator nominator now : Nat) (s2 : ChainState)
    (h : nominationScheduleRevoke cfg s collator nominator now = Except.ok s2) :
    ledgerEq s2 s := by
  unfold nominationScheduleRevoke at h
  split at h
  · cases h
  · split at h
    · cases h
    · dsimp only at h
      split at h
      · cases h
      · cases h
        exact ⟨rfl, rfl, rfl, rfl⟩

theorem nominationScheduleBondDecrease_ledgerEq (cfg : Cfg) (s : ChainState)
    (collator nominator less now : Nat) (s2 : ChainState)
    (h : nominationScheduleBondDecrease cfg s collator nominator less now
      = Except.ok s2) : ledgerEq s2 s := by
  unfold nominationScheduleBondDecrease at h
  split at h
  · cases h
  · split at h
    · cases h
    · dsimp only at h
      split at h
      · cases h
      · split at h
        · cases h
        · split at h
          · cases h
          · split at h
            · cases h
            · cases h
              exact ⟨rfl, rfl, rfl, rfl⟩

theorem nominationCancelRequest_ledgerEq (cfg : Cfg) (s : ChainState)
    (collator nominator : Nat) (s2 : ChainState)
    (h : nominationCancelRequest cfg s collator nominator = Except.ok s2) :
    ledgerEq s2 s := by
  unfold nominationCancelRequest at h
  dsimp only at h
  cases hf : List.find? (fun r => decide (r.nominator = nominator))
      ((getA s.scheduledRequests collator).getD []) with
  | none =>
      simp only [hf] at h
      cases h
  | some req =>
      simp only [hf] at h
      cases hg : getA s.nominatorState nominator with
      | none =>
          simp only [hg] at h
          cases h
          exact ⟨rfl, rfl, rfl, rfl⟩
      | some nst =>
          simp only [hg] at h
          cases h
          exact ⟨rfl, rfl, rfl, rfl⟩

theorem hotfixRemove_ledgerEq (s : ChainState) (candidates : List Nat)
    (s2 : ChainState)
    (h : hotfixRemoveNominationRequests s candidates = Except.ok s2) :
    ledgerEq s2 s := by
  unfold hotfixRemoveNominationRequests at h
  split at h
  · split at h
    · cases h
    · cases h
      exact ⟨rfl, rfl, rfl, rfl⟩
  · cases h

theorem foldExcept_ledgerEq
    (f : ChainState → Nat → Except StakingError ChainState)
    (hf : ∀ s c s2, f s c = Except.ok s2 → ledgerEq s2 s) :
    ∀ (l : List Nat) (s s2 : ChainState),
      foldExcept f s l = Except.ok s2 → ledgerEq s2 s := by
  intro l
  induction l with
  | nil =>
      intro s s2 h
      unfold foldExcept at h
      cases h
      exact ledgerEq_refl _
  | cons c rest ih =>
      intro s s2 h
      unfold foldExcept at h
      cases hg : f s c with
      | error e =>
          simp only [hg] at h
          cases h
      | ok s1 =>
          simp only [hg] at h
          exact ledgerEq_trans (ih s1 s2 h) (hf s c s1 hg)

theorem scheduleLeaveNominators_ledgerEq (cfg : Cfg) (s : ChainState)
    (nominator now : Nat) (s2 : ChainState)
    (h : scheduleLeaveNominators cfg s nominator now = Except.ok s2) :
    ledgerEq s2 s := by
  unfold scheduleLeaveNominators at h
  split at h
  · cases h
  · exact foldExcept_ledgerEq _
      (fun s c s2 hc => nominationScheduleRevoke_ledgerEq cfg s c nominator now s2 hc)
      _ _ _ h

theorem cancelLeaveNominators_ledgerEq (cfg : Cfg) (s : ChainState)
    (nominator : Nat) (s2 : ChainState)
    (h : cancelLeaveNominators cfg s nominator = Except.ok s2) :
    ledgerEq s2 s := by
  unfold cancelLeaveNominators at h
  split at h
  · cases h
  · exact foldExcept_ledgerEq _
      (fun s c s2 hc => nominationCancelRequest_ledgerEq cfg s c nominator s2 hc)
      _ _ _ h

/-- Accounting identity of `increase_nomination` on the candidate ledger:
the combined Top/Bottom total grows by exactly `more`, and the cached
totals remain consistent. -/
theorem increaseInLedger_total (t b : NominationsRec) (nominator more : Nat)
    (t2 b2 : NominationsRec)
    (h : increaseInLedger t b nominator more = some (t2, b2))
    (hct : t.total = listTotal t.nominations)
    (hcb : b.total = listTotal b.nominations) :
    t2.total + b2.total = t.total + b.total + more ∧
    t2.total = listTotal t2.nominations ∧
    b2.total = listTotal b2.nominations := by
  unfold increaseInLedger at h
  cases hrt : removeBondByOwner t.nominations nominator with
  | some p =>
      obtain ⟨entry, rest⟩ := p
      simp only [hrt] at h
      obtain ⟨hsum, _, _, _⟩ := removeBondByOwner_spec _ _ _ _ hrt
      simp only [Option.some.injEq, Prod.mk.injEq] at h
      obtain ⟨ht, hb⟩ := h
      subst ht; subst hb
      refine ⟨?_, rfl, hcb⟩
      show listTotal (insertDesc rest ⟨nominator, entry.amount + more⟩) + b.total
        = t.total + b.total + more
      rw [listTotal_insertDesc]
      show entry.amount + more + listTotal rest + b.total = t.total + b.total + more
      omega
  | none =>
      simp only [hrt] at h
      cases hrb : removeBondByOwner b.nominations nominator with
      | some p =>
          obtain ⟨entry, rest⟩ := p
          simp only [hrb] at h
          obtain ⟨hsum, _, _, _⟩ := removeBondByOwner_spec _ _ _ _ hrb
          simp only [Option.some.injEq, Prod.mk.injEq] at h
          obtain ⟨ht, hb⟩ := h
          subst ht; subst hb
          refine ⟨?_, hct, rfl⟩
          show t.total + listTotal (insertDesc rest ⟨nominator, entry.amount + more⟩)
            = t.total + b.total + more
          rw [listTotal_insertDesc]
          show t.total + (entry.amount + more + listTotal rest) = t.total + b.total + more
          omega
      | none =>
          simp only [hrb] at h
          cases h

/-- Accounting identity of the in-place decrease on the candidate ledger:
the combined Top/Bottom total shrinks by exactly `less`, and the cached
totals remain consistent. -/
theorem decreaseInLedger_total (cfg : Cfg) (t b : NominationsRec)
    (nominator less : Nat) (t2 b2 : NominationsRec)
    (h : decreaseInLedger cfg t b nominator less = Except.ok (t2, b2))
    (hct : t.total = listTotal t.nominations)
    (hcb : b.total = listTotal b.nominations) :
    t2.total + b2.total + less = t.total + b.total ∧
    t2.total = listTotal t2.nominations ∧
    b2.total = listTotal b2.nominations := by
  unfold decreaseInLedger at h
  cases hrt : removeBondByOwner t.nominations nominator with
  | some p =>
      obtain ⟨entry, rest⟩ := p
      simp only [hrt] at h
      obtain ⟨hsum, _, _, _⟩ := removeBondByOwner_spec _ _ _ _ hrt
      split at h
      · rename_i hcond
        simp only [Except.ok.injEq, Prod.mk.injEq] at h
        obtain ⟨ht, hb⟩ := h
        subst ht; subst hb
        refine ⟨?_, rfl, hcb⟩
        show listTotal (insertDesc rest ⟨nominator, entry.amount - less⟩) + b.total
            + less = t.total + b.total
        rw [listTotal_insertDesc]
        show entry.amount - less + listTotal rest + b.total + less = t.total + b.total
        omega
      · cases h
  | none =>
      simp only [hrt] at h
      cases hrb : removeBondByOwner b.nominations nominator with
      | some p =>
          obtain ⟨entry, rest⟩ := p
          simp only [hrb] at h
          obtain ⟨hsum, _, _, _⟩ := removeBondByOwner_spec _ _ _ _ hrb
          split at h
          · rename_i hcond
            simp only [Except.ok.injEq, Prod.mk.injEq] at h
            obtain ⟨ht, hb⟩ := h
            subst ht; subst hb
            refine ⟨?_, hct, rfl⟩
            show t.total + listTotal (insertDesc rest ⟨nominator, entry.amount - less⟩)
                + less = t.total + b.total
            rw [listTotal_insertDesc]
            show t.total + (entry.amount - less + listTotal rest) + less
              = t.total + b.total
            omega
          · cases h
      | none =>
          simp only [hrb] at h
          cases h

/-- An info-only update that keeps the self-bond keeps the sum. -/
theorem candSum_putA_same_bond (info : List (Nat × CandidateMetadata))
    (top bot : List (Nat × NominationsRec)) (c : Nat)
    (st st2 : CandidateMetadata) (hget : getA info c = some st)
    (hbond : st2.bond = st.bond) :
    candSum (putA info c st2) top bot = candSum info top bot := by
  have h := sum_putA_update info c st st2 (contribOf top bot) hget
  have h2 : contribOf top bot (c, st2) = contribOf top bot (c, st) := by
    unfold contribOf
    dsimp only
    rw [hbond]
  unfold candSum
  omega

/-- An info-only update changes the sum by the change in self-bond. -/
theorem candSum_putA_bond (info : List (Nat × CandidateMetadata))
    (top bot : List (Nat × NominationsRec)) (c : Nat)
    (st st2 : CandidateMetadata) (hget : getA info c = some st) :
    candSum (putA info c st2) top bot + st.bond
      = candSum info top bot + st2.bond := by
  have h := sum_putA_update info c st st2 (contribOf top bot) hget
  have h2 : contribOf top bot (c, st2) + st.bond
      = contribOf top bot (c, st) + st2.bond := by
    unfold contribOf
    dsimp only
    omega
  unfold candSum
  omega

/-! ## Per-operation preservation of the conservation invariant -/

theorem joinCandidates_wf (cfg : Cfg) (s : ChainState) (acc bond cc : Nat)
    (s2 : ChainState) (h : joinCandidates cfg s acc bond cc = Except.ok s2)
    (hs : StateWF s) : StateWF s2 := by
  obtain ⟨w1, w2, w3, w4⟩ := hs
  unfold joinCandidates at h
  split at h
  · cases h
  · rename_i hcand
    split at h
    · cases h
    · split at h
      · cases h
      · split at h
        · cases h
        · split at h
          · cases h
          · rename_i pool2 hpool
            split at h
            · cases h
            · cases h
              have hnone : getA s.candidateInfo acc = none := by
                unfold isCandidate at hcand
                simpa using hcand
              refine ⟨?_, nodup_keys_putA _ _ _ w2,
                recConsistent_putA _ _ _ w3 rfl, recConsistent_putA _ _ _ w4 rfl⟩
              unfold candidateTotalSum
              dsimp only
              rw [candSum_insert_new _ _ _ _ _ _ _ hnone]
              show s.total + bond
                = candSum s.candidateInfo s.topNominations s.bottomNominations
                  + (bond + 0 + 0)
              unfold candidateTotalSum at w1
              omega

theorem scheduleLeaveCandidates_wf (cfg : Cfg) (s : ChainState)
    (collator cc now : Nat) (s2 : ChainState)
    (h : scheduleLeaveCandidates cfg s collator cc now = Except.ok s2)
    (hs : StateWF s) : StateWF s2 := by
  obtain ⟨w1, w2, w3, w4⟩ := hs
  unfold scheduleLeaveCandidates at h
  split at h
  · cases h
  · rename_i st hget
    split at h
    · cases h
    · split at h
      · cases h
      · dsimp only at h
        cases h
        refine ⟨?_, nodup_keys_putA _ _ _ w2, w3, w4⟩
        unfold candidateTotalSum
        dsimp only
        rw [candSum_putA_same_bond _ _ _ _ st
            ({ st with status := CollatorStatus.leaving (now + cfg.leaveCandidatesDelay) }) hget rfl]
        exact w1

theorem cancelLeaveCandidates_wf (cfg : Cfg) (s : ChainState)
    (collator cc : Nat) (s2 : ChainState)
    (h : cancelLeaveCandidates cfg s collator cc = Except.ok s2)
    (hs : StateWF s) : StateWF s2 := by
  obtain ⟨w1, w2, w3, w4⟩ := hs
  unfold cancelLeaveCandidates at h
  split at h
  · cases h
  · rename_i st hget
    split at h
    · cases h
    · split at h
      · cases h
      · split at h
        · cases h
        · cases h
          refine ⟨?_, nodup_keys_putA _ _ _ w2, w3, w4⟩
          unfold candidateTotalSum
          dsimp only
          rw [candSum_putA_same_bond _ _ _ _ st
            ({ st with status := CollatorStatus.active }) hget rfl]
          exact w1

theorem goOffline_wf (cfg : Cfg) (s : ChainState) (collator : Nat)
    (s2 : ChainState) (h : goOffline cfg s collator = Except.ok s2)
    (hs : StateWF s) : StateWF s2 := by
  obtain ⟨w1, w2, w3, w4⟩ := hs
  unfold goOffline at h
  split at h
  · cases h
  · rename_i st hget
    split at h
    · cases h
    · cases h
      refine ⟨?_, nodup_keys_putA _ _ _ w2, w3, w4⟩
      unfold candidateTotalSum
      dsimp only
      rw [candSum_putA_same_bond _ _ _ _ st
            ({ st with status := CollatorStatus.idle }) hget rfl]
      exact w1

theorem goOnline_wf (cfg : Cfg) (s : ChainState) (collator : Nat)
    (s2 : ChainState) (h : goOnline cfg s collator = Except.ok s2)
    (hs : StateWF s) : StateWF s2 := by
  obtain ⟨w1, w2, w3, w4⟩ := hs
  unfold goOnline at h
  split at h
  · cases h
  · rename_i st hget
    split at h
    · cases h
    · split at h
      · cases h
      · split at h
        · cases h
        · cases h
          refine ⟨?_, nodup_keys_putA _ _ _ w2, w3, w4⟩
          unfold candidateTotalSum
          dsimp only
          rw [candSum_putA_same_bond _ _ _ _ st
            ({ st with status := CollatorStatus.active }) hget rfl]
          exact w1

theorem scheduleCandidateBondLess_wf (cfg : Cfg) (s : ChainState)
    (collator less now : Nat) (s2 : ChainState)
    (h : scheduleCandidateBondLess cfg s collator less now = Except.ok s2)
    (hs : StateWF s) : StateWF s2 := by
  obtain ⟨w1, w2, w3, w4⟩ := hs
  unfold scheduleCandidateBondLess at h
  split at h
  · cases h
  · rename_i st hget
    split at h
    · cases h
    · split at h
      · cases h
      · split at h
        · cases h
        · cases h
          refine ⟨?_, nodup_keys_putA _ _ _ w2, w3, w4⟩
          unfold candidateTotalSum
          dsimp only
          rw [candSum_putA_same_bond _ _ _ _ st
            ({ st with request := some (CandidateBondLessRequest.mk less (now + cfg.candidateBondLessDelay)) }) hget rfl]
          exact w1

theorem cancelCandidateBondLess_wf (cfg : Cfg) (s : ChainState)
    (collator : Nat) (s2 : ChainState)
    (h : cancelCandidateBondLess cfg s collator = Except.ok s2)
    (hs : StateWF s) : StateWF s2 := by
  obtain ⟨w1, w2, w3, w4⟩ := hs
  unfold cancelCandidateBondLess at h
  split at h
  · cases h
  · rename_i st hget
    split at h
    · cases h
    · cases h
      refine ⟨?_, nodup_keys_putA _ _ _ w2, w3, w4⟩
      unfold candidateTotalSum
      dsimp only
      rw [candSum_putA_same_bond _ _ _ _ st
            ({ st with request := none }) hget rfl]
      exact w1

theorem candidateBondMore_wf (cfg : Cfg) (s : ChainState)
    (collator more : Nat) (s2 : ChainState)
    (h : candidateBondMore cfg s collator more = Except.ok s2)
    (hs : StateWF s) : StateWF s2 := by
  obtain ⟨w1, w2, w3, w4⟩ := hs
  unfold candidateBondMore at h
  split at h
  · cases h
  · rename_i st hget
    split at h
    · cases h
    · dsimp only at h
      cases h
      refine ⟨?_, nodup_keys_putA _ _ _ w2, w3, w4⟩
      unfold candidateTotalSum
      dsimp only
      have hupd := candSum_putA_bond s.candidateInfo s.topNominations
        s.bottomNominations collator st
        ({ st with bond := st.bond + more, totalCounted := st.totalCounted + more })
        hget
      unfold candidateTotalSum at w1
      dsimp only at hupd
      omega

theorem executeCandidateBondLess_wf (cfg : Cfg) (s : ChainState)
    (candidate now : Nat) (s2 : ChainState)
    (h : executeCandidateBondLess cfg s candidate now = Except.ok s2)
    (hs : StateWF s) : StateWF s2 := by
  obtain ⟨w1, w2, w3, w4⟩ := hs
  unfold executeCandidateBondLess at h
  split at h
  · cases h
  · rename_i st hget
    split at h
    · cases h
    · rename_i req hreq
      split at h
      · cases h
      · split at h
        · cases h
        · rename_i hcond
          have hle : req.amount ≤ st.bond := by
            rcases Decidable.of_not_not (by simpa using hcond) with ⟨h1, h2⟩
            exact h1
          dsimp only at h
          cases h
          refine ⟨?_, nodup_keys_putA _ _ _ w2, w3, w4⟩
          unfold candidateTotalSum
          dsimp only
          have hupd := candSum_putA_bond s.candidateInfo s.topNominations
            s.bottomNominations candidate st
            ({ st with bond := st.bond - req.amount,
                       totalCounted := st.totalCounted - req.amount,
                       request := none })
            hget
          unfold candidateTotalSum at w1
          dsimp only at hupd
          omega

theorem executeLeaveCandidates_wf (cfg : Cfg) (s : ChainState)
    (candidate hint now : Nat) (s2 : ChainState)
    (h : executeLeaveCandidates cfg s candidate hint now = Except.ok s2)
    (hs : StateWF s) : StateWF s2 := by
  obtain ⟨w1, w2, w3, w4⟩ := hs
  unfold executeLeaveCandidates at h
  split at h
  · cases h
  · rename_i st hget
    split at h
    · cases h
    · split at h
      · split at h
        · cases h
        · dsimp only at h
          cases h
          obtain ⟨f1, f2, f3, f4⟩ := foldl_returnStake_ledgerEq candidate
            (((getA s.topNominations candidate).getD default).nominations ++
              ((getA s.bottomNominations candidate).getD default).nominations) s
          refine ⟨?_, ?_, ?_, ?_⟩
          · unfold candidateTotalSum
            dsimp only
            rw [f1, f2, f3, f4]
            have hrem := candSum_remove s.candidateInfo s.topNominations
              s.bottomNominations candidate st hget w2
            unfold candidateTotalSum at w1
            omega
          · dsimp only
            rw [f1]
            exact nodup_keys_removeA _ _ w2
          · dsimp only
            rw [f2]
            exact recConsistent_removeA _ _ w3
          · dsimp only
            rw [f3]
            exact recConsistent_removeA _ _ w4
      · cases h

theorem optKick_ledgerEq (candidate : Nat) (s : ChainState)
    (kicked : Option Bond) :
    ledgerEq (optKickCleanup candidate s kicked) s := by
  cases kicked with
  | some k => exact returnStake_ledgerEq candidate s k
  | none => exact ledgerEq_refl s

theorem nominate_wf (cfg : Cfg) (s : ChainState)
    (nominator candidate amount cc nc : Nat) (s2 : ChainState)
    (h : nominate cfg s nominator candidate amount cc nc = Except.ok s2)
    (hs : StateWF s) : StateWF s2 := by
  obtain ⟨w1, w2, w3, w4⟩ := hs
  unfold nominate at h
  split at h
  · cases h
  · split at h
    · cases h
    · rename_i nomState2 hnom
      split at h
      · cases h
      · rename_i cst hget
        split at h
        · cases h
        · dsimp only at h
          split at h
          · cases h
          · rename_i t2 b2 kicked hadd
            obtain ⟨hsum, hkle, hct2, hcb2⟩ := addNominationLedger_total cfg
              ((getA s.topNominations candidate).getD default)
              ((getA s.bottomNominations candidate).getD default)
              ⟨nominator, amount⟩ t2 b2 kicked hadd (w3 candidate) (w4 candidate)
            dsimp only at hsum hkle
            obtain ⟨f1, f2, f3, f4⟩ := optKick_ledgerEq candidate s kicked
            try dsimp only at h
            cases h
            refine ⟨?_, ?_, ?_, ?_⟩
            · unfold candidateTotalSum
              dsimp only
              rw [f1, f2, f3, f4]
              have hupd := candSum_full_update s.candidateInfo s.topNominations
                s.bottomNominations candidate cst
                ({ cst with
                    nominationCount := cst.nominationCount + 1 - kickedCount kicked,
                    totalCounted := cst.bond + t2.total })
                t2 b2 hget w2
              unfold candidateTotalSum at w1
              dsimp only at hupd
              omega
            · dsimp only
              rw [f1]
              exact nodup_keys_putA _ _ _ w2
            · dsimp only
              rw [f2]
              exact recConsistent_putA _ _ _ w3 hct2
            · dsimp only
              rw [f3]
              exact recConsistent_putA _ _ _ w4 hcb2

theorem nominationExecuteScheduledRequest_wf (cfg : Cfg) (s : ChainState)
    (collator nominator now : Nat) (s2 : ChainState)
    (h : nominationExecuteScheduledRequest cfg s collator nominator now
      = Except.ok s2)
    (hs : StateWF s) : StateWF s2 := by
  obtain ⟨w1, w2, w3, w4⟩ := hs
  unfold nominationExecuteScheduledRequest at h
  dsimp only at h
  split at h
  · cases h
  · rename_i req hreq
    split at h
    · cases h
    · split at h
      · cases h
      · rename_i nst hnst
        split at h
        · cases h
        · rename_i cst hget
          split at h
          · -- Revoke action
            split at h
            · cases h
            · rename_i t2 b2 removedAmount hrm
              obtain ⟨hsum, hct2, hcb2⟩ := rmNominationLedger_total
                ((getA s.topNominations collator).getD default)
                ((getA s.bottomNominations collator).getD default)
                nominator t2 b2 removedAmount hrm (w3 collator) (w4 collator)
              split at h
              · cases h
              · split at h
                · cases h
                · try dsimp only at h
                  cases h
                  refine ⟨?_, nodup_keys_putA _ _ _ w2,
                    recConsistent_putA _ _ _ w3 hct2,
                    recConsistent_putA _ _ _ w4 hcb2⟩
                  unfold candidateTotalSum
                  dsimp only
                  have hupd := candSum_full_update s.candidateInfo
                    s.topNominations s.bottomNominations collator cst
                    ({ cst with
                        totalCounted := cst.bond + t2.total,
                        nominationCount := cst.nominationCount - 1 })
                    t2 b2 hget w2
                  unfold candidateTotalSum at w1
                  dsimp only at hupd
                  omega
          · -- Decrease action
            rename_i less hact
            split at h
            · cases h
            · rename_i t2 b2 hdec
              obtain ⟨hsum, hct2, hcb2⟩ := decreaseInLedger_total cfg
                ((getA s.topNominations collator).getD default)
                ((getA s.bottomNominations collator).getD default)
                nominator less t2 b2 hdec (w3 collator) (w4 collator)
              split at h
              · cases h
              · try dsimp only at h
                cases h
                refine ⟨?_, nodup_keys_putA _ _ _ w2,
                  recConsistent_putA _ _ _ w3 hct2,
                  recConsistent_putA _ _ _ w4 hcb2⟩
                unfold candidateTotalSum
                dsimp only
                have hupd := candSum_full_update s.candidateInfo
                  s.topNominations s.bottomNominations collator cst
                  ({ cst with totalCounted := cst.bond + t2.total })
                  t2 b2 hget w2
                unfold candidateTotalSum at w1
                dsimp only at hupd
                omega

theorem nominatorBondMore_wf (cfg : Cfg) (s : ChainState)
    (candidate nominator more : Nat) (s2 : ChainState)
    (h : nominatorBondMore cfg s candidate nominator more = Except.ok s2)
    (hs : StateWF s) : StateWF s2 := by
  obtain ⟨w1, w2, w3, w4⟩ := hs
  unfold nominatorBondMore at h
  split at h
  · cases h
  · split at h
    · cases h
    · rename_i nst hnst
      split at h
      · cases h
      · rename_i nbond nrest hrb
        split at h
        · cases h
        · dsimp only at h
          split at h
          · cases h
          · rename_i t2 b2 hinc
            obtain ⟨hsum, hct2, hcb2⟩ := increaseInLedger_total
              ((getA s.topNominations candidate).getD default)
              ((getA s.bottomNominations candidate).getD default)
              nominator more t2 b2 hinc (w3 candidate) (w4 candidate)
            split at h
            · cases h
            · rename_i cst hget
              try dsimp only at h
              cases h
              refine ⟨?_, nodup_keys_putA _ _ _ w2,
                recConsistent_putA _ _ _ w3 hct2,
                recConsistent_putA _ _ _ w4 hcb2⟩
              unfold candidateTotalSum
              dsimp only
              have hupd := candSum_full_update s.candidateInfo s.topNominations
                s.bottomNominations candidate cst
                ({ cst with totalCounted := cst.bond + t2.total })
                t2 b2 hget w2
              unfold candidateTotalSum at w1
              dsimp only at hupd
              omega

theorem foldExcept_wf (f : ChainState → Nat → Except StakingError ChainState)
    (hf : ∀ s c s2, f s c = Except.ok s2 → StateWF s → StateWF s2) :
    ∀ (l : List Nat) (s s2 : ChainState),
      foldExcept f s l = Except.ok s2 → StateWF s → StateWF s2 := by
  intro l
  induction l with
  | nil =>
      intro s s2 h hs
      unfold foldExcept at h
      cases h
      exact hs
  | cons c rest ih =>
      intro s s2 h hs
      unfold foldExcept at h
      cases hg : f s c with
      | error e =>
          simp only [hg] at h
          cases h
      | ok s1 =>
          simp only [hg] at h
          exact ih s1 s2 h (hf s c s1 hg hs)

/-- The mutating calls of the pallet: the 19 staking extrinsics (the two
root-only era-configuration setters touch neither the ledgers nor `Total`
and carry no staking state here), block authoring (`note_author`), era-end
selection, and the per-block payout hook. -/
inductive Op where
  | joinCandidates (acc bond candidateCount : Nat)
  | scheduleLeaveCandidates (collator candidateCount now : Nat)
  | executeLeaveCandidates (candidate nominationCountHint now : Nat)
  | cancelLeaveCandidates (collator candidateCount : Nat)
  | goOffline (collator : Nat)
  | goOnline (collator : Nat)
  | candidateBondMore (collator more : Nat)
  | scheduleCandidateBondLess (collator less now : Nat)
  | executeCandidateBondLess (candidate now : Nat)
  | cancelCandidateBondLess (collator : Nat)
  | nominate (nominator candidate amount candidateNominationCount
      nominationCount : Nat)
  | scheduleLeaveNominators (nominator now : Nat)
  | executeLeaveNominators (nominator now : Nat)
  | cancelLeaveNominators (nominator : Nat)
  | scheduleRevokeNomination (collator nominator now : Nat)
  | nominatorBondMore (candidate nominator more : Nat)
  | scheduleNominatorBondLess (candidate nominator less now : Nat)
  | executeNominationRequest (candidate nominator now : Nat)
  | cancelNominationRequest (candidate nominator : Nat)
  | hotfixRemoveRequests (candidates : List Nat)
  | noteAuthor (author now : Nat)
  | selectTopCandidates (now : Nat)
  | handleDelayedPayouts (now : Nat)

/-- Dispatch one mutating call. -/
def applyOp (cfg : Cfg) (s : ChainState) : Op → Except StakingError ChainState
  | Op.joinCandidates acc bond cc => joinCandidates cfg s acc bond cc
  | Op.scheduleLeaveCandidates c cc now => scheduleLeaveCandidates cfg s c cc now
  | Op.executeLeaveCandidates c hint now => executeLeaveCandidates cfg s c hint now
  | Op.cancelLeaveCandidates c cc => cancelLeaveCandidates cfg s c cc
  | Op.goOffline c => goOffline cfg s c
  | Op.goOnline c => goOnline cfg s c
  | Op.candidateBondMore c more => candidateBondMore cfg s c more
  | Op.scheduleCandidateBondLess c less now =>
      scheduleCandidateBondLess cfg s c less now
  | Op.executeCandidateBondLess c now => executeCandidateBondLess cfg s c now
  | Op.cancelCandidateBondLess c => cancelCandidateBondLess cfg s c
  | Op.nominate n c amount cc nc => nominate cfg s n c amount cc nc
  | Op.scheduleLeaveNominators n now => scheduleLeaveNominators cfg s n now
  | Op.executeLeaveNominators n now => executeLeaveNominators cfg s n now
  | Op.cancelLeaveNominators n => cancelLeaveNominators cfg s n
  | Op.scheduleRevokeNomination c n now => nominationScheduleRevoke cfg s c n now
  | Op.nominatorBondMore c n more => nominatorBondMore cfg s c n more
  | Op.scheduleNominatorBondLess c n less now =>
      nominationScheduleBondDecrease cfg s c n less now
  | Op.executeNominationRequest c n now =>
      nominationExecuteScheduledRequest cfg s c n now
  | Op.cancelNominationRequest c n => nominationCancelRequest cfg s c n
  | Op.hotfixRemoveRequests cands => hotfixRemoveNominationRequests s cands
  | Op.noteAuthor a now => Except.ok (noteAuthor s a now)
  | Op.selectTopCandidates now => Except.ok (selectTopCandidates cfg s now).1
  | Op.handleDelayedPayouts now => Except.ok (handleDelayedPayouts cfg s now)

/-- FRAME dispatch is transactional: a failing call leaves storage
untouched. -/
def applyOkOp (cfg : Cfg) (s : ChainState) (op : Op) : ChainState :=
  match applyOp cfg s op with
  | Except.ok s2 => s2
  | Except.error _ => s

/-- Run a sequence of mutating calls from a starting state. -/
def runOps (cfg : Cfg) (s : ChainState) (ops : List Op) : ChainState :=
  ops.foldl (applyOkOp cfg) s

theorem applyOp_wf (cfg : Cfg) (s : ChainState) (op : Op) (s2 : ChainState)
    (h : applyOp cfg s op = Except.ok s2) (hs : StateWF s) : StateWF s2 := by
  cases op with
  | joinCandidates acc bond cc => exact joinCandidates_wf cfg s acc bond cc s2 h hs
  | scheduleLeaveCandidates c cc now =>
      exact scheduleLeaveCandidates_wf cfg s c cc now s2 h hs
  | executeLeaveCandidates c hint now =>
      exact executeLeaveCandidates_wf cfg s c hint now s2 h hs
  | cancelLeaveCandidates c cc => exact cancelLeaveCandidates_wf cfg s c cc s2 h hs
  | goOffline c => exact goOffline_wf cfg s c s2 h hs
  | goOnline c => exact goOnline_wf cfg s c s2 h hs
  | candidateBondMore c more => exact candidateBondMore_wf cfg s c more s2 h hs
  | scheduleCandidateBondLess c less now =>
      exact scheduleCandidateBondLess_wf cfg s c less now s2 h hs
  | executeCandidateBondLess c now =>
      exact executeCandidateBondLess_wf cfg s c now s2 h hs
  | cancelCandidateBondLess c => exact cancelCandidateBondLess_wf cfg s c s2 h hs
  | nominate n c amount cc nc => exact nominate_wf cfg s n c amount cc nc s2 h hs
  | scheduleLeaveNominators n now =>
      exact StateWF_of_ledgerEq
        (scheduleLeaveNominators_ledgerEq cfg s n now s2 h) hs
  | executeLeaveNominators n now =>
      replace h : executeLeaveNominators cfg s n now = Except.ok s2 := h
      unfold executeLeaveNominators at h
      split at h
      · cases h
      · exact foldExcept_wf _
          (fun s c s2 hc hwf =>
            nominationExecuteScheduledRequest_wf cfg s c n now s2 hc hwf)
          _ _ _ h hs
  | cancelLeaveNominators n =>
      exact StateWF_of_ledgerEq (cancelLeaveNominators_ledgerEq cfg s n s2 h) hs
  | scheduleRevokeNomination c n now =>
      exact StateWF_of_ledgerEq
        (nominationScheduleRevoke_ledgerEq cfg s c n now s2 h) hs
  | nominatorBondMore c n more => exact nominatorBondMore_wf cfg s c n more s2 h hs
  | scheduleNominatorBondLess c n less now =>
      exact StateWF_of_ledgerEq
        (nominationScheduleBondDecrease_ledgerEq cfg s c n less now s2 h) hs
  | executeNominationRequest c n now =>
      exact nominationExecuteScheduledRequest_wf cfg s c n now s2 h hs
  | cancelNominationRequest c n =>
      exact StateWF_of_ledgerEq
        (nominationCancelRequest_ledgerEq cfg s c n s2 h) hs
  | hotfixRemoveRequests cands =>
      exact StateWF_of_ledgerEq (hotfixRemove_ledgerEq s cands s2 h) hs
  | noteAuthor a now =>
      cases h
      exact StateWF_of_ledgerEq (noteAuthor_ledgerEq s a now) hs
  | selectTopCandidates now =>
      cases h
      exact StateWF_of_ledgerEq (selectTopCandidates_ledgerEq cfg s now) hs
  | handleDelayedPayouts now =>
      cases h
      exact StateWF_of_ledgerEq (handleDelayedPayouts_ledgerEq cfg s now) hs

theorem applyOkOp_wf (cfg : Cfg) (s : ChainState) (op : Op) (hs : StateWF s) :
    StateWF (applyOkOp cfg s op) := by
  unfold applyOkOp
  cases hg : applyOp cfg s op with
  | error e =>
      simp only [hg]
      exact hs
  | ok s1 =>
      simp only [hg]
      exact applyOp_wf cfg s op s1 hg hs

theorem runOps_wf (cfg : Cfg) (s : ChainState) (ops : List Op)
    (hs : StateWF s) : StateWF (runOps cfg s ops) := by
  induction ops generalizing s with
  | nil => exact hs
  | cons op rest ih =>
      show StateWF (runOps cfg (applyOkOp cfg s op) rest)
      exact ih (applyOkOp cfg s op) (applyOkOp_wf cfg s op hs)

/-- **C1.** For every sequence of operations (`join_candidates`,
`nominate`, `execute_leave_candidates`, and every other mutating call),
the pallet's global `Total` storage equals the sum over all candidates of
self-bond plus Top-nominations total plus Bottom-nominations total: from
any state satisfying the invariant (in particular the empty genesis
state), the invariant `Total = candidateTotalSum` still holds after
running any list of operations. -/
theorem total_conservation (cfg : Cfg) (s0 : ChainState) (ops : List Op)
    (h0 : StateWF s0) :
    (runOps cfg s0 ops).total = candidateTotalSum (runOps cfg s0 ops) :=
  (runOps_wf cfg s0 ops h0).1

/-- A sample run: one candidate joins with bond 20, an account nominates
it with 5, and it authors a block. -/
def c1Ops : List Op :=
  [Op.joinCandidates 1 20 0, Op.nominate 2 1 5 1 0, Op.noteAuthor 1 3]

theorem total_conservation_witness :
    StateWF emptyChainState ∧
    (runOps exampleCfg emptyChainState c1Ops).total
      = candidateTotalSum (runOps exampleCfg emptyChainState c1Ops) ∧
    (runOps exampleCfg emptyChainState c1Ops).total = 25 :=
  ⟨⟨rfl, List.nodup_nil, fun _ => rfl, fun _ => rfl⟩,
    total_conservation exampleCfg emptyChainState c1Ops
      ⟨rfl, List.nodup_nil, fun _ => rfl, fun _ => rfl⟩,
    by decide⟩

/-! ## C9: the hotfix extrinsic -/

theorem getA_none_foldl_removeA {κ ν : Type} [DecidableEq κ]
    (cands : List κ) (l : List (κ × ν)) (c : κ) (h : getA l c = none) :
    getA (cands.foldl (fun m k => removeA m k) l) c = none := by
  induction cands generalizing l with
  | nil => exact h
  | cons k rest ih =>
      simp only [List.foldl_cons]
      apply ih
      by_cases hk : c = k
      · subst hk
        exact getA_removeA l c
      · rw [getA_removeA_ne l k c hk]
        exact h

theorem getA_foldl_removeA_mem {κ ν : Type} [DecidableEq κ]
    (cands : List κ) (l : List (κ × ν)) (c : κ) (h : c ∈ cands) :
    getA (cands.foldl (fun m k => removeA m k) l) c = none := by
  induction cands generalizing l with
  | nil => cases h
  | cons k rest ih =>
      simp only [List.foldl_cons]
      rcases List.mem_cons.mp h with rfl | hmem
      · exact getA_none_foldl_removeA rest _ c (getA_removeA l c)
      · exact ih (removeA l k) hmem

theorem foldl_removeA_id {κ ν : Type} [DecidableEq κ]
    (cands : List κ) (l : List (κ × ν))
    (h : ∀ c ∈ cands, getA l c = none) :
    cands.foldl (fun m k => removeA m k) l = l := by
  induction cands generalizing l with
  | nil => rfl
  | cons k rest ih =>
      simp only [List.foldl_cons]
      rw [getA_none_removeA_id l k (h k (List.mem_cons_self _ _))]
      exact ih l (fun c hc => h c (List.mem_cons_of_mem _ hc))

/-- The per-candidate checks of the hotfix pass exactly when every listed
candidate has no `CandidateInfo` entry and an absent-or-empty scheduled
request list. -/
theorem hotfixCheck_ok_iff (s : ChainState) (cands : List Nat) :
    hotfixCheck s cands = Except.ok () ↔
      ∀ c ∈ cands, getA s.candidateInfo c = none ∧
        ((getA s.scheduledRequests c).getD []).isEmpty = true := by
  induction cands with
  | nil => simp [hotfixCheck]
  | cons c rest ih =>
      unfold hotfixCheck
      constructor
      · intro h
        split at h
        · cases h
        · rename_i h1
          split at h
          · cases h
          · rename_i h2
            intro c2 hc2
            rcases List.mem_cons.mp hc2 with rfl | hmem
            · exact ⟨Option.not_isSome_iff_eq_none.mp h1, by simpa using h2⟩
            · exact (ih.mp h) c2 hmem
      · intro hall
        obtain ⟨hc1, hc2⟩ := hall c (List.mem_cons_self _ _)
        rw [hc1, hc2]
        simp only [Option.isSome_none, Bool.false_eq_true, if_false,
          Bool.not_true, Bool.false_eq_true, if_false]
        exact ih.mpr (fun c2 hm => hall c2 (List.mem_cons_of_mem _ hm))

/-- **C9 counterexample.** The spec says candidates with no storage
entries are accepted silently, but listing 100 storage-free candidates is
rejected: the hotfix refuses any list of 100 or more candidates
(with, incidentally, an `InsufficientBalance` error). -/
theorem hotfix_hundred_clean_counterexample :
    (∀ c ∈ List.range 100, getA emptyChainState.candidateInfo c = none ∧
      ((getA emptyChainState.scheduledRequests c).getD []).isEmpty = true) ∧
    hotfixRemoveNominationRequests emptyChainState (List.range 100)
      = Except.error StakingError.insufficientBalance := by
  constructor
  · decide
  · rfl

/-- **C9 (amended).** Provided fewer than 100 candidates are listed:
`hotfix_remove_nomination_requests_exited_candidates` errors (changing
nothing, dispatch being transactional) if any listed candidate still has a
`CandidateInfo` entry or a non-empty scheduled-request list; if every
listed candidate is storage-free (nonexistent entries accepted silently)
the call succeeds, and running it a second time on the same input returns
the state of the first call unchanged. -/
theorem hotfix_remove_requests_amended (s : ChainState) (candidates : List Nat)
    (hlen : candidates.length < 100) :
    ((¬ ∀ c ∈ candidates, getA s.candidateInfo c = none ∧
        ((getA s.scheduledRequests c).getD []).isEmpty = true) →
      ∃ e, hotfixRemoveNominationRequests s candidates = Except.error e) ∧
    ((∀ c ∈ candidates, getA s.candidateInfo c = none ∧
        ((getA s.scheduledRequests c).getD []).isEmpty = true) →
      ∃ s2, hotfixRemoveNominationRequests s candidates = Except.ok s2 ∧
        hotfixRemoveNominationRequests s2 candidates = Except.ok s2) := by
  constructor
  · intro hd
    unfold hotfixRemoveNominationRequests
    rw [if_pos hlen]
    cases hchk : hotfixCheck s candidates with
    | error e =>
        exact ⟨e, by simp only [hchk]⟩
    | ok u =>
        cases u
        exact absurd ((hotfixCheck_ok_iff s candidates).mp hchk) hd
  · intro hall
    have hchk : hotfixCheck s candidates = Except.ok () :=
      (hotfixCheck_ok_iff s candidates).mpr hall
    have hfirst : hotfixRemoveNominationRequests s candidates
        = Except.ok { s with
            scheduledRequests := candidates.foldl
              (fun m c => removeA m c) s.scheduledRequests } := by
      unfold hotfixRemoveNominationRequests
      rw [if_pos hlen, hchk]
    refine ⟨_, hfirst, ?_⟩
    unfold hotfixRemoveNominationRequests
    rw [if_pos hlen]
    have hall2 : ∀ c ∈ candidates,
        getA s.candidateInfo c = none ∧
        ((getA (candidates.foldl (fun m c => removeA m c)
          s.scheduledRequests) c).getD []).isEmpty = true := by
      intro c hc
      refine ⟨(hall c hc).1, ?_⟩
      rw [getA_foldl_removeA_mem candidates s.scheduledRequests c hc]
      rfl
    rw [(hotfixCheck_ok_iff _ candidates).mpr hall2]
    have hfold : candidates.foldl (fun m c => removeA m c)
        (candidates.foldl (fun m c => removeA m c) s.scheduledRequests)
        = candidates.foldl (fun m c => removeA m c) s.scheduledRequests :=
      foldl_removeA_id candidates _
        (fun c hc => getA_foldl_removeA_mem candidates s.scheduledRequests c hc)
    dsimp only
    rw [hfold]

/-- State with an orphaned empty request-queue entry for exited
candidate 5. -/
def c9State : ChainState :=
  { emptyChainState with scheduledRequests := [(5, [])] }

/-- State where exited candidate 5 still has a pending request. -/
def c9DirtyState : ChainState :=
  { emptyChainState with
    scheduledRequests := [(5, [⟨2, 3, NominationAction.revoke 4⟩])] }

theorem hotfix_remove_requests_amended_witness :
    ([5, 7] : List Nat).length < 100 ∧
    (∃ s2, hotfixRemoveNominationRequests c9State [5, 7] = Except.ok s2 ∧
      hotfixRemoveNominationRequests s2 [5, 7] = Except.ok s2) ∧
    (∃ e, hotfixRemoveNominationRequests c9DirtyState [5, 7]
      = Except.error e) :=
  ⟨by decide,
    (hotfix_remove_requests_amended c9State [5, 7] (by decide)).2 (by decide),
    (hotfix_remove_requests_amended c9DirtyState [5, 7] (by decide)).1
      (by decide)⟩

/-! ## C10: `nominator_bond_more` and pending revokes -/

/-- **C10.** `nominator_bond_more` fails with `PendingNominationRevoke`
(and, dispatch being transactional, changes no state) exactly when a
pending `Revoke` scheduled request exists for the (candidate, nominator)
pair; when no such revoke is pending — in particular when only a
`Decrease` request is pending — the call never returns that error, so only
`Decrease` requests coexist with bond increases. -/
theorem nominator_bond_more_revoke_blocked (cfg : Cfg) (s : ChainState)
    (candidate nominator more : Nat) :
    (nominationRequestRevokeExists s candidate nominator = true →
      nominatorBondMore cfg s candidate nominator more
        = Except.error StakingError.pendingNominationRevoke) ∧
    (nominationRequestRevokeExists s candidate nominator = false →
      nominatorBondMore cfg s candidate nominator more
        ≠ Except.error StakingError.pendingNominationRevoke) := by
  constructor
  · intro hrev
    unfold nominatorBondMore
    rw [if_pos hrev]
  · intro hrev hc
    unfold nominatorBondMore at hc
    rw [if_neg (by simp [hrev])] at hc
    repeat' first
      | (split at hc)
      | (dsimp only at hc)
    all_goals simp at hc

/-- Nominator 2 nominates candidate 1 and has a pending revoke. -/
def c10RevokeState : ChainState :=
  { emptyChainState with
    scheduledRequests := [(1, [⟨2, 3, NominationAction.revoke 5⟩])],
    nominatorState := [(2, ⟨[⟨1, 5⟩], 5, 5⟩)] }

/-- Nominator 2 nominates candidate 1 with only a pending decrease; the
bond increase goes through. -/
def c10DecreaseState : ChainState :=
  { emptyChainState with
    scheduledRequests := [(1, [⟨2, 3, NominationAction.decrease 2⟩])],
    nominatorState := [(2, ⟨[⟨1, 5⟩], 5, 2⟩)],
    candidateInfo := [(1, ⟨20, 25, 1, CollatorStatus.active, none⟩)],
    topNominations := [(1, ⟨[⟨2, 5⟩], 5⟩)],
    bottomNominations := [(1, ⟨[], 0⟩)],
    candidatePool := [⟨1, 25⟩],
    total := 25 }

theorem nominator_bond_more_revoke_blocked_witness :
    (nominationRequestRevokeExists c10RevokeState 1 2 = true ∧
      nominatorBondMore exampleCfg c10RevokeState 1 2 4
        = Except.error StakingError.pendingNominationRevoke) ∧
    (nominationRequestRevokeExists c10DecreaseState 1 2 = false ∧
      nominatorBondMore exampleCfg c10DecreaseState 1 2 4
        ≠ Except.error StakingError.pendingNominationRevoke) ∧
    (∃ s2, nominatorBondMore exampleCfg c10DecreaseState 1 2 4
      = Except.ok s2) :=
  ⟨⟨by decide,
      (nominator_bond_more_revoke_blocked exampleCfg c10RevokeState 1 2 4).1
        (by decide)⟩,
    ⟨by decide,
      (nominator_bond_more_revoke_blocked exampleCfg c10DecreaseState 1 2 4).2
        (by decide)⟩,
    ⟨_, rfl⟩⟩

end AvnStaking
